import Mathlib

set_option maxRecDepth 8000

/-!
Verification development for the iidx_all_songs_master build pipeline.

The Lean definitions below are shallow embeddings of the Python sources:
  - `src/normalize.py`   (text canonicalization)
  - `src/parser.py`      (HTML song-table row parsing)
  - `src/db.py`          (soft-delete / reactivate upsert reconciliation)
  - `src/build_validation.py` (cross-build chart-id stability check)
  - `src/textage_loader.py`   (tolerant JS literal extraction)

Machine strings are `String`/`List Char`; Python `int` is `Int`; SQLite
row ids are `Nat`; clock readings are abstract `Nat` tags; fallible code
returns `Except`.  Calls into the Python standard library that carry
large external tables (`unicodedata.normalize`, `str.lower`, SHA-1) are
threaded as explicit function parameters, so every theorem quantifies
over them; concrete witnesses instantiate them with small executable
tables that agree with CPython on the inputs involved.
-/

namespace IidxMaster

/-! ## Python string primitives

`isPySpace` is the exact whitespace set shared by CPython's `str.strip`,
`str.isspace` and the `re` module's whitespace class for `str` patterns
(verified to be the same set of code points in CPython 3.x). -/

/-- The CPython whitespace code points (`str.isspace` and the regex
whitespace class coincide on this set). -/
def pySpaceCodes : List Nat :=
  [0x9, 0xa, 0xb, 0xc, 0xd, 0x1c, 0x1d, 0x1e, 0x1f, 0x20, 0x85, 0xa0,
   0x1680, 0x2000, 0x2001, 0x2002, 0x2003, 0x2004, 0x2005, 0x2006, 0x2007,
   0x2008, 0x2009, 0x200a, 0x2028, 0x2029, 0x202f, 0x205f, 0x3000]

/-- Whether a character is Python whitespace. -/
def isPySpace (c : Char) : Bool :=
  pySpaceCodes.contains c.toNat

/-- Python `str.strip()`: drop leading and trailing whitespace. -/
def stripPy (l : List Char) : List Char :=
  ((l.dropWhile isPySpace).reverse.dropWhile isPySpace).reverse

/-- Python `str.replace(a, b)` for single characters: a character map. -/
def replaceChar (a b : Char) (l : List Char) : List Char :=
  l.map fun c => if c = a then b else c

/-- Helper for `collapseWs`: the flag records whether the previous
character was whitespace (in which case further whitespace is absorbed
into the already-emitted space). -/
def collapseWsAux : Bool → List Char → List Char
  | _, [] => []
  | prevSpace, c :: rest =>
    if isPySpace c then
      if prevSpace then collapseWsAux true rest
      else ' ' :: collapseWsAux true rest
    else c :: collapseWsAux false rest

/-- Python `re.sub` of one-or-more whitespace by a single ASCII space:
replace each maximal whitespace run by one space. -/
def collapseWs (l : List Char) : List Char :=
  collapseWsAux false l

/-! ## `src/normalize.py` -/

/-- The `_HYPHEN_CHARS` list from `src/normalize.py`, in source order
(U+2010, U+002D, U+2012, U+2013, U+2014, U+2015, U+2212, U+30FC, U+FF70,
U+301C, U+FF5E). -/
def hyphenChars : List Char :=
  ['‐', '-', '‒', '–', '—', '―',
   '−', 'ー', 'ｰ', '〜', '～']

/-- The `_QUOTE_MAP` table from `src/normalize.py`, in source (insertion)
order: curly double quotes U+201C/U+201D/U+201E/U+201F to `"`, curly
single quotes U+2019/U+2018/U+201A/U+201B to `'`, and CJK corner
brackets U+300C/U+300D/U+300E/U+300F to `"`. -/
def quoteMap : List (Char × Char) :=
  [('“', '"'), ('”', '"'), ('„', '"'), ('‟', '"'),
   ('’', '\''), ('‘', '\''), ('‚', '\''), ('‛', '\''),
   ('「', '"'), ('」', '"'), ('『', '"'), ('』', '"')]

/-- `normalize_text` from `src/normalize.py`.  The two stdlib calls that
depend on the full Unicode character database are parameters:
`nfkc` models the NFKC pass of `unicodedata.normalize` and `lower`
models `str.lower()`.  All other steps are embedded directly:
newline/tab replacement, the quote map, the hyphen map, full-width space
(U+3000) to ASCII space, strip, whitespace-run collapsing, then
lowercasing. -/
def normalize_text (nfkc lower : String → String) (s : String) : String :=
  let l := (nfkc s).toList
  let l := replaceChar '\n' ' ' l
  let l := replaceChar '\r' ' ' l
  let l := replaceChar '\t' ' ' l
  let l := quoteMap.foldl (fun acc kv => replaceChar kv.1 kv.2 acc) l
  let l := hyphenChars.foldl (fun acc c => replaceChar c '-' acc) l
  let l := replaceChar '　' ' ' l
  let l := stripPy l
  let l := collapseWs l
  lower (String.mk l)

/-! ## CPython Unicode facts used by the C7 analysis

On the concrete strings below CPython evaluates (U+0331 is COMBINING
MACRON BELOW, U+1E96 is LATIN SMALL LETTER H WITH LINE BELOW):
  - NFKC of `"H̱"` is `"H̱"` (no precomposed capital
    H-with-line-below exists),
  - `"H̱".lower()` is `"ẖ"`,
  - NFKC of `"ẖ"` is `"ẖ"` (canonical composition),
  - `"ẖ".lower()` is `"ẖ"`.
`nfkcDemo` and `lowerDemo` are executable functions agreeing with CPython
on exactly the strings that arise in that computation and acting as the
identity elsewhere. -/

/-- Finite table model of the CPython NFKC pass for the strings arising
from the input `"H̱"`. -/
def nfkcDemo (s : String) : String :=
  if s = "h\u0331" then "\u1e96" else s

/-- Finite table model of `str.lower()` for the strings arising from the
input `"H̱"`. -/
def lowerDemo (s : String) : String :=
  if s = "H\u0331" then "h\u0331" else s

/-! ## `src/parser.py`

BeautifulSoup HTML access is modelled at the cell level: a `Td` carries
the text that the cell's text extraction would return and whether the
cell has a `colspan` attribute; a `Tr` is its list of `td` cells; the
table is its (optional) `tbody` as a row list. -/

/-- A `td` cell of the song table. -/
structure Td where
  text : String
  colspan : Bool
deriving DecidableEq, Repr

/-- A `tr` row of the song table. -/
structure Tr where
  tds : List Td
deriving DecidableEq, Repr

/-- `SongRow` from `src/models.py`: title/artist/genre plus the nine
optional chart levels. -/
structure SongRow where
  title : String
  artist : String
  genre : Option String
  sp_beginner : Option Int
  sp_normal : Option Int
  sp_hyper : Option Int
  sp_another : Option Int
  sp_leggendaria : Option Int
  dp_normal : Option Int
  dp_hyper : Option Int
  dp_another : Option Int
  dp_leggendaria : Option Int
deriving DecidableEq, Repr

/-- The distinct `ValidationError` messages `src/parser.py` can raise
(one Python exception class; the constructors record which message). -/
inductive ValidationErr where
  | noTbody
  | insufficientColumns (n : Nat)
  | invalidLevelCell (text : String)
  | titleEmpty
  | artistEmpty
  | allChartsDash (title artist : String)
deriving DecidableEq, Repr

/-- Helper for `stripBrackets`; the fuel argument only bounds recursion
and is always sufficient at `stripBrackets`. -/
def stripBracketsAux : Nat → List Char → List Char
  | 0, l => l
  | _ + 1, [] => []
  | fuel + 1, c :: rest =>
    if c = '[' then
      let pre := rest.takeWhile (fun d => d ≠ ']')
      if pre.length < rest.length ∧ pre ≠ [] then
        stripBracketsAux fuel (rest.drop (pre.length + 1))
      else c :: stripBracketsAux fuel rest
    else c :: stripBracketsAux fuel rest

/-- The `re.sub` pass of `_parse_level_cell` removing bracketed
annotations: each occurrence of a `[`, one or more non-`]` characters,
then `]` is deleted (non-overlapping, left to right). -/
def stripBrackets (l : List Char) : List Char :=
  stripBracketsAux l.length l

/-- Value of a decimal digit string as a Python `int`.  The regex digit
class and `int()` also accept non-ASCII decimal digits; those are
outside the modelled character range (the scraped cells are ASCII). -/
def digitsVal (l : List Char) : Int :=
  l.foldl (fun acc c => acc * 10 + ((c.toNat : Int) - 48)) 0

/-- `_parse_level_cell` from `src/parser.py`. -/
def parse_level_cell (text : String) : Except ValidationErr (Option Int) :=
  let s := stripPy text.toList
  if s = ['-'] ∨ s = [] then Except.ok none
  else
    let s2 := stripPy (stripBrackets s)
    if s2 = ['-'] ∨ s2 = [] then Except.ok none
    else if s2.all Char.isDigit then Except.ok (some (digitsVal s2))
    else Except.error (ValidationErr.invalidLevelCell text)

/-- Python `str.strip()` on a `String`. -/
def stripPyStr (s : String) : String :=
  String.mk (stripPy s.toList)

/-- Processing of a single `tr` inside the `parse_song_table` loop:
`none` when the row is skipped (no `td` cells, or some cell has a
`colspan` attribute), `some` for a produced `SongRow`, error for a
raised `ValidationError`. -/
def parseRow (tr : Tr) : Except ValidationErr (Option SongRow) :=
  if tr.tds.isEmpty then Except.ok none
  else if tr.tds.any (fun td => td.colspan) then Except.ok none
  else if tr.tds.length < 13 then
    Except.error (ValidationErr.insufficientColumns tr.tds.length)
  else
    let cols := (tr.tds.take 13).map (fun td => td.text)
    (parse_level_cell (cols.getD 0 "")).bind fun spB =>
    (parse_level_cell (cols.getD 1 "")).bind fun spN =>
    (parse_level_cell (cols.getD 2 "")).bind fun spH =>
    (parse_level_cell (cols.getD 3 "")).bind fun spA =>
    (parse_level_cell (cols.getD 4 "")).bind fun spL =>
    (parse_level_cell (cols.getD 5 "")).bind fun dpN =>
    (parse_level_cell (cols.getD 6 "")).bind fun dpH =>
    (parse_level_cell (cols.getD 7 "")).bind fun dpA =>
    (parse_level_cell (cols.getD 8 "")).bind fun dpL =>
    let genreS := stripPyStr (cols.getD 10 "")
    let genre := if genreS = "" then none else some genreS
    let title := stripPyStr (cols.getD 11 "")
    let artist := stripPyStr (cols.getD 12 "")
    if title = "" then Except.error ValidationErr.titleEmpty
    else if artist = "" then Except.error ValidationErr.artistEmpty
    else if spB = none ∧ spN = none ∧ spH = none ∧ spA = none ∧ spL = none ∧
        dpN = none ∧ dpH = none ∧ dpA = none ∧ dpL = none then
      Except.error (ValidationErr.allChartsDash title artist)
    else
      Except.ok (some
        { title := title, artist := artist, genre := genre,
          sp_beginner := spB, sp_normal := spN, sp_hyper := spH,
          sp_another := spA, sp_leggendaria := spL,
          dp_normal := dpN, dp_hyper := dpH, dp_another := dpA,
          dp_leggendaria := dpL })

/-- The row iteration of `parse_song_table`, as structural recursion:
the first raising row aborts the whole parse, skipped rows contribute
nothing, accepted rows are collected in order. -/
def parseRows : List Tr → Except ValidationErr (List SongRow)
  | [] => Except.ok []
  | tr :: rest =>
    match parseRow tr with
    | Except.error e => Except.error e
    | Except.ok none => parseRows rest
    | Except.ok (some row) =>
      match parseRows rest with
      | Except.error e => Except.error e
      | Except.ok rows => Except.ok (row :: rows)

/-- `parse_song_table` from `src/parser.py`; the argument is the table's
`tbody` (`none` when the table has no `tbody`). -/
def parse_song_table (tbody : Option (List Tr)) : Except ValidationErr (List SongRow) :=
  match tbody with
  | none => Except.error ValidationErr.noTbody
  | some trs => parseRows trs

/-! ## `src/db.py`

The SQLite store is modelled as in-memory tables: a list of `music`
rows, a list of `chart` rows, and the two `AUTOINCREMENT` counters.
`SELECT ... WHERE` lookups are first-match searches in row order;
`UPDATE ... WHERE id = ?` rewrites every row with that id (the primary
key makes it unique in any well-formed store); `INSERT` appends and
bumps the counter.  Timestamps are abstract `Nat` clock readings; the
`now_iso()` value of a run is passed in as `now`.  The SHA-1 digest and
the two Unicode-table functions of `normalize_text` are parameters
(`sha1_hex` only ever matters as a deterministic function of its
input). -/

/-- A row of the `music` table. -/
structure MusicRow where
  music_id : Nat
  music_key : String
  title : String
  normalized_title : String
  artist : String
  normalized_artist : String
  genre : Option String
  is_active : Bool
  last_seen_at : Nat
  created_at : Nat
  updated_at : Nat
deriving DecidableEq, Repr

/-- A row of the `chart` table. -/
structure ChartRow where
  chart_id : Nat
  music_id : Nat
  play_style : String
  difficulty : String
  level : Int
  is_active : Bool
  last_seen_at : Nat
  created_at : Nat
  updated_at : Nat
deriving DecidableEq, Repr

/-- The persistent store: both tables plus the autoincrement state. -/
structure Store where
  music : List MusicRow
  chart : List ChartRow
  next_music_id : Nat
  next_chart_id : Nat
deriving DecidableEq, Repr

section DbOps

variable (nfkc lower sha1_hex : String → String)

/-- `build_music_key` from `src/db.py`: the digest of the normalized
title and artist joined by a pipe. -/
def build_music_key (title artist : String) : String :=
  sha1_hex (normalize_text nfkc lower title ++ "|" ++ normalize_text nfkc lower artist)

/-- `deactivate_all` from `src/db.py`: set `is_active = 0` on every
`music` and `chart` row (timestamps untouched). -/
def deactivate_all (s : Store) : Store :=
  { s with
    music := s.music.map fun r => { r with is_active := false },
    chart := s.chart.map fun c => { c with is_active := false } }

/-- `upsert_music` from `src/db.py`: look the song's key up; insert a
fresh active row on a miss (returning the fresh id), else update the
mutable columns of the found row (genre, activity, timestamps) and
return its id. -/
def upsert_music (now : Nat) (s : Store) (song : SongRow) : Store × Nat :=
  let nt := normalize_text nfkc lower song.title
  let na := normalize_text nfkc lower song.artist
  let mkey := sha1_hex (nt ++ "|" ++ na)
  match s.music.find? (fun r => r.music_key == mkey) with
  | none =>
    let row : MusicRow :=
      { music_id := s.next_music_id, music_key := mkey,
        title := song.title, normalized_title := nt,
        artist := song.artist, normalized_artist := na,
        genre := song.genre, is_active := true,
        last_seen_at := now, created_at := now, updated_at := now }
    ({ s with music := s.music ++ [row], next_music_id := s.next_music_id + 1 },
      s.next_music_id)
  | some r =>
    ({ s with
        music := s.music.map fun r' =>
          if r'.music_id = r.music_id then
            { r' with genre := song.genre, is_active := true,
                      last_seen_at := now, updated_at := now }
          else r' },
      r.music_id)

/-- `upsert_chart` from `src/db.py`: look up by
`(music_id, play_style, difficulty)`; insert a fresh active row on a
miss, else update level, activity and timestamps of the found row. -/
def upsert_chart (now : Nat) (s : Store) (mid : Nat) (ps df : String) (lvl : Int) : Store :=
  match s.chart.find? (fun c => c.music_id == mid && c.play_style == ps && c.difficulty == df) with
  | none =>
    let row : ChartRow :=
      { chart_id := s.next_chart_id, music_id := mid,
        play_style := ps, difficulty := df, level := lvl,
        is_active := true, last_seen_at := now, created_at := now, updated_at := now }
    { s with chart := s.chart ++ [row], next_chart_id := s.next_chart_id + 1 }
  | some c =>
    { s with
      chart := s.chart.map fun c' =>
        if c'.chart_id = c.chart_id then
          { c' with level := lvl, is_active := true,
                    last_seen_at := now, updated_at := now }
        else c' }

/-- The nine `(play_style, difficulty, level)` slots of `apply_song`,
in source order. -/
def slotList (song : SongRow) : List (String × String × Option Int) :=
  [("SP", "BEGINNER", song.sp_beginner),
   ("SP", "NORMAL", song.sp_normal),
   ("SP", "HYPER", song.sp_hyper),
   ("SP", "ANOTHER", song.sp_another),
   ("SP", "LEGGENDARIA", song.sp_leggendaria),
   ("DP", "NORMAL", song.dp_normal),
   ("DP", "HYPER", song.dp_hyper),
   ("DP", "ANOTHER", song.dp_another),
   ("DP", "LEGGENDARIA", song.dp_leggendaria)]

/-- The levels actually present on a `SongRow` (the non-`None` chart
slots), used to state level invariants. -/
def songLevels (song : SongRow) : List Int :=
  [song.sp_beginner, song.sp_normal, song.sp_hyper, song.sp_another,
   song.sp_leggendaria, song.dp_normal, song.dp_hyper, song.dp_another,
   song.dp_leggendaria].filterMap id

/-- One iteration of the chart loop in `apply_song`: a `None` level is
skipped, otherwise the chart is upserted. -/
def chartSlot (now : Nat) (mid : Nat) (st : Store) (slot : String × String × Option Int) : Store :=
  match slot.2.2 with
  | none => st
  | some lvl => upsert_chart now st mid slot.1 slot.2.1 lvl

/-- `apply_song` from `src/db.py`: upsert the music row, then upsert
every present chart slot against the returned music id. -/
def apply_song (now : Nat) (s : Store) (song : SongRow) : Store :=
  let p := upsert_music nfkc lower sha1_hex now s song
  (slotList song).foldl (chartSlot now p.2) p.1

/-- The reconciliation sequence on a batch, as the claims state it:
`deactivate_all` followed by `apply_song` for each record in order. -/
def reconcile (now : Nat) (s : Store) (batch : List SongRow) : Store :=
  batch.foldl (apply_song nfkc lower sha1_hex now) (deactivate_all s)

end DbOps

/-! ### Timestamp-erased view of the store

`stripStore` projects away the three timestamp columns of every row;
it is exactly the "query-visible state except for timestamp columns"
of the idempotence requirement.  The reconciliation operations commute
with this projection (their control flow never reads a timestamp), so
idempotence is proved on the projected operations and transported. -/

/-- `music` row without its timestamp columns. -/
structure PMusicRow where
  music_id : Nat
  music_key : String
  title : String
  normalized_title : String
  artist : String
  normalized_artist : String
  genre : Option String
  is_active : Bool
deriving DecidableEq, Repr

/-- `chart` row without its timestamp columns. -/
structure PChartRow where
  chart_id : Nat
  music_id : Nat
  play_style : String
  difficulty : String
  level : Int
  is_active : Bool
deriving DecidableEq, Repr

/-- Store with all timestamp columns erased. -/
structure PStore where
  music : List PMusicRow
  chart : List PChartRow
  next_music_id : Nat
  next_chart_id : Nat
deriving DecidableEq, Repr

/-- Erase the timestamps of a `music` row. -/
def stripMusic (r : MusicRow) : PMusicRow :=
  { music_id := r.music_id, music_key := r.music_key, title := r.title,
    normalized_title := r.normalized_title, artist := r.artist,
    normalized_artist := r.normalized_artist, genre := r.genre,
    is_active := r.is_active }

/-- Erase the timestamps of a `chart` row. -/
def stripChart (c : ChartRow) : PChartRow :=
  { chart_id := c.chart_id, music_id := c.music_id,
    play_style := c.play_style, difficulty := c.difficulty,
    level := c.level, is_active := c.is_active }

/-- Erase all timestamps of a store. -/
def stripStore (s : Store) : PStore :=
  { music := s.music.map stripMusic, chart := s.chart.map stripChart,
    next_music_id := s.next_music_id, next_chart_id := s.next_chart_id }

section DbOpsP

variable (nfkc lower sha1_hex : String → String)

/-- `deactivate_all` on the timestamp-erased store. -/
def deactivate_allP (s : PStore) : PStore :=
  { s with
    music := s.music.map fun r => { r with is_active := false },
    chart := s.chart.map fun c => { c with is_active := false } }

/-- `upsert_music` on the timestamp-erased store. -/
def upsert_musicP (s : PStore) (song : SongRow) : PStore × Nat :=
  let nt := normalize_text nfkc lower song.title
  let na := normalize_text nfkc lower song.artist
  let mkey := sha1_hex (nt ++ "|" ++ na)
  match s.music.find? (fun r => r.music_key == mkey) with
  | none =>
    let row : PMusicRow :=
      { music_id := s.next_music_id, music_key := mkey,
        title := song.title, normalized_title := nt,
        artist := song.artist, normalized_artist := na,
        genre := song.genre, is_active := true }
    ({ s with music := s.music ++ [row], next_music_id := s.next_music_id + 1 },
      s.next_music_id)
  | some r =>
    ({ s with
        music := s.music.map fun r' =>
          if r'.music_id = r.music_id then
            { r' with genre := song.genre, is_active := true }
          else r' },
      r.music_id)

/-- `upsert_chart` on the timestamp-erased store. -/
def upsert_chartP (s : PStore) (mid : Nat) (ps df : String) (lvl : Int) : PStore :=
  match s.chart.find? (fun c => c.music_id == mid && c.play_style == ps && c.difficulty == df) with
  | none =>
    let row : PChartRow :=
      { chart_id := s.next_chart_id, music_id := mid,
        play_style := ps, difficulty := df, level := lvl, is_active := true }
    { s with chart := s.chart ++ [row], next_chart_id := s.next_chart_id + 1 }
  | some c =>
    { s with
      chart := s.chart.map fun c' =>
        if c'.chart_id = c.chart_id then
          { c' with level := lvl, is_active := true }
        else c' }

/-- One chart slot of `apply_song` on the timestamp-erased store. -/
def chartSlotP (mid : Nat) (st : PStore) (slot : String × String × Option Int) : PStore :=
  match slot.2.2 with
  | none => st
  | some lvl => upsert_chartP st mid slot.1 slot.2.1 lvl

/-- `apply_song` on the timestamp-erased store. -/
def apply_songP (s : PStore) (song : SongRow) : PStore :=
  let p := upsert_musicP nfkc lower sha1_hex s song
  (slotList song).foldl (chartSlotP p.2) p.1

/-- The reconciliation sequence on the timestamp-erased store. -/
def reconcileP (s : PStore) (batch : List SongRow) : PStore :=
  batch.foldl (apply_songP nfkc lower sha1_hex) (deactivate_allP s)

end DbOpsP

/-- Schema constraints SQLite enforces on every reachable store state:
primary keys are unique and below the autoincrement counters.  (The
`UNIQUE` constraints on `music_key` and on
`(music_id, play_style, difficulty)` also hold in reality but are not
needed by the theorems.) -/
def WFStore (s : Store) : Prop :=
  s.music.Pairwise (fun a b => a.music_id ≠ b.music_id) ∧
  s.chart.Pairwise (fun a b => a.chart_id ≠ b.chart_id) ∧
  (∀ r ∈ s.music, r.music_id < s.next_music_id) ∧
  (∀ c ∈ s.chart, c.chart_id < s.next_chart_id)

/-- The same schema constraints on a timestamp-erased store. -/
def WFStoreP (s : PStore) : Prop :=
  s.music.Pairwise (fun a b => a.music_id ≠ b.music_id) ∧
  s.chart.Pairwise (fun a b => a.chart_id ≠ b.chart_id) ∧
  (∀ r ∈ s.music, r.music_id < s.next_music_id) ∧
  (∀ c ∈ s.chart, c.chart_id < s.next_chart_id)

/-! ## `src/build_validation.py` — `validate_chart_id_stability`

The two SQLite files enter the function only through
`_load_chart_key_map`, which builds a Python dict from the natural key
`(textage_id, play_style, difficulty)` to `chart_id`.  The maps are
modelled as association lists in dict iteration order; a Python dict
has pairwise-distinct keys, and `.get` is the first-match lookup. -/

/-- The natural key of the stability check. -/
abbrev ChartKey := String × String × String

/-- The summary dict returned by `validate_chart_id_stability`.  Totals
are Python ints; the two derived totals are `Int` since Python computes
them by subtraction. -/
structure StabilitySummary where
  old_total : Nat
  new_total : Nat
  shared_total : Int
  new_only_total : Int
  missing_in_new_total : Nat
  missing_policy : String
deriving DecidableEq, Repr

/-- The exceptions `validate_chart_id_stability` can raise:
`invalidPolicy` is the `ValueError`; the other two are the
`RuntimeError`s (spec taxonomy: IntegrityError), carrying the full
count and the reported sample. -/
inductive StabilityError where
  | invalidPolicy
  | chartIdMismatch (count : Nat) (sample : List (ChartKey × Int × Int))
  | missingInNew (count : Nat) (sample : List ChartKey)
deriving DecidableEq, Repr

/-- Python `dict.get` on the modelled chart-key map. -/
def chartMapGet (m : List (ChartKey × Int)) (k : ChartKey) : Option Int :=
  (m.find? (fun kv => kv.1 == k)).map (fun kv => kv.2)

/-- The loop body of `validate_chart_id_stability`: thread the
`(mismatches, missing_in_new)` accumulators over one baseline entry. -/
def stabilityStep (new_map : List (ChartKey × Int))
    (acc : List (ChartKey × Int × Int) × List ChartKey) (kv : ChartKey × Int) :
    List (ChartKey × Int × Int) × List ChartKey :=
  match chartMapGet new_map kv.1 with
  | none => (acc.1, acc.2 ++ [kv.1])
  | some newId =>
    if newId ≠ kv.2 then (acc.1 ++ [(kv.1, kv.2, newId)], acc.2) else acc

/-- `validate_chart_id_stability` from `src/build_validation.py`, on the
loaded key maps. -/
def validate_chart_id_stability (old_map new_map : List (ChartKey × Int))
    (missing_policy : String) : Except StabilityError StabilitySummary :=
  if missing_policy ≠ "error" ∧ missing_policy ≠ "warn" then
    Except.error StabilityError.invalidPolicy
  else
    let acc := old_map.foldl (stabilityStep new_map) ([], [])
    let mismatches := acc.1
    let missing_in_new := acc.2
    if mismatches ≠ [] then
      Except.error (StabilityError.chartIdMismatch mismatches.length (mismatches.take 10))
    else if missing_in_new ≠ [] ∧ missing_policy = "error" then
      Except.error (StabilityError.missingInNew missing_in_new.length (missing_in_new.take 10))
    else
      Except.ok
        { old_total := old_map.length, new_total := new_map.length,
          shared_total := (old_map.length : Int) - missing_in_new.length,
          new_only_total :=
            (new_map.length : Int) - ((old_map.length : Int) - missing_in_new.length),
          missing_in_new_total := missing_in_new.length,
          missing_policy := missing_policy }

/-! ## `src/textage_loader.py` — `_extract_js_object`

Each regex of the source is embedded as an explicit left-to-right
scanner with the exact match/advance semantics of the CPython `re`
module on that pattern (none of the patterns needs backtracking: every
repeated class is disjoint from the character that follows it).  Word
characters are modelled over ASCII (the identifiers and delimiters the
patterns look at are ASCII in this data).  Fuel arguments only bound
recursion; every consumer passes enough fuel (each step consumes at
least one input character). -/

/-- Whether `p` is an initial segment of `l`. -/
def listStartsWith : List Char → List Char → Bool
  | [], _ => true
  | _ :: _, [] => false
  | p :: ps, c :: cs => p = c && listStartsWith ps cs

/-- One candidate position of the anchor regex: the variable name, then
optional whitespace, `=`, optional whitespace, `{`. -/
def matchAssignAt (varname : List Char) (l : List Char) : Bool :=
  listStartsWith varname l &&
    match (l.drop varname.length).dropWhile isPySpace with
    | '=' :: r => (r.dropWhile isPySpace).headD ' ' = '{'
    | _ => false

/-- `re.search` for the anchor: index of the leftmost match. -/
def findAssignAux (varname : List Char) : Nat → List Char → Option Nat
  | _, [] => none
  | i, l@(_ :: rest) =>
    if matchAssignAt varname l then some i else findAssignAux varname (i + 1) rest

/-- `js_text.find("{", start)`: index of the first `{` at or after
`start`. -/
def findBraceFrom (start : Nat) (l : List Char) : Option Nat :=
  ((l.drop start).findIdx? (fun c => c = '{')).map (fun i => i + start)

/-- The boundary scan of `_extract_js_object`: brace depth, string
state (either quote style), escape flag.  Returns the index of the
closing brace, or `none` when the input is exhausted first.  The
initial `str_char` of the source is the empty string; it is read only
while inside a string, by which time it has been set, so any initial
character is equivalent. -/
def scanObjEnd : List Char → Nat → Bool → Bool → Char → Int → Option Nat
  | [], _, _, _, _, _ => none
  | ch :: rest, idx, inStr, escaped, strChar, depth =>
    if inStr then
      if escaped then scanObjEnd rest (idx + 1) true false strChar depth
      else if ch = '\\' then scanObjEnd rest (idx + 1) true true strChar depth
      else if ch = strChar then scanObjEnd rest (idx + 1) false false strChar depth
      else scanObjEnd rest (idx + 1) true false strChar depth
    else
      if ch = '"' ∨ ch = '\'' then scanObjEnd rest (idx + 1) true escaped ch depth
      else if ch = '{' then scanObjEnd rest (idx + 1) false escaped strChar (depth + 1)
      else if ch = '}' then
        if depth - 1 = 0 then some idx
        else scanObjEnd rest (idx + 1) false escaped strChar (depth - 1)
      else scanObjEnd rest (idx + 1) inStr escaped strChar depth

/-- First character class of a constant name. -/
def isConstStart (c : Char) : Bool :=
  ('A' ≤ c ∧ c ≤ 'Z') ∨ c = '_'

/-- Character class of a constant name tail. -/
def isConstChar (c : Char) : Bool :=
  isConstStart c ∨ c.isDigit

/-- One candidate position of the constant-declaration regex
(name, `=`, digits, `;` with optional whitespace): on a match, the
`(name, digits)` pair and the remaining input after the `;`. -/
def matchConstAt (l : List Char) : Option ((String × String) × List Char) :=
  match l with
  | [] => none
  | c :: _ =>
    if isConstStart c then
      let name := l.takeWhile isConstChar
      match (l.drop name.length).dropWhile isPySpace with
      | '=' :: r3 =>
        let r4 := r3.dropWhile isPySpace
        let digits := r4.takeWhile Char.isDigit
        if digits = [] then none
        else
          match (r4.drop digits.length).dropWhile isPySpace with
          | ';' :: r6 => some ((String.mk name, String.mk digits), r6)
          | _ => none
      | _ => none
    else none

/-- `re.findall` of the constant declarations: leftmost,
non-overlapping. -/
def findConstsAux : Nat → List Char → List (String × String)
  | 0, _ => []
  | _ + 1, [] => []
  | fuel + 1, l@(_ :: rest) =>
    match matchConstAt l with
    | some (kv, after) => kv :: findConstsAux fuel after
    | none => findConstsAux fuel rest

/-- Python `dict(pairs)`: keys in first-occurrence order, each holding
the value of its last occurrence. -/
def dictOfPairs (ps : List (String × String)) : List (String × String) :=
  ps.foldl
    (fun acc kv =>
      if acc.any (fun e => e.1 = kv.1) then
        acc.map (fun e => if e.1 = kv.1 then (e.1, kv.2) else e)
      else acc ++ [kv])
    []

/-- The constant table of the source text: `dict(re.findall(...))`. -/
def findConsts (l : List Char) : List (String × String) :=
  dictOfPairs (findConstsAux l.length l)

/-- ASCII word characters (the regex word class restricted to the
modelled character range). -/
def isWordChar (c : Char) : Bool :=
  c.isAlpha ∨ c.isDigit ∨ c = '_'

/-- Whether a character may precede or follow a constant occurrence:
the word boundary plus the two quote lookarounds of the substitution
pattern. -/
def constBoundaryOk : Option Char → Bool
  | none => true
  | some p => ¬ isWordChar p ∧ p ≠ '"' ∧ p ≠ '\''

/-- The substitution scanner for one constant: each occurrence of
`name` at word boundaries, neither immediately preceded nor immediately
followed by a quote character, is replaced by `-val`.  `prev` is the
character of the *original* text before the scan position (`re.sub`
lookarounds inspect the original text). -/
def substConstAux (name val : List Char) : Nat → Option Char → List Char → List Char
  | 0, _, l => l
  | _ + 1, _, [] => []
  | fuel + 1, prev, l@(c :: rest) =>
    if listStartsWith name l ∧ constBoundaryOk prev ∧
        constBoundaryOk ((l.drop name.length).head?) then
      '-' :: val ++ substConstAux name val fuel (name.getLast? <|> prev) (l.drop name.length)
    else c :: substConstAux name val fuel (some c) rest

/-- `re.sub` replacing unquoted word-bounded occurrences of a constant
name by its negated value. -/
def substConst (name val : String) (l : List Char) : List Char :=
  substConstAux name.toList val.toList (l.length + 1) none l

/-- Apply all constant substitutions in dict order. -/
def substConsts (consts : List (String × String)) (l : List Char) : List Char :=
  consts.foldl (fun acc kv => substConst kv.1 kv.2 acc) l

/-! #### The substitution with the word class as a parameter

CPython's `\b` in a `str` pattern is built on the Unicode-aware word
class `\w`.  Like the other Unicode-table functions (`nfkc`, `lower`),
the word class is therefore threaded as a parameter `wordc` when the
substitution is studied in general; `isWordChar` above is its ASCII
restriction, exact on the ASCII-only source texts evaluated in closed
form.  Because a constant name consists of word characters (`matchConstAt`
admits only `[A-Z_][A-Z0-9_]*`), the `\b` on each side of the name holds
exactly when the adjacent original character is not a word character. -/

/-- `constBoundaryOk` with the word class as a parameter. -/
def constBoundaryOkW (wordc : Char → Bool) : Option Char → Bool
  | none => true
  | some p => ¬ wordc p ∧ p ≠ '"' ∧ p ≠ '\''

/-- The substitution scanner with the word class as a parameter;
`substConstAux` is this scanner at the ASCII word class. -/
def substConstAuxW (wordc : Char → Bool) (name val : List Char) :
    Nat → Option Char → List Char → List Char
  | 0, _, l => l
  | _ + 1, _, [] => []
  | fuel + 1, prev, l@(c :: rest) =>
    if listStartsWith name l ∧ constBoundaryOkW wordc prev ∧
        constBoundaryOkW wordc ((l.drop name.length).head?) then
      '-' :: val ++ substConstAuxW wordc name val fuel (name.getLast? <|> prev)
        (l.drop name.length)
    else c :: substConstAuxW wordc name val fuel (some c) rest

/-- `re.sub` of one constant with the word class as a parameter. -/
def substConstW (wordc : Char → Bool) (name val : String) (l : List Char) : List Char :=
  substConstAuxW wordc name.toList val.toList (l.length + 1) none l

/-- A body built from segments with one occurrence of `name` after
each segment: `s0 ++ name ++ s1 ++ name ++ ... ++ last`. -/
def joinUp (name : List Char) : List (List Char) → List Char → List Char
  | [], last => last
  | s :: rest, last => s ++ name ++ joinUp name rest last

/-- The amended claim as a reference function on such a decomposition:
each interleaved occurrence of the name is replaced by `-val` exactly
when the original character before it and the original character after
it are each neither a word character nor a quote; every other
character of the body is preserved.  `prev` is the character preceding
the decomposed text. -/
def substSpec (wordc : Char → Bool) (name val : List Char) :
    List (List Char) → List Char → Option Char → List Char
  | [], last, _ => last
  | s :: rest, last, prev =>
    s ++ (if constBoundaryOkW wordc (s.getLast?.or prev) = true ∧
            constBoundaryOkW wordc (joinUp name rest last).head? = true
          then '-' :: val else name)
      ++ substSpec wordc name val rest last (name.getLast?.or (s.getLast?.or prev))

/-- The decomposition is faithful: within each segment-plus-occurrence
block the name starts only at the designated junction, and it occurs
nowhere in the final segment. -/
def sepOK (name : List Char) : List (List Char) → List Char → Prop
  | [], last => ∀ j, j < last.length → ¬ listStartsWith name (last.drop j) = true
  | s :: rest, last =>
    (∀ j, j < s.length + name.length →
      listStartsWith name ((s ++ name ++ joinUp name rest last).drop j) = true →
      j = s.length) ∧
    sepOK name rest last

/-- Demo word class agreeing with CPython's Unicode-aware `\w` on every
character exercised by the witness: the ASCII word characters plus
HIRAGANA LETTER A. -/
def wordcDemo (c : Char) : Bool :=
  isWordChar c ∨ c = 'あ'

/-- Line-comment removal: each `//` up to (excluding) the next newline
or end of input is deleted. -/
def stripLineCommentsAux : Nat → List Char → List Char
  | 0, l => l
  | _ + 1, [] => []
  | fuel + 1, '/' :: '/' :: rest => stripLineCommentsAux fuel (rest.dropWhile (fun c => c ≠ '\n'))
  | fuel + 1, c :: rest => c :: stripLineCommentsAux fuel rest

/-- Line-comment removal pass. -/
def stripLineComments (l : List Char) : List Char :=
  stripLineCommentsAux (l.length + 1) l

/-- The literal characters of the decoration-call head. -/
def fontcolorHead : List Char :=
  ['.', 'f', 'o', 'n', 't', 'c', 'o', 'l', 'o', 'r', '(']

/-- Decoration removal: each `.fontcolor(`, any non-`)` characters,
`)` is deleted. -/
def stripFontcolorAux : Nat → List Char → List Char
  | 0, l => l
  | _ + 1, [] => []
  | fuel + 1, l@(c :: rest) =>
    if listStartsWith fontcolorHead l then
      let r := l.drop fontcolorHead.length
      let pre := r.takeWhile (fun d => d ≠ ')')
      if pre.length < r.length then stripFontcolorAux fuel (r.drop (pre.length + 1))
      else c :: stripFontcolorAux fuel rest
    else c :: stripFontcolorAux fuel rest

/-- Decoration removal pass. -/
def stripFontcolor (l : List Char) : List Char :=
  stripFontcolorAux (l.length + 1) l

/-- Single-quoted object keys to double quotes: an opening `'`, content
without `'`, the closing `'`, optional whitespace, then `:`; the quotes
become `"` and everything else is kept. -/
def quoteKeysAux : Nat → List Char → List Char
  | 0, l => l
  | _ + 1, [] => []
  | fuel + 1, '\'' :: rest =>
    let content := rest.takeWhile (fun d => d ≠ '\'')
    if content.length < rest.length then
      let r2 := rest.drop (content.length + 1)
      let sp := r2.takeWhile isPySpace
      match r2.drop sp.length with
      | ':' :: r3 => '"' :: content ++ '"' :: sp ++ ':' :: quoteKeysAux fuel r3
      | _ => '\'' :: quoteKeysAux fuel rest
    else '\'' :: quoteKeysAux fuel rest
  | fuel + 1, c :: rest => c :: quoteKeysAux fuel rest

/-- Single-quoted key pass. -/
def quoteKeys (l : List Char) : List Char :=
  quoteKeysAux (l.length + 1) l

/-- The bare enumerated-category letters. -/
def isAtoF (c : Char) : Bool :=
  'A' ≤ c ∧ c ≤ 'F'

/-- One lookaround pass quoting a bare `A`–`F` between the delimiters
`pre` and `post` (lookarounds consume nothing, so `prev` tracks the
original text). -/
def quoteBareAux (pre post : Char) : Option Char → List Char → List Char
  | _, [] => []
  | prev, c :: rest =>
    if isAtoF c ∧ prev = some pre ∧ rest.headD ' ' = post then
      '"' :: c :: '"' :: quoteBareAux pre post (some c) rest
    else c :: quoteBareAux pre post (some c) rest

/-- One bare-identifier quoting pass. -/
def quoteBare (pre post : Char) (l : List Char) : List Char :=
  quoteBareAux pre post none l

/-- The three bare-identifier passes in source order: between commas,
after `[` before a comma, after a comma before `]`. -/
def quoteBareAll (l : List Char) : List Char :=
  quoteBare ',' ']' (quoteBare '[' ',' (quoteBare ',' ',' l))

/-- Body of a double-quoted literal for the control-character pass: a
sequence of either a backslash plus any character, or a character other
than `"`, backslash and newline, ending at a closing `"`.  Returns the
raw body and the rest after the closing quote. -/
def matchDqAux : Nat → List Char → List Char → Option (List Char × List Char)
  | 0, _, _ => none
  | _ + 1, acc, '"' :: rest => some (acc, rest)
  | fuel + 1, acc, '\\' :: e :: rest => matchDqAux fuel (acc ++ ['\\', e]) rest
  | fuel + 1, acc, c :: rest =>
    if c = '\\' ∨ c = '\n' then none else matchDqAux fuel (acc ++ [c]) rest
  | _ + 1, _, [] => none

/-- Lowercase hex digit of a value below 16. -/
def hexDigit (n : Nat) : Char :=
  if n < 10 then Char.ofNat (48 + n) else Char.ofNat (87 + n)

/-- The `\uXXXX` escape of a code point below 0x10000 (the raw control
characters this pass escapes are all below 0x20). -/
def uEscape (n : Nat) : List Char :=
  ['\\', 'u', hexDigit (n / 4096 % 16), hexDigit (n / 256 % 16),
   hexDigit (n / 16 % 16), hexDigit (n % 16)]

/-- `_escape_ctrl` body transform: already-escaped pairs are copied;
raw characters below 0x20 become `\uXXXX`; a trailing lone backslash is
copied as-is. -/
def escapeCtrlBody : Nat → List Char → List Char
  | 0, l => l
  | _ + 1, [] => []
  | fuel + 1, '\\' :: e :: rest => '\\' :: e :: escapeCtrlBody fuel rest
  | fuel + 1, c :: rest =>
    if c.toNat < 0x20 then uEscape c.toNat ++ escapeCtrlBody fuel rest
    else c :: escapeCtrlBody fuel rest

/-- The control-character escaping pass over every double-quoted
literal. -/
def escapeCtrlAux : Nat → List Char → List Char
  | 0, l => l
  | _ + 1, [] => []
  | fuel + 1, '"' :: rest =>
    match matchDqAux (rest.length + 1) [] rest with
    | some (body, r2) =>
      '"' :: escapeCtrlBody (body.length + 1) body ++ '"' :: escapeCtrlAux fuel r2
    | none => '"' :: escapeCtrlAux fuel rest
  | fuel + 1, c :: rest => c :: escapeCtrlAux fuel rest

/-- The control-character escaping pass. -/
def escapeCtrl (l : List Char) : List Char :=
  escapeCtrlAux (l.length + 1) l

/-- JSON values as produced by `json.loads` on the rewritten object
text.  Integer literals are `jint`; literals with a fractional part or
exponent (and the CPython `NaN`/`Infinity` extensions) are `jfloat`
carrying the written literal — no float arithmetic is modelled and no
such literal occurs in this data. -/
inductive Json where
  | jnull
  | jbool (b : Bool)
  | jint (n : Int)
  | jfloat (raw : String)
  | jstr (s : String)
  | jarr (elems : List Json)
  | jobj (fields : List (String × Json))

/-- JSON inter-token whitespace. -/
def skipJsonWs (l : List Char) : List Char :=
  l.dropWhile (fun c => c = ' ' ∨ c = '\t' ∨ c = '\n' ∨ c = '\x0d')

/-- Hex digit value. -/
def hexVal? (c : Char) : Option Nat :=
  if '0' ≤ c ∧ c ≤ '9' then some (c.toNat - 48)
  else if 'a' ≤ c ∧ c ≤ 'f' then some (c.toNat - 87)
  else if 'A' ≤ c ∧ c ≤ 'F' then some (c.toNat - 55)
  else none

/-- Four hex digits. -/
def hex4? : List Char → Option (Nat × List Char)
  | a :: b :: c :: d :: rest =>
    match hexVal? a, hexVal? b, hexVal? c, hexVal? d with
    | some x, some y, some z, some w => some (((x * 16 + y) * 16 + z) * 16 + w, rest)
    | _, _, _, _ => none
  | _ => none

/-- JSON string body after the opening `"` (strict mode: raw control
characters are rejected; `\uXXXX` escapes combine surrogate pairs; a
lone surrogate — representable in a Python `str` but not in a scalar
`Char` — is modelled as U+FFFD). -/
def parseJStr : Nat → List Char → List Char → Option (String × List Char)
  | 0, _, _ => none
  | _ + 1, _, [] => none
  | _ + 1, acc, '"' :: rest => some (String.mk acc, rest)
  | fuel + 1, acc, '\\' :: e :: rest =>
    match e with
    | '"' => parseJStr fuel (acc ++ ['"']) rest
    | '\\' => parseJStr fuel (acc ++ ['\\']) rest
    | '/' => parseJStr fuel (acc ++ ['/']) rest
    | 'b' => parseJStr fuel (acc ++ ['\x08']) rest
    | 'f' => parseJStr fuel (acc ++ ['\x0c']) rest
    | 'n' => parseJStr fuel (acc ++ ['\n']) rest
    | 'r' => parseJStr fuel (acc ++ ['\x0d']) rest
    | 't' => parseJStr fuel (acc ++ ['\t']) rest
    | 'u' =>
      match hex4? rest with
      | none => none
      | some (code, r2) =>
        if 0xd800 ≤ code ∧ code < 0xdc00 then
          match r2 with
          | '\\' :: 'u' :: r3 =>
            match hex4? r3 with
            | some (code2, r4) =>
              if 0xdc00 ≤ code2 ∧ code2 < 0xe000 then
                parseJStr fuel
                  (acc ++ [Char.ofNat (0x10000 + (code - 0xd800) * 1024 + (code2 - 0xdc00))]) r4
              else parseJStr fuel (acc ++ ['�', '�']) r4
            | none => parseJStr fuel (acc ++ ['�']) r2
          | _ => parseJStr fuel (acc ++ ['�']) r2
        else if 0xdc00 ≤ code ∧ code < 0xe000 then
          parseJStr fuel (acc ++ ['�']) r2
        else parseJStr fuel (acc ++ [Char.ofNat code]) r2
    | _ => none
  | fuel + 1, acc, c :: rest =>
    if c = '\\' ∨ c.toNat < 0x20 then none
    else parseJStr fuel (acc ++ [c]) rest

/-- Exponent part of a JSON number (after the `e`/`E`). -/
def parseExpDigits (r : List Char) : Option (List Char) :=
  let r1 := match r with
    | '+' :: t => t
    | '-' :: t => t
    | _ => r
  let ds := r1.takeWhile Char.isDigit
  if ds = [] then none else some (r1.drop ds.length)

/-- A JSON number at the head of the input, including the CPython
decoder's `NaN`/`Infinity`/`-Infinity` extensions. -/
def parseJNum (l : List Char) : Option (Json × List Char) :=
  if listStartsWith "NaN".toList l then some (Json.jfloat "NaN", l.drop 3)
  else if listStartsWith "Infinity".toList l then some (Json.jfloat "Infinity", l.drop 8)
  else if listStartsWith "-Infinity".toList l then some (Json.jfloat "-Infinity", l.drop 9)
  else
    let neg := l.headD ' ' = '-'
    let l1 := if neg then l.drop 1 else l
    let intPart := l1.takeWhile Char.isDigit
    if intPart = [] then none
    else if intPart.length > 1 ∧ intPart.headD ' ' = '0' then none
    else
      let l2 := l1.drop intPart.length
      let fracRes : Option (Bool × List Char) :=
        match l2 with
        | '.' :: r =>
          let fr := r.takeWhile Char.isDigit
          if fr = [] then none else some (true, r.drop fr.length)
        | _ => some (false, l2)
      match fracRes with
      | none => none
      | some (hasFrac, l3) =>
        let expRes : Option (Bool × List Char) :=
          match l3 with
          | 'e' :: r => (parseExpDigits r).map (fun t => (true, t))
          | 'E' :: r => (parseExpDigits r).map (fun t => (true, t))
          | _ => some (false, l3)
        match expRes with
        | none => none
        | some (hasExp, l4) =>
          if hasFrac ∨ hasExp then
            some (Json.jfloat (String.mk (l.take (l.length - l4.length))), l4)
          else
            some (Json.jint (if neg then -digitsVal intPart else digitsVal intPart), l4)

/-- Python-dict insertion for JSON object fields (later duplicate keys
overwrite in place). -/
def dictInsertJson (k : String) (v : Json) (m : List (String × Json)) : List (String × Json) :=
  if m.any (fun e => e.1 = k) then
    m.map (fun e => if e.1 = k then (k, v) else e)
  else m ++ [(k, v)]

/-- Parse positions of the JSON grammar: a value, the elements of an
array after its first `[`, or the fields of an object after its first
`{` (one function so that recursion is structural on the fuel and the
kernel can evaluate it). -/
inductive JMode where
  | value
  | arrElems (acc : List Json)
  | objFields (acc : List (String × Json))

/-- The strict JSON decoder (`json.loads`) as a recursive descent over
a parse mode. -/
def parseJ : Nat → JMode → List Char → Option (Json × List Char)
  | 0, _, _ => none
  | fuel + 1, JMode.value, l =>
    match skipJsonWs l with
    | [] => none
    | '{' :: rest =>
      match skipJsonWs rest with
      | '}' :: r2 => some (Json.jobj [], r2)
      | r2 => parseJ fuel (JMode.objFields []) r2
    | '[' :: rest =>
      match skipJsonWs rest with
      | ']' :: r2 => some (Json.jarr [], r2)
      | r2 => parseJ fuel (JMode.arrElems []) r2
    | '"' :: rest => (parseJStr (rest.length + 1) [] rest).map (fun p => (Json.jstr p.1, p.2))
    | l2 =>
      if listStartsWith "true".toList l2 then some (Json.jbool true, l2.drop 4)
      else if listStartsWith "false".toList l2 then some (Json.jbool false, l2.drop 5)
      else if listStartsWith "null".toList l2 then some (Json.jnull, l2.drop 4)
      else parseJNum l2
  | fuel + 1, JMode.arrElems acc, l =>
    match parseJ fuel JMode.value l with
    | none => none
    | some (v, rest) =>
      match skipJsonWs rest with
      | ',' :: r2 => parseJ fuel (JMode.arrElems (acc ++ [v])) r2
      | ']' :: r2 => some (Json.jarr (acc ++ [v]), r2)
      | _ => none
  | fuel + 1, JMode.objFields acc, l =>
    match skipJsonWs l with
    | '"' :: rest =>
      match parseJStr (rest.length + 1) [] rest with
      | none => none
      | some (k, r2) =>
        match skipJsonWs r2 with
        | ':' :: r3 =>
          match parseJ fuel JMode.value r3 with
          | none => none
          | some (v, r4) =>
            match skipJsonWs r4 with
            | ',' :: r5 => parseJ fuel (JMode.objFields (acc ++ [(k, v)])) r5
            | '}' :: r5 =>
              some (Json.jobj ((acc ++ [(k, v)]).foldl
                (fun m kv => dictInsertJson kv.1 kv.2 m) []), r5)
            | _ => none
        | _ => none
    | _ => none

/-- `json.loads`: parse one value, then require only whitespace to
remain. -/
def jsonLoads (l : List Char) : Option Json :=
  match parseJ (l.length + 1) JMode.value l with
  | some (v, rest) => if skipJsonWs rest = [] then some v else none
  | none => none

/-- Python `str()` of a decoded JSON value, for the first-element
coercion of the per-entry mode.  Integers and strings (the cases that
occur in this table) are exact; the other constructor renderings are
simplified stand-ins (`repr`-based container rendering and the shortest
round-trip float format are out of modelled scope). -/
def pyStr : Json → String
  | Json.jstr s => s
  | Json.jint n => toString n
  | Json.jbool true => "True"
  | Json.jbool false => "False"
  | Json.jnull => "None"
  | Json.jfloat raw => raw
  | Json.jarr _ => "[...]"
  | Json.jobj _ => "{...}"

/-- One candidate position of the per-entry regex: a quote (either
style), a nonempty key without quote characters, a quote (either
style), optional whitespace, `:`, optional whitespace, then `[`,
non-`]` characters, `]`.  On a match: the key, the bracketed array
text, and the rest after the `]`. -/
def matchEntryAt (l : List Char) : Option ((String × List Char) × List Char) :=
  match l with
  | q :: rest =>
    if q = '"' ∨ q = '\'' then
      let key := rest.takeWhile (fun c => c ≠ '"' ∧ c ≠ '\'')
      if key = [] then none
      else
        match rest.drop key.length with
        | q2 :: r2 =>
          if q2 = '"' ∨ q2 = '\'' then
            match (r2.dropWhile isPySpace) with
            | ':' :: r4 =>
              match r4.dropWhile isPySpace with
              | '[' :: r6 =>
                let inner := r6.takeWhile (fun c => c ≠ ']')
                if inner.length < r6.length then
                  some ((String.mk key, '[' :: inner ++ [']']), r6.drop (inner.length + 1))
                else none
              | _ => none
            | _ => none
          else none
        | [] => none
    else none
  | [] => none

/-- `re.findall` of the per-entry regex: leftmost, non-overlapping. -/
def findEntriesAux : Nat → List Char → List (String × List Char)
  | 0, _ => []
  | _ + 1, [] => []
  | fuel + 1, l@(_ :: rest) =>
    match matchEntryAt l with
    | some (kv, after) => kv :: findEntriesAux fuel after
    | none => findEntriesAux fuel rest

/-- All `"key": [...]` entries of the object text. -/
def findEntries (l : List Char) : List (String × List Char) :=
  findEntriesAux (l.length + 1) l

/-- The first-element coercion of the `titletbl` branch: on a nonempty
decoded array, the first element is replaced by its `str()` text; any
other decoded value is kept as is. -/
def coerceFirst : Json → Json
  | Json.jarr (x :: xs) => Json.jarr (Json.jstr (pyStr x) :: xs)
  | v => v

/-- One iteration of the per-entry loop of the `titletbl` branch: an
entry whose array fails to parse is skipped; a parsed value has its
first element coerced and is assigned into the dict. -/
def entryStep (acc : List (String × Json)) (kv : String × List Char) :
    List (String × Json) :=
  match jsonLoads kv.2 with
  | none => acc
  | some v => dictInsertJson kv.1 (coerceFirst v) acc

/-- The per-entry loop of the `titletbl` branch. -/
def processEntries (entries : List (String × List Char)) : List (String × Json) :=
  entries.foldl entryStep []

/-- The `RuntimeError`s `_extract_js_object` can raise. -/
inductive ExtractErr where
  | varNotFound
  | openBraceNotFound
  | endBraceNotFound
  | jsonParseFailed
deriving DecidableEq, Repr

/-- `_extract_js_object` from `src/textage_loader.py`.  The result is
the decoded mapping (for the whole-document mode the parse of the
object text always yields an object, since the text starts at the
matched `{`). -/
def extract_js_object (js : List Char) (varname : String) :
    Except ExtractErr (List (String × Json)) :=
  match findAssignAux varname.toList 0 js with
  | none => Except.error ExtractErr.varNotFound
  | some start =>
    match findBraceFrom start js with
    | none => Except.error ExtractErr.openBraceNotFound
    | some braceStart =>
      match scanObjEnd (js.drop braceStart) braceStart false false ' ' 0 with
      | none => Except.error ExtractErr.endBraceNotFound
      | some endIdx =>
        let objText0 := (js.drop braceStart).take (endIdx + 1 - braceStart)
        let objText1 := substConsts (findConsts js) objText0
        let objText2 := stripLineComments objText1
        let objText3 := stripFontcolor objText2
        let objText4 := quoteKeys objText3
        let objText5 := quoteBareAll objText4
        if varname = "titletbl" then
          Except.ok (processEntries (findEntries objText5))
        else
          match jsonLoads (escapeCtrl objText5) with
          | some (Json.jobj fields) => Except.ok fields
          | some _ => Except.error ExtractErr.jsonParseFailed
          | none => Except.error ExtractErr.jsonParseFailed

/-! ### Merge view for reconciliation idempotence

Running the batch a second time revisits exactly the rows the first
run touched.  `mergeStore s1 t` describes the intermediate state of
the second run in terms of the first run: `s1` is the first run's
final state and `t` the first run's state at the corresponding point.
A row the first run has already touched by this point (its `t`
counterpart is active) carries the mutable columns of `t`; a row not
yet touched is the `s1` row deactivated. -/

/-- The columns of a `music` row no operation ever changes. -/
def mskel (r : PMusicRow) : Nat × String × String × String × String × String :=
  (r.music_id, r.music_key, r.title, r.normalized_title, r.artist, r.normalized_artist)

/-- The columns of a `chart` row no operation ever changes. -/
def cskel (c : PChartRow) : Nat × Nat × String × String :=
  (c.chart_id, c.music_id, c.play_style, c.difficulty)

/-- `a` is stage-consistent with `l`: on its immutable columns, `a` is
an initial segment of `l`.  Holds of every intermediate state of a run
whose final music table is `l`, because the operations only update
rows in place or append. -/
def musicAligned (a l : List PMusicRow) : Prop :=
  a.map mskel = (l.map mskel).take a.length

/-- Chart-table analogue of `musicAligned`. -/
def chartAligned (a l : List PChartRow) : Prop :=
  a.map cskel = (l.map cskel).take a.length

/-- Merge of one already-touched music row: mutable columns from the
intermediate state `a`, immutable ones from the final row `r` (they
agree anyway when the rows are aligned). -/
def mergeMusicRow (a r : PMusicRow) : PMusicRow :=
  { r with is_active := a.is_active, genre := if a.is_active then a.genre else r.genre }

/-- Merge the intermediate music table into the final one: shared
positions take mutable columns from the intermediate row, the rows the
first run appended later are deactivated. -/
def mergeMusic : List PMusicRow → List PMusicRow → List PMusicRow
  | _, [] => []
  | [], r :: rest => { r with is_active := false } :: mergeMusic [] rest
  | a :: as, r :: rest => mergeMusicRow a r :: mergeMusic as rest

/-- Chart analogue of `mergeMusicRow` (the mutable columns of a chart
row are `level` and `is_active`). -/
def mergeChartRow (a c : PChartRow) : PChartRow :=
  { c with is_active := a.is_active, level := if a.is_active then a.level else c.level }

/-- Chart analogue of `mergeMusic`. -/
def mergeChart : List PChartRow → List PChartRow → List PChartRow
  | _, [] => []
  | [], c :: rest => { c with is_active := false } :: mergeChart [] rest
  | a :: as, c :: rest => mergeChartRow a c :: mergeChart as rest

/-- The second run's state corresponding to first-run state `t`, given
first-run final state `s1`. -/
def mergeStore (s1 t : PStore) : PStore :=
  { music := mergeMusic t.music s1.music, chart := mergeChart t.chart s1.chart,
    next_music_id := s1.next_music_id, next_chart_id := s1.next_chart_id }

/-! ### Activity predicates

The claim that every entity derived from the batch ends up active is
stated through the same lookups `upsert_music` / `upsert_chart`
perform. -/

/-- Some music row with key `k` is found, is active, and has id `mid`. -/
def MusicActive (l : List MusicRow) (k : String) (mid : Nat) : Prop :=
  ∃ r, l.find? (fun x => x.music_key == k) = some r ∧ r.is_active = true ∧ r.music_id = mid

/-- Some chart row for `(mid, ps, df)` is found and is active. -/
def ChartActive (l : List ChartRow) (mid : Nat) (ps df : String) : Prop :=
  ∃ c, l.find? (fun x => x.music_id == mid && x.play_style == ps && x.difficulty == df) = some c
    ∧ c.is_active = true

/-- The store holds an active music row for the song and an active
chart row for each of its present chart slots, all against one id. -/
def SongActive (nfkc lower sha1_hex : String → String) (t : Store) (song : SongRow) : Prop :=
  ∃ mid, MusicActive t.music (build_music_key nfkc lower sha1_hex song.title song.artist) mid ∧
    ∀ slot ∈ slotList song, slot.2.2.isSome = true → ChartActive t.chart mid slot.1 slot.2.1

/-! # Theorems -/

/-! ## C7 — normalization idempotence -/

/-- Claim C7 states `normalize_text (normalize_text x) = normalize_text x`
for every text `x`.  The code violates it: on `x = "H" ++ U+0331`
(capital H with combining macron below) the first application lowercases
to `"h" ++ U+0331`, which is not NFKC-normal, and the second
application's NFKC pass composes it to the single code point U+1E96, so
the two results differ.  `nfkcDemo`/`lowerDemo` agree with CPython's
`unicodedata.normalize`/`str.lower` on every string arising in this
computation. -/
theorem normalize_text_not_idempotent :
    normalize_text nfkcDemo lowerDemo
        (normalize_text nfkcDemo lowerDemo "H̱") ≠
      normalize_text nfkcDemo lowerDemo "H̱" := by
  decide

/-! ## C3 — cross-build chart-id stability -/

/-- The stability-fold step never empties the mismatch accumulator. -/
theorem stabilityStep_fst_ne_nil (new_map : List (ChartKey × Int))
    (acc : List (ChartKey × Int × Int) × List ChartKey) (kv : ChartKey × Int)
    (h : acc.1 ≠ []) : (stabilityStep new_map acc kv).1 ≠ [] := by
  unfold stabilityStep
  cases chartMapGet new_map kv.1 with
  | none => simpa using h
  | some nid =>
    by_cases he : nid = kv.2
    · simpa [he] using h
    · simp [he]

/-- A remapped baseline entry makes the step's mismatch accumulator
nonempty. -/
theorem stabilityStep_fst_ne_nil_of_mismatch (new_map : List (ChartKey × Int))
    (acc : List (ChartKey × Int × Int) × List ChartKey) (kv : ChartKey × Int)
    (nid : Int) (hget : chartMapGet new_map kv.1 = some nid) (hne : nid ≠ kv.2) :
    (stabilityStep new_map acc kv).1 ≠ [] := by
  unfold stabilityStep
  rw [hget]
  simp [hne]

/-- The mismatch accumulator of the stability fold never becomes empty
again, and any baseline entry remapped in the new store makes it
nonempty. -/
theorem stability_fold_mismatch_ne_nil (new_map : List (ChartKey × Int)) :
    ∀ (old : List (ChartKey × Int))
      (acc : List (ChartKey × Int × Int) × List ChartKey),
      (acc.1 ≠ [] ∨ ∃ kv ∈ old, ∃ nid, chartMapGet new_map kv.1 = some nid ∧ nid ≠ kv.2) →
      (old.foldl (stabilityStep new_map) acc).1 ≠ [] := by
  intro old
  induction old with
  | nil =>
    intro acc h
    rcases h with h | ⟨kv, hmem, _⟩
    · simpa using h
    · exact absurd hmem (List.not_mem_nil kv)
  | cons kv rest ih =>
    intro acc h
    rw [List.foldl_cons]
    apply ih
    rcases h with h | ⟨kv', hmem, nid, hget, hne⟩
    · exact Or.inl (stabilityStep_fst_ne_nil new_map acc kv h)
    · rcases List.mem_cons.mp hmem with rfl | hmem'
      · exact Or.inl (stabilityStep_fst_ne_nil_of_mismatch new_map acc kv' nid hget hne)
      · exact Or.inr ⟨kv', hmem', nid, hget, hne⟩

/-- Claim C3: if some natural key maps to chart id 7 in the baseline
and to chart id 9 in the new store, `validate_chart_id_stability`
raises the chart-id-mismatch IntegrityError (for either valid policy);
every such error reports at most 10 mismatch examples; and with policy
`"warn"` and the key absent from the new store, the scenario's baseline
yields no error and a summary whose `missing_in_new_total` is 1. -/
theorem validate_chart_id_stability_claims :
    (∀ (old_map new_map : List (ChartKey × Int)) (p : String) (k : ChartKey),
        p = "error" ∨ p = "warn" →
        chartMapGet old_map k = some 7 →
        chartMapGet new_map k = some 9 →
        ∃ n sample, validate_chart_id_stability old_map new_map p =
          Except.error (StabilityError.chartIdMismatch n sample)) ∧
    (∀ (old_map new_map : List (ChartKey × Int)) (p : String) (n : Nat)
        (sample : List (ChartKey × Int × Int)),
        validate_chart_id_stability old_map new_map p =
          Except.error (StabilityError.chartIdMismatch n sample) →
        sample.length ≤ 10) ∧
    (∀ (k : ChartKey) (new_map : List (ChartKey × Int)),
        chartMapGet new_map k = none →
        validate_chart_id_stability [(k, 7)] new_map "warn" =
          Except.ok
            { old_total := 1, new_total := new_map.length, shared_total := 0,
              new_only_total := (new_map.length : Int),
              missing_in_new_total := 1, missing_policy := "warn" }) := by
  refine ⟨?_, ?_, ?_⟩
  · intro old_map new_map p k hp hold hnew
    have hpol : ¬ (p ≠ "error" ∧ p ≠ "warn") := by
      rcases hp with rfl | rfl <;> simp
    obtain ⟨kv, hfind⟩ : ∃ kv, old_map.find? (fun kv => kv.1 == k) = some kv := by
      unfold chartMapGet at hold
      cases hf : old_map.find? (fun kv => kv.1 == k) with
      | none => rw [hf] at hold; simp at hold
      | some kv => exact ⟨kv, rfl⟩
    have hmem : kv ∈ old_map := List.mem_of_find?_eq_some hfind
    have hkey : kv.1 = k := by
      have := List.find?_some hfind
      simpa using this
    have hval : kv.2 = 7 := by
      unfold chartMapGet at hold
      rw [hfind] at hold
      simpa using hold
    have hne : (old_map.foldl (stabilityStep new_map) ([], [])).1 ≠ [] := by
      apply stability_fold_mismatch_ne_nil
      right
      refine ⟨kv, hmem, 9, ?_, ?_⟩
      · rw [hkey]; exact hnew
      · rw [hval]; decide
    refine ⟨(old_map.foldl (stabilityStep new_map) ([], [])).1.length,
            (old_map.foldl (stabilityStep new_map) ([], [])).1.take 10, ?_⟩
    unfold validate_chart_id_stability
    rw [if_neg hpol, if_pos hne]
  · intro old_map new_map p n sample h
    unfold validate_chart_id_stability at h
    by_cases hpol : p ≠ "error" ∧ p ≠ "warn"
    · rw [if_pos hpol] at h
      exact absurd h (by simp)
    · rw [if_neg hpol] at h
      by_cases hmm : (old_map.foldl (stabilityStep new_map) ([], [])).1 ≠ []
      · rw [if_pos hmm] at h
        have : sample = (old_map.foldl (stabilityStep new_map) ([], [])).1.take 10 := by
          injection h with h'
          injection h' with _ h2
          exact h2.symm
        rw [this]
        exact List.length_take_le 10 _
      · rw [if_neg hmm] at h
        by_cases hmiss : (old_map.foldl (stabilityStep new_map) ([], [])).2 ≠ [] ∧ p = "error"
        · rw [if_pos hmiss] at h
          exact absurd h (by simp)
        · rw [if_neg hmiss] at h
          exact absurd h (by simp)
  · intro k new_map hnone
    unfold validate_chart_id_stability
    rw [if_neg (by simp)]
    have hfold : ([(k, 7)].foldl (stabilityStep new_map) ([], [])) =
        (([] : List (ChartKey × Int × Int)), [k]) := by
      simp only [List.foldl_cons, List.foldl_nil]
      unfold stabilityStep
      rw [hnone]
      rfl
    rw [hfold]
    rw [if_neg (by simp : ¬ ((([] : List (ChartKey × Int × Int)), [k]).1 ≠ []))]
    rw [if_neg (fun h => absurd h.2 (by decide) : ¬ (((([] : List (ChartKey × Int × Int)), [k]).2 ≠ []) ∧ "warn" = "error"))]
    norm_num

/-- Witness for C3 at the concrete two-store scenario. -/
theorem validate_chart_id_stability_claims_witness :
    chartMapGet [((("T001", "SP", "ANOTHER") : ChartKey), 7)] ("T001", "SP", "ANOTHER") =
      some 7 ∧
    chartMapGet [((("T001", "SP", "ANOTHER") : ChartKey), 9)] ("T001", "SP", "ANOTHER") =
      some 9 ∧
    ∃ n sample,
      validate_chart_id_stability [((("T001", "SP", "ANOTHER") : ChartKey), 7)]
          [((("T001", "SP", "ANOTHER") : ChartKey), 9)] "error" =
        Except.error (StabilityError.chartIdMismatch n sample) :=
  ⟨by decide, by decide,
    validate_chart_id_stability_claims.1 _ _ "error" ("T001", "SP", "ANOTHER")
      (Or.inl rfl) (by decide) (by decide)⟩

/-! ## Parser lemmas and claims C10, C6, C8 -/

/-- `Except.bind` on a success. -/
theorem ebind_ok {ε α β : Type} (a : α) (f : α → Except ε β) :
    (Except.ok a : Except ε α).bind f = f a := rfl

/-- `Except.bind` on an error. -/
theorem ebind_error {ε α β : Type} (e : ε) (f : α → Except ε β) :
    (Except.error e : Except ε α).bind f = (Except.error e : Except ε β) := rfl

/-- Rows with no `td` cell or with a colspan'd cell are skipped. -/
theorem parseRow_filler (tr : Tr)
    (h : tr.tds = [] ∨ ∃ td ∈ tr.tds, td.colspan = true) :
    parseRow tr = Except.ok none := by
  unfold parseRow
  rcases h with h | ⟨td, hmem, hcs⟩
  · rw [if_pos (by simp [h])]
  · by_cases he : tr.tds.isEmpty
    · rw [if_pos (by simp [he])]
    · rw [if_neg (by simp [he]), if_pos (by exact List.any_eq_true.mpr ⟨td, hmem, hcs⟩)]

/-- A skipped row can be deleted from the row list without changing the
parse. -/
theorem parseRows_filler_skip (tr : Tr)
    (h : tr.tds = [] ∨ ∃ td ∈ tr.tds, td.colspan = true) :
    ∀ pre suf : List Tr,
      parseRows (pre ++ tr :: suf) = parseRows (pre ++ suf) := by
  intro pre
  induction pre with
  | nil =>
    intro suf
    simp only [List.nil_append]
    show parseRows (tr :: suf) = parseRows suf
    simp only [parseRows]
    rw [parseRow_filler tr h]
  | cons hd tl ih =>
    intro suf
    simp only [List.cons_append, parseRows, List.append_eq]
    rw [ih suf]

/-- Claim C10: `parse_song_table` silently skips structural filler
rows — a `tbody` row with no `td` cells, or one with a colspan'd
cell, produces no `SongRow` and raises no error, and parsing continues
with the remaining rows: the parse with the filler row present equals
the parse with it removed, wherever it occurs. -/
theorem parse_song_table_skips_filler (pre suf : List Tr) (tr : Tr)
    (h : tr.tds = [] ∨ ∃ td ∈ tr.tds, td.colspan = true) :
    parse_song_table (some (pre ++ tr :: suf)) = parse_song_table (some (pre ++ suf)) := by
  unfold parse_song_table
  exact parseRows_filler_skip tr h pre suf

/-- Witness for C10 at a concrete filler row. -/
theorem parse_song_table_skips_filler_witness :
    (({ tds := [] } : Tr).tds = [] ∨ ∃ td ∈ ({ tds := [] } : Tr).tds, td.colspan = true) ∧
    parse_song_table (some ([{ tds := [] }] : List Tr)) = parse_song_table (some []) :=
  ⟨Or.inl rfl, parse_song_table_skips_filler [] [] { tds := [] } (Or.inl rfl)⟩

/-- A raising row makes the whole parse raise. -/
theorem parseRows_error_of_mem :
    ∀ (trs : List Tr) (tr : Tr), tr ∈ trs → (∃ e, parseRow tr = Except.error e) →
      ∃ e', parseRows trs = Except.error e' := by
  intro trs
  induction trs with
  | nil =>
    intro tr h
    exact absurd h (List.not_mem_nil tr)
  | cons hd tl ih =>
    rintro tr hmem ⟨e, he⟩
    rcases List.mem_cons.mp hmem with rfl | hmem'
    · exact ⟨e, by simp only [parseRows]; rw [he]⟩
    · cases hhd : parseRow hd with
      | error e1 => exact ⟨e1, by simp only [parseRows]; rw [hhd]⟩
      | ok o =>
        obtain ⟨e', he'⟩ := ih tr hmem' ⟨e, he⟩
        cases o with
        | none => exact ⟨e', by simp only [parseRows]; rw [hhd]; exact he'⟩
        | some row => exact ⟨e', by simp only [parseRows]; rw [hhd, he']⟩

/-- Claim C6 counterexample: a row with exactly 12 `td` cells, one of
which carries a `colspan` attribute, is skipped silently — the parse
succeeds with no output — contradicting the claim that every row with
only 12 td cells raises a ValidationError. -/
theorem parse_song_table_twelve_cells_no_error :
    parse_song_table (some [{ tds := List.replicate 11 { text := "-", colspan := false } ++
        [{ text := "x", colspan := true }] }]) = Except.ok [] ∧
    (List.replicate 11 ({ text := "-", colspan := false } : Td) ++
        [({ text := "x", colspan := true } : Td)]).length = 12 :=
  ⟨rfl, rfl⟩

/-- The default cell used for positional access in statements. -/
theorem colsGetD (tds : List Td) (h13 : 13 ≤ tds.length) (i : Nat) (hi : i < 13) :
    ((tds.take 13).map (fun td => td.text)).getD i "" =
      (tds.getD i { text := "", colspan := false }).text := by
  have h1 : i < ((tds.take 13).map (fun td => td.text)).length := by
    simp only [List.length_map, List.length_take]
    omega
  have h2 : i < tds.length := by omega
  rw [List.getD_eq_getElem _ _ h1, List.getD_eq_getElem _ _ h2]
  simp [List.getElem_take]

/-- Positional access lands inside the level-cell block. -/
theorem getD_mem_take_nine (tds : List Td) (i : Nat) (hi : i < 9) (h9 : 9 ≤ tds.length) :
    tds.getD i { text := "", colspan := false } ∈ tds.take 9 := by
  have h2 : i < tds.length := by omega
  have h3 : i < (tds.take 9).length := by
    simp only [List.length_take]
    omega
  have h4 : tds.getD i { text := "", colspan := false } =
      (tds.take 9).getD i { text := "", colspan := false } := by
    rw [List.getD_eq_getElem _ _ h2, List.getD_eq_getElem _ _ h3]
    simp [List.getElem_take]
  rw [h4, List.getD_eq_getElem _ _ h3]
  exact List.getElem_mem h3

/-- A cell stripping to the `-` sentinel parses to an absent level. -/
theorem parse_level_cell_dash (t : String) (h : stripPy t.toList = ['-']) :
    parse_level_cell t = Except.ok none := by
  simp only [parse_level_cell]
  rw [h]
  simp

/-- The raising branches of a non-filler wide row: with every level
cell holding the sentinel, `parseRow` raises one of the three
validation errors regardless of the remaining cells. -/
theorem parseRow_all_dash_error (tr : Tr) (hne : tr.tds ≠ [])
    (hcs : ∀ td ∈ tr.tds, td.colspan = false) (h13 : 13 ≤ tr.tds.length)
    (hdash : ∀ td ∈ tr.tds.take 9, stripPy td.text.toList = ['-']) :
    ∃ e, parseRow tr = Except.error e := by
  have h1 : ¬ (tr.tds.isEmpty = true) := by simp [hne]
  have h2 : ¬ (tr.tds.any (fun td => td.colspan) = true) := by
    simp only [List.any_eq_true, not_exists]
    intro td
    rw [not_and]
    intro hmem
    simp [hcs td hmem]
  have h3 : ¬ (tr.tds.length < 13) := by omega
  have hlev : ∀ i, i < 9 →
      parse_level_cell (((tr.tds.take 13).map (fun td => td.text)).getD i "") =
        Except.ok none := by
    intro i hi
    rw [colsGetD tr.tds h13 i (by omega)]
    exact parse_level_cell_dash _ (hdash _ (getD_mem_take_nine tr.tds i hi (by omega)))
  have hres : parseRow tr =
      (if stripPyStr (((tr.tds.take 13).map (fun td => td.text)).getD 11 "") = ""
       then Except.error ValidationErr.titleEmpty
       else if stripPyStr (((tr.tds.take 13).map (fun td => td.text)).getD 12 "") = ""
       then Except.error ValidationErr.artistEmpty
       else Except.error (ValidationErr.allChartsDash
         (stripPyStr (((tr.tds.take 13).map (fun td => td.text)).getD 11 ""))
         (stripPyStr (((tr.tds.take 13).map (fun td => td.text)).getD 12 "")))) := by
    simp only [parseRow]
    rw [if_neg h1, if_neg h2, if_neg h3]
    rw [hlev 0 (by omega), ebind_ok]
    rw [hlev 1 (by omega), ebind_ok]
    rw [hlev 2 (by omega), ebind_ok]
    rw [hlev 3 (by omega), ebind_ok]
    rw [hlev 4 (by omega), ebind_ok]
    rw [hlev 5 (by omega), ebind_ok]
    rw [hlev 6 (by omega), ebind_ok]
    rw [hlev 7 (by omega), ebind_ok]
    rw [hlev 8 (by omega), ebind_ok]
    simp
  rw [hres]
  by_cases h4 : stripPyStr (((tr.tds.take 13).map (fun td => td.text)).getD 11 "") = ""
  · exact ⟨_, by rw [if_pos h4]⟩
  by_cases h5 : stripPyStr (((tr.tds.take 13).map (fun td => td.text)).getD 12 "") = ""
  · exact ⟨_, by rw [if_neg h4, if_pos h5]⟩
  · exact ⟨_, by rw [if_neg h4, if_neg h5]⟩

/-- A non-filler wide row with an empty (after trimming) title cell
makes `parseRow` raise (either an invalid level cell on the way, or the
empty-title error). -/
theorem parseRow_empty_title_error (tr : Tr) (hne : tr.tds ≠ [])
    (hcs : ∀ td ∈ tr.tds, td.colspan = false) (h13 : 13 ≤ tr.tds.length)
    (htitle : stripPy (tr.tds.getD 11 { text := "", colspan := false }).text.toList = []) :
    ∃ e, parseRow tr = Except.error e := by
  have h1 : ¬ (tr.tds.isEmpty = true) := by simp [hne]
  have h2 : ¬ (tr.tds.any (fun td => td.colspan) = true) := by
    simp only [List.any_eq_true, not_exists]
    intro td
    rw [not_and]
    intro hmem
    simp [hcs td hmem]
  have h3 : ¬ (tr.tds.length < 13) := by omega
  have h4 : stripPyStr (((tr.tds.take 13).map (fun td => td.text)).getD 11 "") = "" := by
    rw [colsGetD tr.tds h13 11 (by omega)]
    unfold stripPyStr
    rw [htitle]
  simp only [parseRow]
  rw [if_neg h1, if_neg h2, if_neg h3]
  cases e0 : parse_level_cell (((tr.tds.take 13).map (fun td => td.text)).getD 0 "") with
  | error e => exact ⟨e, rfl⟩
  | ok v0 =>
    rw [ebind_ok]
    cases e1 : parse_level_cell (((tr.tds.take 13).map (fun td => td.text)).getD 1 "") with
    | error e => exact ⟨e, rfl⟩
    | ok v1 =>
      rw [ebind_ok]
      cases e2 : parse_level_cell (((tr.tds.take 13).map (fun td => td.text)).getD 2 "") with
      | error e => exact ⟨e, rfl⟩
      | ok v2 =>
        rw [ebind_ok]
        cases e3 : parse_level_cell (((tr.tds.take 13).map (fun td => td.text)).getD 3 "") with
        | error e => exact ⟨e, rfl⟩
        | ok v3 =>
          rw [ebind_ok]
          cases e4 : parse_level_cell (((tr.tds.take 13).map (fun td => td.text)).getD 4 "") with
          | error e => exact ⟨e, rfl⟩
          | ok v4 =>
            rw [ebind_ok]
            cases e5 : parse_level_cell (((tr.tds.take 13).map (fun td => td.text)).getD 5 "") with
            | error e => exact ⟨e, rfl⟩
            | ok v5 =>
              rw [ebind_ok]
              cases e6 : parse_level_cell (((tr.tds.take 13).map (fun td => td.text)).getD 6 "") with
              | error e => exact ⟨e, rfl⟩
              | ok v6 =>
                rw [ebind_ok]
                cases e7 : parse_level_cell (((tr.tds.take 13).map (fun td => td.text)).getD 7 "") with
                | error e => exact ⟨e, rfl⟩
                | ok v7 =>
                  rw [ebind_ok]
                  cases e8 : parse_level_cell (((tr.tds.take 13).map (fun td => td.text)).getD 8 "") with
                  | error e => exact ⟨e, rfl⟩
                  | ok v8 =>
                    rw [ebind_ok]
                    exact ⟨ValidationErr.titleEmpty, by rw [if_pos h4]⟩

/-- Claim C6 amended: restricted to rows that are not skipped as
structural filler (at least one `td` cell and no colspan'd cell), each
scenario raises: all nine level cells holding the `-` sentinel, fewer
than 13 cells, or an empty (after trimming) title cell — and, the parse
erroring, no `SongRow` is produced for the table. -/
theorem parse_song_table_nonfiller_error_cases
    (trs : List Tr) (tr : Tr) (hmem : tr ∈ trs)
    (hne : tr.tds ≠ []) (hcs : ∀ td ∈ tr.tds, td.colspan = false)
    (hcase :
      (9 ≤ tr.tds.length ∧ ∀ td ∈ tr.tds.take 9, stripPy td.text.toList = ['-']) ∨
      tr.tds.length < 13 ∨
      (13 ≤ tr.tds.length ∧
        stripPy (tr.tds.getD 11 { text := "", colspan := false }).text.toList = [])) :
    ∃ e, parse_song_table (some trs) = Except.error e := by
  have h1 : ¬ (tr.tds.isEmpty = true) := by simp [hne]
  have h2 : ¬ (tr.tds.any (fun td => td.colspan) = true) := by
    simp only [List.any_eq_true, not_exists]
    intro td
    rw [not_and]
    intro hmem'
    simp [hcs td hmem']
  have hrow : ∃ e, parseRow tr = Except.error e := by
    by_cases h3 : tr.tds.length < 13
    · refine ⟨ValidationErr.insufficientColumns tr.tds.length, ?_⟩
      simp only [parseRow]
      rw [if_neg h1, if_neg h2, if_pos h3]
    · have h13 : 13 ≤ tr.tds.length := Nat.le_of_not_lt h3
      rcases hcase with ⟨_, hdash⟩ | hlt | ⟨_, htitle⟩
      · exact parseRow_all_dash_error tr hne hcs h13 hdash
      · omega
      · exact parseRow_empty_title_error tr hne hcs h13 htitle
  obtain ⟨e', he'⟩ := parseRows_error_of_mem trs tr hmem hrow
  exact ⟨e', by unfold parse_song_table; exact he'⟩

/-- Witness for the amended C6 at a concrete all-sentinel row. -/
theorem parse_song_table_nonfiller_error_cases_witness :
    ∃ e, parse_song_table
        (some [{ tds := List.replicate 9 { text := "-", colspan := false } ++
                        [{ text := "120", colspan := false },
                         { text := "G", colspan := false },
                         { text := "T", colspan := false },
                         { text := "A", colspan := false }] }]) =
      Except.error e :=
  parse_song_table_nonfiller_error_cases _ _ (List.mem_singleton.mpr rfl)
    (by decide) (by decide) (Or.inl (by decide))

/-- A digit character's code point is at least 48. -/
theorem char_digit_ge (c : Char) (hc : c.isDigit = true) : 48 ≤ c.toNat := by
  simp only [Char.isDigit, Bool.and_eq_true, decide_eq_true_eq] at hc
  exact hc.1

/-- The decimal value of a digit string is nonnegative (fold
invariant). -/
theorem digitsVal_foldl_nonneg :
    ∀ (l : List Char) (acc : Int), 0 ≤ acc → (∀ c ∈ l, c.isDigit = true) →
      0 ≤ l.foldl (fun acc c => acc * 10 + ((c.toNat : Int) - 48)) acc := by
  intro l
  induction l with
  | nil => intro acc h _; simpa using h
  | cons c rest ih =>
    intro acc hacc hdig
    rw [List.foldl_cons]
    apply ih
    · have h48 : 48 ≤ c.toNat := char_digit_ge c (hdig c (List.mem_cons_self _ _))
      have h48' : (48 : Int) ≤ (c.toNat : Int) := by exact_mod_cast h48
      have hmul : (0 : Int) ≤ acc * 10 := by positivity
      omega
    · intro c' hc'
      exact hdig c' (List.mem_cons_of_mem _ hc')

/-- The decimal value of a digit string is nonnegative. -/
theorem digitsVal_nonneg (l : List Char) (h : ∀ c ∈ l, c.isDigit = true) :
    0 ≤ digitsVal l :=
  digitsVal_foldl_nonneg l 0 le_rfl h

/-- A level accepted by `_parse_level_cell` is nonnegative: the cell
must be a digit string, whose value is its decimal reading. -/
theorem parse_level_cell_ok_some (t : String) (v : Int)
    (h : parse_level_cell t = Except.ok (some v)) : 0 ≤ v := by
  simp only [parse_level_cell] at h
  by_cases h1 : stripPy t.toList = ['-'] ∨ stripPy t.toList = []
  · rw [if_pos h1] at h
    exact absurd h (by simp)
  · rw [if_neg h1] at h
    by_cases h2 : stripPy (stripBrackets (stripPy t.toList)) = ['-'] ∨
        stripPy (stripBrackets (stripPy t.toList)) = []
    · rw [if_pos h2] at h
      exact absurd h (by simp)
    · rw [if_neg h2] at h
      by_cases h3 : (stripPy (stripBrackets (stripPy t.toList))).all Char.isDigit = true
      · rw [if_pos h3] at h
        have hv : v = digitsVal (stripPy (stripBrackets (stripPy t.toList))) :=
          (Option.some.inj (Except.ok.inj h)).symm
        rw [hv]
        exact digitsVal_nonneg _ (List.all_eq_true.mp h3)
      · rw [if_neg h3] at h
        exact absurd h (by simp)

/-- Inversion of an accepted row: each chart-level field of the
produced `SongRow` is exactly the result of `_parse_level_cell` on its
cell. -/
theorem parseRow_ok_some_levels (tr : Tr) (row : SongRow)
    (h : parseRow tr = Except.ok (some row)) :
    parse_level_cell (((tr.tds.take 13).map (fun td => td.text)).getD 0 "") =
      Except.ok row.sp_beginner ∧
    parse_level_cell (((tr.tds.take 13).map (fun td => td.text)).getD 1 "") =
      Except.ok row.sp_normal ∧
    parse_level_cell (((tr.tds.take 13).map (fun td => td.text)).getD 2 "") =
      Except.ok row.sp_hyper ∧
    parse_level_cell (((tr.tds.take 13).map (fun td => td.text)).getD 3 "") =
      Except.ok row.sp_another ∧
    parse_level_cell (((tr.tds.take 13).map (fun td => td.text)).getD 4 "") =
      Except.ok row.sp_leggendaria ∧
    parse_level_cell (((tr.tds.take 13).map (fun td => td.text)).getD 5 "") =
      Except.ok row.dp_normal ∧
    parse_level_cell (((tr.tds.take 13).map (fun td => td.text)).getD 6 "") =
      Except.ok row.dp_hyper ∧
    parse_level_cell (((tr.tds.take 13).map (fun td => td.text)).getD 7 "") =
      Except.ok row.dp_another ∧
    parse_level_cell (((tr.tds.take 13).map (fun td => td.text)).getD 8 "") =
      Except.ok row.dp_leggendaria := by
  simp only [parseRow] at h
  by_cases h1 : tr.tds.isEmpty = true
  · rw [if_pos h1] at h
    exact absurd h (by simp)
  rw [if_neg h1] at h
  by_cases h2 : (tr.tds.any fun td => td.colspan) = true
  · rw [if_pos h2] at h
    exact absurd h (by simp)
  rw [if_neg h2] at h
  by_cases h3 : tr.tds.length < 13
  · rw [if_pos h3] at h
    exact absurd h (by simp)
  rw [if_neg h3] at h
  cases e0 : parse_level_cell (((tr.tds.take 13).map (fun td => td.text)).getD 0 "") with
  | error e => rw [e0, ebind_error] at h; exact absurd h (by simp)
  | ok v0 =>
  rw [e0, ebind_ok] at h
  cases e1 : parse_level_cell (((tr.tds.take 13).map (fun td => td.text)).getD 1 "") with
  | error e => rw [e1, ebind_error] at h; exact absurd h (by simp)
  | ok v1 =>
  rw [e1, ebind_ok] at h
  cases e2 : parse_level_cell (((tr.tds.take 13).map (fun td => td.text)).getD 2 "") with
  | error e => rw [e2, ebind_error] at h; exact absurd h (by simp)
  | ok v2 =>
  rw [e2, ebind_ok] at h
  cases e3 : parse_level_cell (((tr.tds.take 13).map (fun td => td.text)).getD 3 "") with
  | error e => rw [e3, ebind_error] at h; exact absurd h (by simp)
  | ok v3 =>
  rw [e3, ebind_ok] at h
  cases e4 : parse_level_cell (((tr.tds.take 13).map (fun td => td.text)).getD 4 "") with
  | error e => rw [e4, ebind_error] at h; exact absurd h (by simp)
  | ok v4 =>
  rw [e4, ebind_ok] at h
  cases e5 : parse_level_cell (((tr.tds.take 13).map (fun td => td.text)).getD 5 "") with
  | error e => rw [e5, ebind_error] at h; exact absurd h (by simp)
  | ok v5 =>
  rw [e5, ebind_ok] at h
  cases e6 : parse_level_cell (((tr.tds.take 13).map (fun td => td.text)).getD 6 "") with
  | error e => rw [e6, ebind_error] at h; exact absurd h (by simp)
  | ok v6 =>
  rw [e6, ebind_ok] at h
  cases e7 : parse_level_cell (((tr.tds.take 13).map (fun td => td.text)).getD 7 "") with
  | error e => rw [e7, ebind_error] at h; exact absurd h (by simp)
  | ok v7 =>
  rw [e7, ebind_ok] at h
  cases e8 : parse_level_cell (((tr.tds.take 13).map (fun td => td.text)).getD 8 "") with
  | error e => rw [e8, ebind_error] at h; exact absurd h (by simp)
  | ok v8 =>
  rw [e8, ebind_ok] at h
  by_cases h4 : stripPyStr (((tr.tds.take 13).map (fun td => td.text)).getD 11 "") = ""
  · rw [if_pos h4] at h
    exact absurd h (by simp)
  rw [if_neg h4] at h
  by_cases h5 : stripPyStr (((tr.tds.take 13).map (fun td => td.text)).getD 12 "") = ""
  · rw [if_pos h5] at h
    exact absurd h (by simp)
  rw [if_neg h5] at h
  by_cases h6 : v0 = none ∧ v1 = none ∧ v2 = none ∧ v3 = none ∧ v4 = none ∧
      v5 = none ∧ v6 = none ∧ v7 = none ∧ v8 = none
  · rw [if_pos h6] at h
    exact absurd h (by simp)
  rw [if_neg h6] at h
  obtain rfl := Option.some.inj (Except.ok.inj h)
  dsimp only
  exact ⟨rfl, rfl, rfl, rfl, rfl, rfl, rfl, rfl, rfl⟩

/-- Claim C8 counterexample: a level cell holding the digit string
`"0"` is accepted by the parser (producing `sp_beginner = some 0`) and
`apply_song` persists a chart row with level 0 — which is not a
positive integer. -/
theorem chart_level_zero_accepted :
    parse_song_table
        (some [{ tds := [{ text := "0", colspan := false }] ++
                        List.replicate 8 { text := "-", colspan := false } ++
                        [{ text := "120", colspan := false },
                         { text := "G", colspan := false },
                         { text := "T", colspan := false },
                         { text := "A", colspan := false }] }]) =
      Except.ok [{ title := "T", artist := "A", genre := some "G",
                   sp_beginner := some 0, sp_normal := none, sp_hyper := none,
                   sp_another := none, sp_leggendaria := none, dp_normal := none,
                   dp_hyper := none, dp_another := none, dp_leggendaria := none }] ∧
    ((apply_song id id id 0
        { music := [], chart := [], next_music_id := 1, next_chart_id := 1 }
        { title := "T", artist := "A", genre := some "G",
          sp_beginner := some 0, sp_normal := none, sp_hyper := none,
          sp_another := none, sp_leggendaria := none, dp_normal := none,
          dp_hyper := none, dp_another := none,
          dp_leggendaria := none }).chart.map (fun c => c.level)) = [0] ∧
    ¬ (1 ≤ (0 : Int)) :=
  ⟨rfl, rfl, by decide⟩

/-- `upsert_music` leaves the chart table untouched. -/
theorem upsert_music_chart (nfkc lower sha1_hex : String → String) (now : Nat)
    (s : Store) (song : SongRow) :
    (upsert_music nfkc lower sha1_hex now s song).1.chart = s.chart := by
  unfold upsert_music
  dsimp only
  split <;> rfl

/-- `upsert_chart` preserves nonnegativity of levels when the written
level is nonnegative. -/
theorem upsert_chart_level_nonneg (now : Nat) (s : Store) (mid : Nat) (ps df : String)
    (lvl : Int) (hl : 0 ≤ lvl) (hs : ∀ c ∈ s.chart, 0 ≤ c.level) :
    ∀ c ∈ (upsert_chart now s mid ps df lvl).chart, 0 ≤ c.level := by
  unfold upsert_chart
  split
  · intro c hc
    rcases List.mem_append.mp hc with hc | hc
    · exact hs c hc
    · have : c = { chart_id := s.next_chart_id, music_id := mid,
                   play_style := ps, difficulty := df, level := lvl,
                   is_active := true, last_seen_at := now, created_at := now,
                   updated_at := now } := by simpa using hc
      rw [this]
      exact hl
  · intro c hc
    obtain ⟨c', hc', rfl⟩ := List.mem_map.mp hc
    split
    · exact hl
    · exact hs c' hc'

/-- The chart-slot fold of `apply_song` preserves nonnegativity of
levels when every present slot level is nonnegative. -/
theorem foldl_chartSlot_level_nonneg (now mid : Nat) :
    ∀ (slots : List (String × String × Option Int)) (s : Store),
      (∀ slot ∈ slots, ∀ lvl, slot.2.2 = some lvl → 0 ≤ lvl) →
      (∀ c ∈ s.chart, 0 ≤ c.level) →
      ∀ c ∈ (slots.foldl (chartSlot now mid) s).chart, 0 ≤ c.level := by
  intro slots
  induction slots with
  | nil => intro s _ hs; simpa using hs
  | cons slot rest ih =>
    intro s hslots hs
    rw [List.foldl_cons]
    apply ih
    · intro sl hm lvl he
      exact hslots sl (List.mem_cons_of_mem _ hm) lvl he
    · unfold chartSlot
      cases hsl : slot.2.2 with
      | none => exact hs
      | some lvl =>
        exact upsert_chart_level_nonneg now s mid slot.1 slot.2.1 lvl
          (hslots slot (List.mem_cons_self _ _) lvl hsl) hs

/-- A level present on a slot of `slotList` is one of the song's
levels. -/
theorem slotList_level_mem (song : SongRow) (slot : String × String × Option Int)
    (hmem : slot ∈ slotList song) (lvl : Int) (he : slot.2.2 = some lvl) :
    lvl ∈ songLevels song := by
  simp only [slotList, List.mem_cons, List.not_mem_nil, or_false] at hmem
  rcases hmem with rfl | rfl | rfl | rfl | rfl | rfl | rfl | rfl | rfl <;>
    exact List.mem_filterMap.mpr ⟨_, by simp [songLevels], he⟩

/-- Claim C8 amended: every chart level accepted by the row parser is a
*nonnegative* integer (the digit-string's decimal value; `"0"` is
accepted, so positivity fails but nonnegativity holds), and
`apply_song` persists only such levels: every chart row of the updated
store has a nonnegative level whenever the incoming song's levels and
the store's existing levels are nonnegative. -/
theorem chart_levels_nonneg :
    (∀ (tr : Tr) (row : SongRow), parseRow tr = Except.ok (some row) →
        ∀ lvl ∈ songLevels row, 0 ≤ lvl) ∧
    (∀ (nfkc lower sha1_hex : String → String) (now : Nat) (s : Store) (song : SongRow),
        (∀ lvl ∈ songLevels song, 0 ≤ lvl) →
        (∀ c ∈ s.chart, 0 ≤ c.level) →
        ∀ c ∈ (apply_song nfkc lower sha1_hex now s song).chart, 0 ≤ c.level) := by
  constructor
  · intro tr row h lvl hmem
    obtain ⟨e0, e1, e2, e3, e4, e5, e6, e7, e8⟩ := parseRow_ok_some_levels tr row h
    obtain ⟨a, ha, ha2⟩ := List.mem_filterMap.mp hmem
    simp only [id] at ha2
    subst ha2
    simp only [List.mem_cons, List.not_mem_nil, or_false] at ha
    rcases ha with ha | ha | ha | ha | ha | ha | ha | ha | ha
    · exact parse_level_cell_ok_some _ lvl (by rw [e0, ← ha])
    · exact parse_level_cell_ok_some _ lvl (by rw [e1, ← ha])
    · exact parse_level_cell_ok_some _ lvl (by rw [e2, ← ha])
    · exact parse_level_cell_ok_some _ lvl (by rw [e3, ← ha])
    · exact parse_level_cell_ok_some _ lvl (by rw [e4, ← ha])
    · exact parse_level_cell_ok_some _ lvl (by rw [e5, ← ha])
    · exact parse_level_cell_ok_some _ lvl (by rw [e6, ← ha])
    · exact parse_level_cell_ok_some _ lvl (by rw [e7, ← ha])
    · exact parse_level_cell_ok_some _ lvl (by rw [e8, ← ha])
  · intro nfkc lower sha1_hex now s song hsong hs
    unfold apply_song
    apply foldl_chartSlot_level_nonneg
    · intro slot hm lvl he
      exact hsong lvl (slotList_level_mem song slot hm lvl he)
    · rw [upsert_music_chart]
      exact hs

/-- Witness for the amended C8 at a concrete accepted row. -/
theorem chart_levels_nonneg_witness :
    parseRow { tds := [{ text := "5", colspan := false }] ++
                      List.replicate 8 { text := "-", colspan := false } ++
                      [{ text := "120", colspan := false },
                       { text := "G", colspan := false },
                       { text := "T", colspan := false },
                       { text := "A", colspan := false }] } =
      Except.ok (some { title := "T", artist := "A", genre := some "G",
                        sp_beginner := some 5, sp_normal := none, sp_hyper := none,
                        sp_another := none, sp_leggendaria := none, dp_normal := none,
                        dp_hyper := none, dp_another := none, dp_leggendaria := none }) ∧
    (0 : Int) ≤ 5 := by
  constructor
  · rfl
  · exact chart_levels_nonneg.1
      { tds := [{ text := "5", colspan := false }] ++
               List.replicate 8 { text := "-", colspan := false } ++
               [{ text := "120", colspan := false },
                { text := "G", colspan := false },
                { text := "T", colspan := false },
                { text := "A", colspan := false }] }
      { title := "T", artist := "A", genre := some "G",
        sp_beginner := some 5, sp_normal := none, sp_hyper := none,
        sp_another := none, sp_leggendaria := none, dp_normal := none,
        dp_hyper := none, dp_another := none, dp_leggendaria := none }
      rfl 5 (by decide)

/-! ## Extractor claims C4 and C5 -/

/-- Claim C4: extracting `titletbl` from the source
`SS=35; titletbl={"k1":[SS,"T001","","GENRE","ARTIST","TITLE"]};`
yields exactly the mapping `k1` to
`["-35","T001","","GENRE","ARTIST","TITLE"]`: the named constant `SS`
is substituted by its negated value and the first array element is
coerced to text. -/
theorem extract_titletbl_named_constant_scenario :
    extract_js_object
        ("SS=35; titletbl=\x7b\"k1\":[SS,\"T001\",\"\",\"GENRE\",\"ARTIST\",\"TITLE\"]\x7d;").toList
        "titletbl" =
      Except.ok [("k1", Json.jarr [Json.jstr "-35", Json.jstr "T001", Json.jstr "",
        Json.jstr "GENRE", Json.jstr "ARTIST", Json.jstr "TITLE"])] := rfl

/-- Claim C5 counterexample: with the constant declaration `SS=1`, the
occurrence of `SS` inside the quoted string literal `"a SS b"` of the
extracted body is rewritten to `-1` — it sits inside a string literal
but is not immediately adjacent to a quote character, so the
substitution's lookarounds do not protect it.  This contradicts the
claim that every occurrence inside a quoted string literal is left
unchanged. -/
theorem substConst_rewrites_inside_string_literal :
    extract_js_object ("SS=1; tbl=\x7b\"k\":[\"a SS b\"]\x7d;").toList "tbl" =
      Except.ok [("k", Json.jarr [Json.jstr "a -1 b"])] ∧
    ("a -1 b" : String) ≠ "a SS b" :=
  ⟨rfl, by decide⟩

/-- A list starts with itself followed by anything. -/
theorem listStartsWith_append_self (p t : List Char) :
    listStartsWith p (p ++ t) = true := by
  induction p with
  | nil => rfl
  | cons c cs ih => simp [listStartsWith, ih]

/-- A nonempty pattern cannot start at or beyond the end of the
text. -/
theorem listStartsWith_lt_length (nm l : List Char) (i : Nat) (hnm : nm ≠ [])
    (h : listStartsWith nm (l.drop i) = true) : i < l.length := by
  by_contra hge
  have hnil : l.drop i = [] := by
    rw [List.drop_eq_nil_iff]
    omega
  rw [hnil] at h
  cases nm with
  | nil => exact hnm rfl
  | cons c cs => exact absurd h (by simp [listStartsWith])

/-- The previous-character tracking of the scanner agrees with the last
character of the already-scanned prefix. -/
theorem getLast?_or_step (p : Char) (pre' : List Char) (prev : Option Char) :
    ((p :: pre').getLast?.or prev) = (pre'.getLast?.or (some p)) := by
  cases pre' with
  | nil => simp
  | cons q qs =>
    rw [List.getLast?_cons_cons]
    cases h : (q :: qs).getLast? with
    | none => exact absurd h (by simp)
    | some x => simp

/-- `Option.orElse` (the scanner's `<|>`) agrees with `Option.or`. -/
theorem orElse_or (a b : Option Char) : (a <|> b) = a.or b := by
  cases a <;> rfl

/-- The ASCII boundary test is the parameterized one at the ASCII word
class. -/
theorem constBoundaryOk_eqW (o : Option Char) :
    constBoundaryOk o = constBoundaryOkW isWordChar o := by
  cases o <;> rfl

/-- The extractor's substitution scanner is the parameterized scanner
at the ASCII word class. -/
theorem substConstAux_eq_W (name val : List Char) :
    ∀ (fuel : Nat) (prev : Option Char) (l : List Char),
      substConstAux name val fuel prev l = substConstAuxW isWordChar name val fuel prev l := by
  intro fuel
  induction fuel with
  | zero => intro prev l; rfl
  | succ f ih =>
    intro prev l
    cases l with
    | nil => rfl
    | cons c rest =>
      show substConstAux name val (f + 1) prev (c :: rest)
        = substConstAuxW isWordChar name val (f + 1) prev (c :: rest)
      unfold substConstAux substConstAuxW
      simp only [constBoundaryOk_eqW]
      split
      · rw [ih]
      · rw [ih]

/-- The parameterized scanner copies its input when the name occurs
nowhere in it. -/
theorem substConstAuxW_id (wordc : Char → Bool) (nm val : List Char) :
    ∀ (fuel : Nat) (l : List Char) (prev : Option Char),
      (∀ i, ¬ listStartsWith nm (l.drop i) = true) →
      substConstAuxW wordc nm val fuel prev l = l := by
  intro fuel
  induction fuel with
  | zero => intro l prev _; rfl
  | succ f ih =>
    intro l prev hno
    cases l with
    | nil => rfl
    | cons c rest =>
      show substConstAuxW wordc nm val (f + 1) prev (c :: rest) = c :: rest
      unfold substConstAuxW
      rw [if_neg (fun hc => hno 0 (by simpa using hc.1))]
      congr 1
      apply ih
      intro i h
      exact hno (i + 1) (by simpa using h)

/-- The scanner copies a block in which the name starts nowhere, and
continues after it with the block's last character as the previous
character. -/
theorem substConstAuxW_walk (wordc : Char → Bool) (name val : List Char) :
    ∀ (blk tail : List Char) (prev : Option Char) (fuel : Nat),
      (blk ++ tail).length < fuel →
      (∀ j, j < blk.length → ¬ listStartsWith name ((blk ++ tail).drop j) = true) →
      substConstAuxW wordc name val fuel prev (blk ++ tail)
        = blk ++ substConstAuxW wordc name val (fuel - blk.length)
            (blk.getLast?.or prev) tail := by
  intro blk
  induction blk with
  | nil =>
    intro tail prev fuel _ _
    simp
  | cons b bs ih =>
    intro tail prev fuel hfuel hno
    cases fuel with
    | zero => simp at hfuel
    | succ f =>
      have hne0 : ¬ listStartsWith name ((b :: bs) ++ tail) = true := by
        have := hno 0 (by simp)
        simpa using this
      have hstep : substConstAuxW wordc name val (f + 1) prev ((b :: bs) ++ tail)
          = b :: substConstAuxW wordc name val f (some b) (bs ++ tail) := by
        show substConstAuxW wordc name val (f + 1) prev (b :: (bs ++ tail))
          = b :: substConstAuxW wordc name val f (some b) (bs ++ tail)
        conv_lhs => unfold substConstAuxW
        rw [if_neg (fun hc => hne0 (by simpa using hc.1))]
      have hno' : ∀ j, j < bs.length → ¬ listStartsWith name ((bs ++ tail).drop j) = true := by
        intro j hj h
        exact hno (j + 1) (by simpa using hj) (by simpa using h)
      have hfe : (bs ++ tail).length < f := by
        simp only [List.cons_append, List.length_cons] at hfuel
        omega
      rw [hstep, ih tail (some b) f hfe hno', getLast?_or_step b bs prev]
      simp only [List.cons_append, List.length_cons, Nat.succ_sub_succ]

/-- Core characterization of the parameterized scanner on a decomposed
body: every designated occurrence is replaced by the negated value
exactly when its original neighbours pass the boundary test, and all
other text is copied. -/
theorem substConstAuxW_spec (wordc : Char → Bool) (name val : List Char) (hnm : name ≠ []) :
    ∀ (segs : List (List Char)) (last : List Char) (prev : Option Char) (fuel : Nat),
      (joinUp name segs last).length < fuel →
      sepOK name segs last →
      substConstAuxW wordc name val fuel prev (joinUp name segs last)
        = substSpec wordc name val segs last prev := by
  intro segs
  induction segs with
  | nil =>
    intro last prev fuel _ hsep
    show substConstAuxW wordc name val fuel prev last = last
    apply substConstAuxW_id
    intro i h
    exact hsep i (listStartsWith_lt_length name last i hnm h) h
  | cons s rest ih =>
    intro last prev fuel hfuel hsep
    obtain ⟨hs1, hs2⟩ := hsep
    have hnl : 1 ≤ name.length := by
      cases name with
      | nil => exact absurd rfl hnm
      | cons a b => simp
    have htext : joinUp name (s :: rest) last = s ++ (name ++ joinUp name rest last) := by
      show s ++ name ++ joinUp name rest last = s ++ (name ++ joinUp name rest last)
      rw [List.append_assoc]
    have hlen : (joinUp name (s :: rest) last).length
        = s.length + (name.length + (joinUp name rest last).length) := by
      rw [htext]
      simp
    have hnos : ∀ j, j < s.length →
        ¬ listStartsWith name ((s ++ (name ++ joinUp name rest last)).drop j) = true := by
      intro j hj h
      have := hs1 j (by omega) (by rw [List.append_assoc]; exact h)
      omega
    have hfuel2 : (s ++ (name ++ joinUp name rest last)).length < fuel := by
      rw [← htext]
      exact hfuel
    rw [htext, substConstAuxW_walk wordc name val s _ prev fuel hfuel2 hnos]
    have hflen : name.length + (joinUp name rest last).length < fuel - s.length := by
      rw [hlen] at hfuel
      omega
    obtain ⟨f2, hf2⟩ : ∃ f2, fuel - s.length = f2 + 1 :=
      ⟨fuel - s.length - 1, by omega⟩
    rw [hf2]
    rw [hf2] at hflen
    have hstart : listStartsWith name (name ++ joinUp name rest last) = true :=
      listStartsWith_append_self name _
    have hdrop : (name ++ joinUp name rest last).drop name.length
        = joinUp name rest last := by simp
    cases hnn : name with
    | nil => exact absurd hnn hnm
    | cons c nmt =>
      rw [← hnn]
      have hbody : name ++ joinUp name rest last = c :: (nmt ++ joinUp name rest last) := by
        rw [hnn]
        rfl
      have hlen_name : name.length = nmt.length + 1 := by
        rw [hnn]
        rfl
      by_cases hb : constBoundaryOkW wordc (s.getLast?.or prev) = true ∧
          constBoundaryOkW wordc (joinUp name rest last).head? = true
      · have hjunc : substConstAuxW wordc name val (f2 + 1) (s.getLast?.or prev)
            (name ++ joinUp name rest last)
            = '-' :: val ++ substConstAuxW wordc name val f2
                (name.getLast? <|> (s.getLast?.or prev)) (joinUp name rest last) := by
          rw [hbody]
          show substConstAuxW wordc name val (f2 + 1) (s.getLast?.or prev)
              (c :: (nmt ++ joinUp name rest last)) = _
          conv_lhs => unfold substConstAuxW
          rw [if_pos ⟨by rw [← hbody]; exact hstart, hb.1,
            by rw [← hbody, hdrop]; exact hb.2⟩]
          rw [← hbody, hdrop]
        rw [hjunc, orElse_or,
          ih last (name.getLast?.or (s.getLast?.or prev)) f2 (by omega) hs2]
        show s ++ ('-' :: val ++ substSpec wordc name val rest last
            (name.getLast?.or (s.getLast?.or prev)))
          = substSpec wordc name val (s :: rest) last prev
        conv_rhs => unfold substSpec
        rw [if_pos hb, List.append_assoc]
      · have hjunc : substConstAuxW wordc name val (f2 + 1) (s.getLast?.or prev)
            (name ++ joinUp name rest last)
            = c :: substConstAuxW wordc name val f2 (some c)
                (nmt ++ joinUp name rest last) := by
          rw [hbody]
          show substConstAuxW wordc name val (f2 + 1) (s.getLast?.or prev)
              (c :: (nmt ++ joinUp name rest last)) = _
          conv_lhs => unfold substConstAuxW
          rw [if_neg (fun hc => hb ⟨hc.2.1, by
            rw [← hbody, hdrop] at hc
            exact hc.2.2⟩)]
        have hnon : ∀ j, j < nmt.length →
            ¬ listStartsWith name ((nmt ++ joinUp name rest last).drop j) = true := by
          intro j hj h
          have hshift : listStartsWith name
              ((s ++ name ++ joinUp name rest last).drop (s.length + (1 + j))) = true := by
            rw [List.append_assoc, List.drop_append, hbody, Nat.add_comm 1 j,
              List.drop_succ_cons]
            exact h
          have := hs1 (s.length + (1 + j)) (by omega) hshift
          omega
        have hfw : (nmt ++ joinUp name rest last).length < f2 := by
          rw [List.length_append]
          omega
        rw [hjunc, substConstAuxW_walk wordc name val nmt _ (some c) f2 hfw hnon,
          ih last (nmt.getLast?.or (some c)) (f2 - nmt.length)
            (by rw [List.length_append] at hfw; omega) hs2]
        have hprev : (nmt.getLast?.or (some c)) = name.getLast?.or (s.getLast?.or prev) := by
          rw [hnn, getLast?_or_step c nmt (s.getLast?.or prev)]
        rw [hprev]
        show s ++ (c :: (nmt ++ substSpec wordc name val rest last
            (name.getLast?.or (s.getLast?.or prev))))
          = substSpec wordc name val (s :: rest) last prev
        conv_rhs => unfold substSpec
        rw [if_neg hb, hnn]
        simp [List.append_assoc]

/-- Claim C5, amended and corrected: the rewrite of a declared constant
is boundary-driven, not string-literal-driven.  Decompose the extracted
body as segments separated by occurrences of the constant name (with
the name starting nowhere else); on every such body the substitution
replaces exactly those occurrences whose neighbouring original
characters are each neither a word character nor a quote character by
the negated value — including occurrences inside quoted string
literals — and leaves every occurrence that touches a word character
or a quote character unchanged, copying all other text.  The regex word
class behind `\b` is Unicode-aware, so it enters as the parameter
`wordc`; constant names consist of word characters, which is what makes
`\b` equivalent to the neighbour test. -/
theorem substConstW_amended (wordc : Char → Bool) (name val : String)
    (segs : List (List Char)) (last : List Char)
    (hnm : name.toList ≠ [])
    (_hcc : ∀ ch ∈ name.toList, isConstChar ch = true)
    (hsep : sepOK name.toList segs last) :
    substConstW wordc name val (joinUp name.toList segs last)
      = substSpec wordc name.toList val.toList segs last none :=
  substConstAuxW_spec wordc name.toList val.toList hnm segs last none
    ((joinUp name.toList segs last).length + 1) (Nat.lt_succ_self _) hsep

/-- Witness for the amended C5 at a Unicode word character: in the body
`[あSS,SS]` the first occurrence of `SS` follows HIRAGANA LETTER A — a
word character for the Unicode-aware word class, so no boundary — and
is kept, while the second occurrence sits between `,` and `]` and is
rewritten to `-1`; CPython's `re.sub` on this input produces the same
text. -/
theorem substConstW_amended_witness :
    ("SS".toList ≠ [] ∧ (∀ ch ∈ "SS".toList, isConstChar ch = true) ∧
      sepOK "SS".toList ["[あ".toList, ",".toList] "]".toList) ∧
    substConstW wordcDemo "SS" "1" (joinUp "SS".toList ["[あ".toList, ",".toList] "]".toList)
      = substSpec wordcDemo "SS".toList "1".toList ["[あ".toList, ",".toList] "]".toList none ∧
    joinUp "SS".toList ["[あ".toList, ",".toList] "]".toList = "[あSS,SS]".toList ∧
    substConstW wordcDemo "SS" "1" "[あSS,SS]".toList = "[あSS,-1]".toList :=
  ⟨⟨by decide, by decide, ⟨by decide, by decide, by unfold sepOK; decide⟩⟩,
   substConstW_amended wordcDemo "SS" "1" ["[あ".toList, ",".toList] "]".toList
     (by decide) (by decide) ⟨by decide, by decide, by unfold sepOK; decide⟩,
   by decide, by decide⟩

/-! ## Claim C9 — per-entry extraction mode -/

/-- In-place update of the binding of `k` is found first. -/
theorem find?_map_upd_self (k : String) (v : Json) :
    ∀ m : List (String × Json), (∃ e ∈ m, e.1 = k) →
      List.find? (fun kv => kv.1 == k)
          (m.map (fun e => if e.1 = k then (k, v) else e)) = some (k, v) := by
  intro m
  induction m with
  | nil =>
    rintro ⟨e, he, _⟩
    exact absurd he (List.not_mem_nil e)
  | cons e es ih =>
    rintro ⟨e', he', hk⟩
    by_cases he : e.1 = k
    · rw [List.map_cons, if_pos he]
      rw [List.find?_cons_of_pos _ (by simp)]
    · rw [List.map_cons, if_neg he]
      rw [List.find?_cons_of_neg _ (by simp [he])]
      apply ih
      rcases List.mem_cons.mp he' with rfl | hmem
      · exact absurd hk he
      · exact ⟨e', hmem, hk⟩

/-- In-place update of a different key's binding does not disturb a
lookup. -/
theorem find?_map_upd_other (k k' : String) (hne : k' ≠ k) (v : Json) :
    ∀ m : List (String × Json),
      List.find? (fun kv => kv.1 == k)
          (m.map (fun e => if e.1 = k' then (k', v) else e)) =
        List.find? (fun kv => kv.1 == k) m := by
  intro m
  induction m with
  | nil => rfl
  | cons e es ih =>
    by_cases he : e.1 = k'
    · rw [List.map_cons, if_pos he]
      rw [List.find?_cons_of_neg _ (by simp [hne])]
      rw [List.find?_cons_of_neg _ (by simp [he, hne])]
      exact ih
    · rw [List.map_cons, if_neg he]
      by_cases hek : e.1 = k
      · rw [List.find?_cons_of_pos _ (by simp [hek]),
            List.find?_cons_of_pos _ (by simp [hek])]
      · rw [List.find?_cons_of_neg _ (by simp [hek]),
            List.find?_cons_of_neg _ (by simp [hek])]
        exact ih

/-- Looking up the inserted key after a Python-dict assignment. -/
theorem find?_dictInsertJson_self (k : String) (v : Json) :
    ∀ m : List (String × Json),
      List.find? (fun kv => kv.1 == k) (dictInsertJson k v m) = some (k, v) := by
  intro m
  unfold dictInsertJson
  split
  case isTrue h =>
    apply find?_map_upd_self
    simp only [List.any_eq_true, decide_eq_true_eq] at h
    exact h
  case isFalse h =>
    rw [List.find?_append]
    have h1 : List.find? (fun kv => kv.1 == k) m = none := by
      rw [List.find?_eq_none]
      intro x hx
      simp only [List.any_eq_true, not_exists, not_and, decide_eq_true_eq] at h
      simpa using h x hx
    rw [h1]
    rw [List.find?_cons_of_pos _ (by simp)]
    rfl

/-- Python-dict assignment of a different key does not disturb a
lookup. -/
theorem find?_dictInsertJson_other (k k' : String) (hne : k' ≠ k) (v : Json) :
    ∀ m : List (String × Json),
      List.find? (fun kv => kv.1 == k) (dictInsertJson k' v m) =
        List.find? (fun kv => kv.1 == k) m := by
  intro m
  unfold dictInsertJson
  split
  · exact find?_map_upd_other k k' hne v m
  · rw [List.find?_append]
    cases hm : List.find? (fun kv => kv.1 == k) m with
    | some kv => rfl
    | none =>
      show Option.or none _ = none
      rw [List.find?_cons_of_neg _ (by simp [hne])]
      rfl

/-- Characterization of the per-entry fold: a key's final binding is
the coerced value of the last entry for it whose array parses, and a
key none of whose entries parse keeps whatever binding the accumulator
had. -/
theorem processEntries_fold_find (k : String) :
    ∀ (entries : List (String × List Char)) (acc : List (String × Json)),
      List.find? (fun kv => kv.1 == k) (entries.foldl entryStep acc) =
        (match (entries.filter (fun kv => kv.1 == k && (jsonLoads kv.2).isSome)).getLast? with
         | none => List.find? (fun kv => kv.1 == k) acc
         | some kv => some (k, coerceFirst ((jsonLoads kv.2).getD Json.jnull))) := by
  intro entries
  induction entries with
  | nil => intro acc; rfl
  | cons e es ih =>
    intro acc
    rw [List.foldl_cons]
    cases hp : jsonLoads e.2 with
    | none =>
      have hfil : (e :: es).filter (fun kv => kv.1 == k && (jsonLoads kv.2).isSome) =
          es.filter (fun kv => kv.1 == k && (jsonLoads kv.2).isSome) := by
        rw [List.filter_cons]
        rw [if_neg (by simp [hp])]
      have hstep : entryStep acc e = acc := by
        unfold entryStep
        rw [hp]
      rw [hfil, hstep]
      exact ih acc
    | some v =>
      have hstep : entryStep acc e = dictInsertJson e.1 (coerceFirst v) acc := by
        unfold entryStep
        rw [hp]
      by_cases hk : e.1 = k
      · have hfil : (e :: es).filter (fun kv => kv.1 == k && (jsonLoads kv.2).isSome) =
            e :: es.filter (fun kv => kv.1 == k && (jsonLoads kv.2).isSome) := by
          rw [List.filter_cons, if_pos (by simp [hk, hp])]
        rw [hfil, hstep, hk]
        rw [ih (dictInsertJson k (coerceFirst v) acc)]
        cases hfil2 : es.filter (fun kv => kv.1 == k && (jsonLoads kv.2).isSome) with
        | nil =>
          simp only [List.getLast?_singleton]
          rw [find?_dictInsertJson_self]
          rw [hp]
          rfl
        | cons f fs =>
          rw [List.getLast?_cons_cons]
          have hne : (f :: fs).getLast? ≠ none := by simp
          cases hl : (f :: fs).getLast? with
          | none => exact absurd hl hne
          | some kv => rfl
      · have hfil : (e :: es).filter (fun kv => kv.1 == k && (jsonLoads kv.2).isSome) =
            es.filter (fun kv => kv.1 == k && (jsonLoads kv.2).isSome) := by
          rw [List.filter_cons, if_neg (by simp [hk])]
        rw [hfil, hstep]
        rw [ih (dictInsertJson e.1 (coerceFirst v) acc)]
        cases hfil2 : es.filter (fun kv => kv.1 == k && (jsonLoads kv.2).isSome) with
        | nil =>
          simp only [List.getLast?_nil]
          exact find?_dictInsertJson_other k e.1 hk (coerceFirst v) acc
        | cons f fs => rfl

/-- Claim C9: per-entry extraction isolates failures.  For the
`titletbl` table: (1) the extractor never raises the JSON-parse error —
any error comes from boundary detection; (2) a key all of whose entries
fail to parse is absent from the result; (3) a key with at least one
parsing entry is bound to the coerced value of the last such entry;
and (4) the coercion turns the first element of every nonempty parsed
array into its text. -/
theorem extract_titletbl_per_entry :
    (∀ (js : List Char) (e : ExtractErr),
        extract_js_object js "titletbl" = Except.error e → e ≠ ExtractErr.jsonParseFailed) ∧
    (∀ (entries : List (String × List Char)) (k : String),
        (∀ a, (k, a) ∈ entries → jsonLoads a = none) →
        List.find? (fun kv => kv.1 == k) (processEntries entries) = none) ∧
    (∀ (entries : List (String × List Char)) (k : String) (kv : String × List Char),
        (entries.filter (fun kv => kv.1 == k && (jsonLoads kv.2).isSome)).getLast? = some kv →
        List.find? (fun kv => kv.1 == k) (processEntries entries) =
          some (k, coerceFirst ((jsonLoads kv.2).getD Json.jnull))) ∧
    (∀ (x : Json) (xs : List Json),
        coerceFirst (Json.jarr (x :: xs)) = Json.jarr (Json.jstr (pyStr x) :: xs)) := by
  refine ⟨?_, ?_, ?_, ?_⟩
  · intro js e h
    unfold extract_js_object at h
    split at h
    · injection h with h'
      rw [← h']
      decide
    · split at h
      · injection h with h'
        rw [← h']
        decide
      · split at h
        · injection h with h'
          rw [← h']
          decide
        · simp at h
  · intro entries k hall
    have h := processEntries_fold_find k entries []
    have hfil : entries.filter (fun kv => kv.1 == k && (jsonLoads kv.2).isSome) = [] := by
      rw [List.filter_eq_nil_iff]
      intro kv hkv
      by_cases hk : kv.1 = k
      · have : jsonLoads kv.2 = none := by
          apply hall
          have : kv = (k, kv.2) := by
            cases kv
            simp only at hk
            rw [hk]
          rw [← this]
          exact hkv
        simp [this]
      · simp [hk]
    rw [hfil] at h
    simpa [processEntries] using h
  · intro entries k kv hlast
    have h := processEntries_fold_find k entries []
    rw [hlast] at h
    simpa [processEntries] using h
  · intro x xs
    rfl

/-- Witness for C9 at a concrete entry list: the key `k1` has a failing
entry followed by a parsing entry, so its binding is the coerced second
array; the key `k2` has only a failing entry and is absent. -/
theorem extract_titletbl_per_entry_witness :
    List.find? (fun kv => kv.1 == "k2")
        (processEntries [("k1", "[bad".toList), ("k2", "[bad]".toList),
                         ("k1", "[2,\"T\"]".toList)]) = none ∧
    List.find? (fun kv => kv.1 == "k1")
        (processEntries [("k1", "[bad".toList), ("k2", "[bad]".toList),
                         ("k1", "[2,\"T\"]".toList)]) =
      some ("k1", coerceFirst ((jsonLoads ("[2,\"T\"]").toList).getD Json.jnull)) :=
  ⟨extract_titletbl_per_entry.2.1 _ "k2"
    (by
      intro a ha
      simp only [List.mem_cons, List.not_mem_nil, or_false, Prod.mk.injEq] at ha
      rcases ha with ⟨h1, _⟩ | ⟨_, h2⟩ | ⟨h1, _⟩
      · exact absurd h1 (by decide)
      · rw [h2]
        rfl
      · exact absurd h1 (by decide)),
   extract_titletbl_per_entry.2.2.1 _ "k1" ("k1", "[2,\"T\"]".toList) rfl⟩

/-! ## Reconciliation: strip commutation

Every `db.py` operation commutes with erasing the timestamp columns:
no branch condition reads a timestamp. -/

/-- `find?` by key commutes with stripping music rows. -/
theorem find?_strip_key (l : List MusicRow) (k : String) :
    (l.map stripMusic).find? (fun r => r.music_key == k)
      = (l.find? (fun r => r.music_key == k)).map stripMusic := by
  induction l with
  | nil => rfl
  | cons a t ih =>
    cases h : a.music_key == k with
    | true => simp [List.find?_cons, stripMusic, h]
    | false => simpa [List.find?_cons, stripMusic, h] using ih

/-- `find?` by chart natural key commutes with stripping chart rows. -/
theorem find?_strip_chart (l : List ChartRow) (mid : Nat) (ps df : String) :
    (l.map stripChart).find?
        (fun c => c.music_id == mid && c.play_style == ps && c.difficulty == df)
      = (l.find?
          (fun c => c.music_id == mid && c.play_style == ps && c.difficulty == df)).map
            stripChart := by
  induction l with
  | nil => rfl
  | cons a t ih =>
    cases h : (a.music_id == mid && a.play_style == ps && a.difficulty == df) with
    | true => simp [List.find?_cons, stripChart, h]
    | false => simpa [List.find?_cons, stripChart, h] using ih

/-- `deactivate_all` commutes with the timestamp erasure. -/
theorem strip_deactivate (s : Store) :
    stripStore (deactivate_all s) = deactivate_allP (stripStore s) := by
  simp only [stripStore, deactivate_all, deactivate_allP, List.map_map]
  rfl

/-- `upsert_music` commutes with the timestamp erasure, and returns the
same music id on the stripped store. -/
theorem strip_upsert_music (nfkc lower sha1_hex : String → String) (now : Nat)
    (s : Store) (song : SongRow) :
    stripStore (upsert_music nfkc lower sha1_hex now s song).1
        = (upsert_musicP nfkc lower sha1_hex (stripStore s) song).1 ∧
      (upsert_music nfkc lower sha1_hex now s song).2
        = (upsert_musicP nfkc lower sha1_hex (stripStore s) song).2 := by
  unfold upsert_music upsert_musicP
  simp only [stripStore]
  rw [find?_strip_key]
  cases h : s.music.find? (fun r =>
      r.music_key == sha1_hex (normalize_text nfkc lower song.title ++ "|" ++
        normalize_text nfkc lower song.artist)) with
  | none =>
    simp only [Option.map_none']
    exact ⟨by simp [stripMusic], trivial⟩
  | some r =>
    simp only [Option.map_some']
    refine ⟨?_, rfl⟩
    simp only [List.map_map, PStore.mk.injEq, and_true, true_and]
    apply List.map_congr_left
    intro a _
    by_cases hid : a.music_id = r.music_id
    · simp [Function.comp, stripMusic, hid]
    · simp [Function.comp, stripMusic, hid]

/-- `upsert_chart` commutes with the timestamp erasure. -/
theorem strip_upsert_chart (now : Nat) (s : Store) (mid : Nat) (ps df : String) (lvl : Int) :
    stripStore (upsert_chart now s mid ps df lvl)
      = upsert_chartP (stripStore s) mid ps df lvl := by
  unfold upsert_chart upsert_chartP
  simp only [stripStore]
  rw [find?_strip_chart]
  cases h : s.chart.find?
      (fun c => c.music_id == mid && c.play_style == ps && c.difficulty == df) with
  | none =>
    simp only [Option.map_none']
    simp [stripChart]
  | some c =>
    simp only [Option.map_some']
    simp only [List.map_map, PStore.mk.injEq, and_true, true_and]
    apply List.map_congr_left
    intro a _
    by_cases hid : a.chart_id = c.chart_id
    · simp [Function.comp, stripChart, hid]
    · simp [Function.comp, stripChart, hid]

/-- One chart slot commutes with the timestamp erasure. -/
theorem strip_chartSlot (now mid : Nat) (st : Store) (slot : String × String × Option Int) :
    stripStore (chartSlot now mid st slot) = chartSlotP mid (stripStore st) slot := by
  unfold chartSlot chartSlotP
  cases hs : slot.2.2 with
  | none => rfl
  | some lvl => exact strip_upsert_chart now st mid slot.1 slot.2.1 lvl

/-- The chart-slot fold commutes with the timestamp erasure. -/
theorem strip_chart_fold (now mid : Nat) :
    ∀ (l : List (String × String × Option Int)) (st : Store),
      stripStore (l.foldl (chartSlot now mid) st) = l.foldl (chartSlotP mid) (stripStore st) := by
  intro l
  induction l with
  | nil => intro st; rfl
  | cons x t ih =>
    intro st
    rw [List.foldl_cons, List.foldl_cons, ih, strip_chartSlot]

/-- `apply_song` commutes with the timestamp erasure. -/
theorem strip_apply_song (nfkc lower sha1_hex : String → String) (now : Nat)
    (s : Store) (song : SongRow) :
    stripStore (apply_song nfkc lower sha1_hex now s song)
      = apply_songP nfkc lower sha1_hex (stripStore s) song := by
  simp only [apply_song, apply_songP]
  rw [strip_chart_fold]
  rw [(strip_upsert_music nfkc lower sha1_hex now s song).1,
      (strip_upsert_music nfkc lower sha1_hex now s song).2]

/-- The batch fold of `apply_song` commutes with the timestamp erasure. -/
theorem strip_apply_fold (nfkc lower sha1_hex : String → String) (now : Nat) :
    ∀ (batch : List SongRow) (t : Store),
      stripStore (batch.foldl (apply_song nfkc lower sha1_hex now) t)
        = batch.foldl (apply_songP nfkc lower sha1_hex) (stripStore t) := by
  intro batch
  induction batch with
  | nil => intro t; rfl
  | cons x rest ih =>
    intro t
    rw [List.foldl_cons, List.foldl_cons, ih, strip_apply_song]

/-- The whole reconciliation run commutes with the timestamp erasure. -/
theorem strip_reconcile (nfkc lower sha1_hex : String → String) (now : Nat)
    (s : Store) (batch : List SongRow) :
    stripStore (reconcile nfkc lower sha1_hex now s batch)
      = reconcileP nfkc lower sha1_hex (stripStore s) batch := by
  unfold reconcile reconcileP
  rw [strip_apply_fold, strip_deactivate]

/-- Erasing timestamps preserves the schema constraints. -/
theorem WFStoreP_strip (s : Store) (h : WFStore s) : WFStoreP (stripStore s) := by
  obtain ⟨h1, h2, h3, h4⟩ := h
  refine ⟨?_, ?_, ?_, ?_⟩
  · simpa [stripStore, List.pairwise_map, stripMusic] using h1
  · simpa [stripStore, List.pairwise_map, stripChart] using h2
  · intro r hr
    simp only [stripStore, List.mem_map] at hr
    obtain ⟨a, ha, rfl⟩ := hr
    simpa [stripMusic] using h3 a ha
  · intro c hc
    simp only [stripStore, List.mem_map] at hc
    obtain ⟨a, ha, rfl⟩ := hc
    simpa [stripChart] using h4 a ha

/-! ### Skeleton extension

Each operation leaves the immutable columns of existing rows unchanged
and can only append new rows, so the skeleton sequence of any earlier
state is an initial segment of any later one's. -/

/-- In-place music updates do not change the immutable columns. -/
theorem map_mskel_upd (l : List PMusicRow) (rid : Nat) (g : Option String) :
    (l.map fun r' =>
        if r'.music_id = rid then { r' with genre := g, is_active := true } else r').map mskel
      = l.map mskel := by
  rw [List.map_map]
  apply List.map_congr_left
  intro a _
  by_cases h : a.music_id = rid <;> simp [Function.comp, mskel, h]

/-- In-place chart updates do not change the immutable columns. -/
theorem map_cskel_upd (l : List PChartRow) (cid : Nat) (lvl : Int) :
    (l.map fun c' =>
        if c'.chart_id = cid then { c' with level := lvl, is_active := true } else c').map cskel
      = l.map cskel := by
  rw [List.map_map]
  apply List.map_congr_left
  intro a _
  by_cases h : a.chart_id = cid <;> simp [Function.comp, cskel, h]

/-- `upsert_musicP` leaves the chart table alone and extends the music
skeleton sequence. -/
theorem upsert_musicP_skel (nfkc lower sha1_hex : String → String) (q : PStore) (song : SongRow) :
    (upsert_musicP nfkc lower sha1_hex q song).1.chart = q.chart ∧
    (upsert_musicP nfkc lower sha1_hex q song).1.next_chart_id = q.next_chart_id ∧
    ∃ ext, (upsert_musicP nfkc lower sha1_hex q song).1.music.map mskel
      = q.music.map mskel ++ ext := by
  simp only [upsert_musicP]
  cases h : q.music.find? (fun r =>
      r.music_key == sha1_hex (normalize_text nfkc lower song.title ++ "|" ++
        normalize_text nfkc lower song.artist)) with
  | none => exact ⟨rfl, rfl, _, List.map_append _ _ _⟩
  | some r => exact ⟨rfl, rfl, [], by rw [map_mskel_upd, List.append_nil]⟩

/-- `upsert_chartP` leaves the music table alone and extends the chart
skeleton sequence. -/
theorem upsert_chartP_skel (q : PStore) (mid : Nat) (ps df : String) (lvl : Int) :
    (upsert_chartP q mid ps df lvl).music = q.music ∧
    (upsert_chartP q mid ps df lvl).next_music_id = q.next_music_id ∧
    ∃ ext, (upsert_chartP q mid ps df lvl).chart.map cskel = q.chart.map cskel ++ ext := by
  unfold upsert_chartP
  cases h : q.chart.find?
      (fun c => c.music_id == mid && c.play_style == ps && c.difficulty == df) with
  | none => exact ⟨rfl, rfl, _, List.map_append _ _ _⟩
  | some c => exact ⟨rfl, rfl, [], by rw [map_cskel_upd, List.append_nil]⟩

/-- One chart slot leaves the music table alone and extends the chart
skeleton sequence. -/
theorem chartSlotP_skel (mid : Nat) (st : PStore) (slot : String × String × Option Int) :
    (chartSlotP mid st slot).music = st.music ∧
    (chartSlotP mid st slot).next_music_id = st.next_music_id ∧
    ∃ ext, (chartSlotP mid st slot).chart.map cskel = st.chart.map cskel ++ ext := by
  unfold chartSlotP
  cases hs : slot.2.2 with
  | none => exact ⟨rfl, rfl, [], by simp⟩
  | some lvl => exact upsert_chartP_skel st mid slot.1 slot.2.1 lvl

/-- The chart-slot fold leaves the music table alone and extends the
chart skeleton sequence. -/
theorem chartFoldP_skel (mid : Nat) :
    ∀ (l : List (String × String × Option Int)) (st : PStore),
      (l.foldl (chartSlotP mid) st).music = st.music ∧
      (l.foldl (chartSlotP mid) st).next_music_id = st.next_music_id ∧
      ∃ ext, (l.foldl (chartSlotP mid) st).chart.map cskel = st.chart.map cskel ++ ext := by
  intro l
  induction l with
  | nil => intro st; exact ⟨rfl, rfl, [], by simp⟩
  | cons x t ih =>
    intro st
    obtain ⟨h1, h2, ext1, h3⟩ := chartSlotP_skel mid st x
    obtain ⟨g1, g2, ext2, g3⟩ := ih (chartSlotP mid st x)
    exact ⟨g1.trans h1, g2.trans h2, ext1 ++ ext2, by rw [List.foldl_cons, g3, h3, List.append_assoc]⟩

/-- `apply_songP` extends both skeleton sequences. -/
theorem apply_songP_skel (nfkc lower sha1_hex : String → String) (q : PStore) (song : SongRow) :
    (∃ extM, (apply_songP nfkc lower sha1_hex q song).music.map mskel
        = q.music.map mskel ++ extM) ∧
    ∃ extC, (apply_songP nfkc lower sha1_hex q song).chart.map cskel
        = q.chart.map cskel ++ extC := by
  obtain ⟨h1, h2, extM, h3⟩ := upsert_musicP_skel nfkc lower sha1_hex q song
  obtain ⟨g1, g2, extC, g3⟩ :=
    chartFoldP_skel (upsert_musicP nfkc lower sha1_hex q song).2 (slotList song)
      (upsert_musicP nfkc lower sha1_hex q song).1
  constructor
  · exact ⟨extM, by simp only [apply_songP]; rw [g1, h3]⟩
  · exact ⟨extC, by simp only [apply_songP]; rw [g3, h1]⟩

/-- The batch fold extends both skeleton sequences. -/
theorem batchFoldP_skel (nfkc lower sha1_hex : String → String) :
    ∀ (batch : List SongRow) (t : PStore),
      (∃ extM, (batch.foldl (apply_songP nfkc lower sha1_hex) t).music.map mskel
          = t.music.map mskel ++ extM) ∧
      ∃ extC, (batch.foldl (apply_songP nfkc lower sha1_hex) t).chart.map cskel
          = t.chart.map cskel ++ extC := by
  intro batch
  induction batch with
  | nil => intro t; exact ⟨⟨[], by simp⟩, ⟨[], by simp⟩⟩
  | cons x rest ih =>
    intro t
    obtain ⟨⟨extM1, h1⟩, extC1, h2⟩ := apply_songP_skel nfkc lower sha1_hex t x
    obtain ⟨⟨extM2, g1⟩, extC2, g2⟩ := ih (apply_songP nfkc lower sha1_hex t x)
    exact ⟨⟨extM1 ++ extM2, by rw [List.foldl_cons, g1, h1, List.append_assoc]⟩,
      ⟨extC1 ++ extC2, by rw [List.foldl_cons, g2, h2, List.append_assoc]⟩⟩

/-- A state whose skeleton sequence extends to `l`'s is aligned with `l`. -/
theorem musicAligned_of_ext (a l : List PMusicRow) (ext : List (Nat × String × String × String × String × String))
    (h : l.map mskel = a.map mskel ++ ext) : musicAligned a l := by
  unfold musicAligned
  rw [h, ← List.length_map a mskel, List.take_left]

/-- Chart analogue of `musicAligned_of_ext`. -/
theorem chartAligned_of_ext (a l : List PChartRow) (ext : List (Nat × Nat × String × String))
    (h : l.map cskel = a.map cskel ++ ext) : chartAligned a l := by
  unfold chartAligned
  rw [h, ← List.length_map a cskel, List.take_left]

/-! ### Merge lemmas -/

/-- Skeleton projections of equal skeletons. -/
theorem mskel_key {x y : PMusicRow} (h : mskel x = mskel y) : x.music_key = y.music_key :=
  congrArg (fun t => t.2.1) h

/-- Music ids of equal skeletons agree. -/
theorem mskel_id {x y : PMusicRow} (h : mskel x = mskel y) : x.music_id = y.music_id :=
  congrArg (fun t => t.1) h

/-- Chart ids of equal skeletons agree. -/
theorem cskel_cid {x y : PChartRow} (h : cskel x = cskel y) : x.chart_id = y.chart_id :=
  congrArg (fun t => t.1) h

/-- Music ids of equal chart skeletons agree. -/
theorem cskel_mid {x y : PChartRow} (h : cskel x = cskel y) : x.music_id = y.music_id :=
  congrArg (fun t => t.2.1) h

/-- Play styles of equal chart skeletons agree. -/
theorem cskel_ps {x y : PChartRow} (h : cskel x = cskel y) : x.play_style = y.play_style :=
  congrArg (fun t => t.2.2.1) h

/-- Difficulties of equal chart skeletons agree. -/
theorem cskel_df {x y : PChartRow} (h : cskel x = cskel y) : x.difficulty = y.difficulty :=
  congrArg (fun t => t.2.2.2) h

/-- Merging preserves the immutable columns of the final state. -/
theorem mergeMusic_skel : ∀ (a l : List PMusicRow), (mergeMusic a l).map mskel = l.map mskel := by
  intro a l
  induction l generalizing a with
  | nil => cases a <;> rfl
  | cons r rest ih =>
    cases a with
    | nil => simp [mergeMusic, mskel, ih []]
    | cons a0 as => simp [mergeMusic, mergeMusicRow, mskel, ih as]

/-- Chart analogue of `mergeMusic_skel`. -/
theorem mergeChart_skel : ∀ (a l : List PChartRow), (mergeChart a l).map cskel = l.map cskel := by
  intro a l
  induction l generalizing a with
  | nil => cases a <;> rfl
  | cons c rest ih =>
    cases a with
    | nil => simp [mergeChart, cskel, ih []]
    | cons a0 as => simp [mergeChart, mergeChartRow, cskel, ih as]

/-- Merging an all-inactive intermediate state deactivates the final
state wholesale. -/
theorem mergeMusic_inactive : ∀ (a l : List PMusicRow), (∀ x ∈ a, x.is_active = false) →
    mergeMusic a l = l.map fun r => { r with is_active := false } := by
  intro a l
  induction l generalizing a with
  | nil => intro _; cases a <;> rfl
  | cons r rest ih =>
    intro ha
    cases a with
    | nil => simp [mergeMusic, ih [] (by intro x hx; cases hx)]
    | cons a0 as =>
      have h0 : a0.is_active = false := ha a0 (List.mem_cons_self a0 as)
      simp only [mergeMusic, List.map_cons]
      rw [ih as (fun x hx => ha x (List.mem_cons_of_mem a0 hx))]
      simp [mergeMusicRow, h0]

/-- Chart analogue of `mergeMusic_inactive`. -/
theorem mergeChart_inactive : ∀ (a l : List PChartRow), (∀ x ∈ a, x.is_active = false) →
    mergeChart a l = l.map fun c => { c with is_active := false } := by
  intro a l
  induction l generalizing a with
  | nil => intro _; cases a <;> rfl
  | cons c rest ih =>
    intro ha
    cases a with
    | nil => simp [mergeChart, ih [] (by intro x hx; cases hx)]
    | cons a0 as =>
      have h0 : a0.is_active = false := ha a0 (List.mem_cons_self a0 as)
      simp only [mergeChart, List.map_cons]
      rw [ih as (fun x hx => ha x (List.mem_cons_of_mem a0 hx))]
      simp [mergeChartRow, h0]

/-- Merging a state with itself is the identity. -/
theorem mergeMusic_self : ∀ (l : List PMusicRow), mergeMusic l l = l := by
  intro l
  induction l with
  | nil => rfl
  | cons r rest ih => simp [mergeMusic, mergeMusicRow, ih]

/-- Chart analogue of `mergeMusic_self`. -/
theorem mergeChart_self : ∀ (l : List PChartRow), mergeChart l l = l := by
  intro l
  induction l with
  | nil => rfl
  | cons c rest ih => simp [mergeChart, mergeChartRow, ih]

/-- Merging a store with itself is the identity. -/
theorem mergeStore_self (s : PStore) : mergeStore s s = s := by
  simp [mergeStore, mergeMusic_self, mergeChart_self]

/-- Merging one row keeps the final row's immutable columns. -/
theorem mskel_mergeMusicRow (a r : PMusicRow) : mskel (mergeMusicRow a r) = mskel r := rfl

/-- Chart analogue of `mskel_mergeMusicRow`. -/
theorem cskel_mergeChartRow (a c : PChartRow) : cskel (mergeChartRow a c) = cskel c := rfl

/-- When the intermediate state already holds the key, the merged state
finds a row with the same immutable columns (in particular the same
music id). -/
theorem mergeMusic_find?_some (k : String) :
    ∀ (a l : List PMusicRow), a.map mskel = (l.map mskel).take a.length →
      ∀ r, a.find? (fun x => x.music_key == k) = some r →
        ∃ m, (mergeMusic a l).find? (fun x => x.music_key == k) = some m ∧ mskel m = mskel r := by
  intro a
  induction a with
  | nil => intro l _ r h; simp at h
  | cons a0 as ih =>
    intro l hal r h
    cases l with
    | nil => simp at hal
    | cons r0 rest =>
      simp only [List.map_cons, List.length_cons, List.take_succ_cons, List.cons.injEq] at hal
      obtain ⟨h0, hrest⟩ := hal
      have hkey : a0.music_key = r0.music_key := mskel_key h0
      cases hk : a0.music_key == k with
      | true =>
        have hr : r = a0 := by
          rw [List.find?_cons, hk] at h
          exact (Option.some.injEq _ _ ▸ h).symm
        have hmk : (mergeMusicRow a0 r0).music_key == k := by
          simpa [mergeMusicRow, ← hkey] using hk
        refine ⟨mergeMusicRow a0 r0, ?_, ?_⟩
        · rw [mergeMusic, List.find?_cons, hmk]
        · rw [hr]
          exact (mskel_mergeMusicRow a0 r0).trans h0.symm
      | false =>
        have hmk : ((mergeMusicRow a0 r0).music_key == k) = false := by
          simpa [mergeMusicRow, ← hkey] using hk
        rw [List.find?_cons, hk] at h
        obtain ⟨m, hm1, hm2⟩ := ih rest hrest r h
        refine ⟨m, ?_, hm2⟩
        rw [mergeMusic, List.find?_cons, hmk]
        exact hm1

/-- When the intermediate state lacks the key but the final state's
skeleton holds it right after the intermediate prefix, the merged state
finds the deactivated final row at that position. -/
theorem mergeMusic_find?_after (k : String) :
    ∀ (a l : List PMusicRow) (wsk : Nat × String × String × String × String × String)
      (tail : List (Nat × String × String × String × String × String)),
      l.map mskel = a.map mskel ++ wsk :: tail →
      a.find? (fun x => x.music_key == k) = none →
      wsk.2.1 = k →
      ∃ m, (mergeMusic a l).find? (fun x => x.music_key == k) = some m ∧
        mskel m = wsk ∧ m.is_active = false := by
  intro a
  induction a with
  | nil =>
    intro l wsk tail hal _ hwk
    cases l with
    | nil => simp at hal
    | cons r0 rest =>
      simp only [List.map_cons, List.map_nil, List.nil_append, List.cons.injEq] at hal
      obtain ⟨h0, _⟩ := hal
      have hk : r0.music_key = k := by
        have := congrArg (fun t => t.2.1) h0
        simpa [mskel] using this.trans hwk
      refine ⟨{ r0 with is_active := false }, ?_, ?_, rfl⟩
      · rw [mergeMusic, List.find?_cons]
        have : ({ r0 with is_active := false } : PMusicRow).music_key == k := by
          simp [hk]
        rw [this]
      · simpa [mskel] using h0
  | cons a0 as ih =>
    intro l wsk tail hal hfind hwk
    cases l with
    | nil => simp at hal
    | cons r0 rest =>
      simp only [List.map_cons, List.cons_append, List.cons.injEq] at hal
      obtain ⟨h0, hrest⟩ := hal
      have hkey : a0.music_key = r0.music_key := (mskel_key h0).symm
      cases hk : a0.music_key == k with
      | true => rw [List.find?_cons, hk] at hfind; exact absurd hfind (by simp)
      | false =>
        rw [List.find?_cons, hk] at hfind
        have hmk : ((mergeMusicRow a0 r0).music_key == k) = false := by
          simpa [mergeMusicRow, ← hkey] using hk
        obtain ⟨m, hm1, hm2, hm3⟩ := ih rest wsk tail hrest hfind hwk
        refine ⟨m, ?_, hm2, hm3⟩
        rw [mergeMusic, List.find?_cons, hmk]
        exact hm1

/-- Chart analogue of `mergeMusic_find?_some`. -/
theorem mergeChart_find?_some (mid : Nat) (ps df : String) :
    ∀ (a l : List PChartRow), a.map cskel = (l.map cskel).take a.length →
      ∀ c, a.find? (fun x => x.music_id == mid && x.play_style == ps && x.difficulty == df)
          = some c →
        ∃ m, (mergeChart a l).find?
            (fun x => x.music_id == mid && x.play_style == ps && x.difficulty == df) = some m ∧
          cskel m = cskel c := by
  intro a
  induction a with
  | nil => intro l _ c h; simp at h
  | cons a0 as ih =>
    intro l hal c h
    cases l with
    | nil => simp at hal
    | cons c0 rest =>
      simp only [List.map_cons, List.length_cons, List.take_succ_cons, List.cons.injEq] at hal
      obtain ⟨h0, hrest⟩ := hal
      have hpred : ((mergeChartRow a0 c0).music_id == mid && (mergeChartRow a0 c0).play_style == ps
            && (mergeChartRow a0 c0).difficulty == df)
          = (a0.music_id == mid && a0.play_style == ps && a0.difficulty == df) := by
        simp [mergeChartRow, cskel_mid h0, cskel_ps h0, cskel_df h0]
      cases hk : (a0.music_id == mid && a0.play_style == ps && a0.difficulty == df) with
      | true =>
        have hc : c = a0 := by
          rw [List.find?_cons, hk] at h
          exact (Option.some.injEq _ _ ▸ h).symm
        refine ⟨mergeChartRow a0 c0, ?_, ?_⟩
        · rw [mergeChart, List.find?_cons, hpred.trans hk]
        · rw [hc]
          exact (cskel_mergeChartRow a0 c0).trans h0.symm
      | false =>
        rw [List.find?_cons, hk] at h
        obtain ⟨m, hm1, hm2⟩ := ih rest hrest c h
        refine ⟨m, ?_, hm2⟩
        rw [mergeChart, List.find?_cons, hpred.trans hk]
        exact hm1

/-- Chart analogue of `mergeMusic_find?_after`. -/
theorem mergeChart_find?_after (mid : Nat) (ps df : String) :
    ∀ (a l : List PChartRow) (wsk : Nat × Nat × String × String)
      (tail : List (Nat × Nat × String × String)),
      l.map cskel = a.map cskel ++ wsk :: tail →
      a.find? (fun x => x.music_id == mid && x.play_style == ps && x.difficulty == df) = none →
      wsk.2.1 = mid → wsk.2.2.1 = ps → wsk.2.2.2 = df →
      ∃ m, (mergeChart a l).find?
          (fun x => x.music_id == mid && x.play_style == ps && x.difficulty == df) = some m ∧
        cskel m = wsk ∧ m.is_active = false := by
  intro a
  induction a with
  | nil =>
    intro l wsk tail hal _ hw1 hw2 hw3
    cases l with
    | nil => simp at hal
    | cons c0 rest =>
      simp only [List.map_cons, List.map_nil, List.nil_append, List.cons.injEq] at hal
      obtain ⟨h0, _⟩ := hal
      have e1 : c0.music_id = mid := by
        have := congrArg (fun t => t.2.1) h0
        simpa [cskel] using this.trans hw1
      have e2 : c0.play_style = ps := by
        have := congrArg (fun t => t.2.2.1) h0
        simpa [cskel] using this.trans hw2
      have e3 : c0.difficulty = df := by
        have := congrArg (fun t => t.2.2.2) h0
        simpa [cskel] using this.trans hw3
      refine ⟨{ c0 with is_active := false }, ?_, ?_, rfl⟩
      · rw [mergeChart, List.find?_cons]
        have : (({ c0 with is_active := false } : PChartRow).music_id == mid
            && ({ c0 with is_active := false } : PChartRow).play_style == ps
            && ({ c0 with is_active := false } : PChartRow).difficulty == df) = true := by
          simp [e1, e2, e3]
        rw [this]
      · simpa [cskel] using h0
  | cons a0 as ih =>
    intro l wsk tail hal hfind hw1 hw2 hw3
    cases l with
    | nil => simp at hal
    | cons c0 rest =>
      simp only [List.map_cons, List.cons_append, List.cons.injEq] at hal
      obtain ⟨h0, hrest⟩ := hal
      have hpred : ((mergeChartRow a0 c0).music_id == mid && (mergeChartRow a0 c0).play_style == ps
            && (mergeChartRow a0 c0).difficulty == df)
          = (a0.music_id == mid && a0.play_style == ps && a0.difficulty == df) := by
        simp [mergeChartRow, cskel_mid h0, cskel_ps h0, cskel_df h0]
      cases hk : (a0.music_id == mid && a0.play_style == ps && a0.difficulty == df) with
      | true => rw [List.find?_cons, hk] at hfind; exact absurd hfind (by simp)
      | false =>
        rw [List.find?_cons, hk] at hfind
        obtain ⟨m, hm1, hm2, hm3⟩ := ih rest wsk tail hrest hfind hw1 hw2 hw3
        refine ⟨m, ?_, hm2, hm3⟩
        rw [mergeChart, List.find?_cons, hpred.trans hk]
        exact hm1

/-- Distinctness of a value interposed in a pairwise-distinct list. -/
theorem pairwise_ne_split {α : Type} (A B : List α) (x : α)
    (h : (A ++ x :: B).Pairwise (fun u v => u ≠ v)) :
    (∀ u ∈ A, u ≠ x) ∧ ∀ v ∈ B, x ≠ v := by
  rw [List.pairwise_append] at h
  obtain ⟨_, h2, h3⟩ := h
  exact ⟨fun u hu => h3 u hu x (List.mem_cons_self x B),
    (List.pairwise_cons.mp h2).1⟩

/-- Positional distinctness of music ids along a skeleton decomposition
of a table with pairwise-distinct ids. -/
theorem ids_split_music (l : List PMusicRow)
    (hpw : l.Pairwise (fun u v => u.music_id ≠ v.music_id))
    (ask : List (Nat × String × String × String × String × String))
    (wsk : Nat × String × String × String × String × String)
    (tail : List (Nat × String × String × String × String × String))
    (h : l.map mskel = ask ++ wsk :: tail) :
    (∀ i ∈ ask, i.1 ≠ wsk.1) ∧ ∀ j ∈ tail, wsk.1 ≠ j.1 := by
  have hids : ((l.map mskel).map fun t => t.1).Pairwise (fun u v => u ≠ v) := by
    rw [List.map_map, List.pairwise_map]
    exact hpw
  rw [h, List.map_append, List.map_cons, List.pairwise_append] at hids
  obtain ⟨_, h2, h3⟩ := hids
  constructor
  · intro i hi
    exact h3 i.1 (List.mem_map_of_mem (fun t => t.1) hi) wsk.1
      (List.mem_cons_self _ _)
  · intro j hj
    exact (List.pairwise_cons.mp h2).1 j.1 (List.mem_map_of_mem (fun t => t.1) hj)

/-- Positional distinctness of chart ids along a skeleton decomposition
of a table with pairwise-distinct ids. -/
theorem ids_split_chart (l : List PChartRow)
    (hpw : l.Pairwise (fun u v => u.chart_id ≠ v.chart_id))
    (ask : List (Nat × Nat × String × String))
    (wsk : Nat × Nat × String × String)
    (tail : List (Nat × Nat × String × String))
    (h : l.map cskel = ask ++ wsk :: tail) :
    (∀ i ∈ ask, i.1 ≠ wsk.1) ∧ ∀ j ∈ tail, wsk.1 ≠ j.1 := by
  have hids : ((l.map cskel).map fun t => t.1).Pairwise (fun u v => u ≠ v) := by
    rw [List.map_map, List.pairwise_map]
    exact hpw
  rw [h, List.map_append, List.map_cons, List.pairwise_append] at hids
  obtain ⟨_, h2, h3⟩ := hids
  constructor
  · intro i hi
    exact h3 i.1 (List.mem_map_of_mem (fun t => t.1) hi) wsk.1
      (List.mem_cons_self _ _)
  · intro j hj
    exact (List.pairwise_cons.mp h2).1 j.1 (List.mem_map_of_mem (fun t => t.1) hj)

/-- An in-place music update commutes with merging when the updated id
does not occur among the rows the intermediate state has not reached. -/
theorem mergeMusic_upd (rid : Nat) (g : Option String) :
    ∀ (a l : List PMusicRow), a.map mskel = (l.map mskel).take a.length →
      (∀ x ∈ l.drop a.length, x.music_id ≠ rid) →
      mergeMusic
          (a.map fun r' =>
            if r'.music_id = rid then { r' with genre := g, is_active := true } else r') l
        = (mergeMusic a l).map fun r' =>
            if r'.music_id = rid then { r' with genre := g, is_active := true } else r' := by
  intro a
  induction a with
  | nil =>
    intro l _ hd
    simp only [List.map_nil]
    rw [mergeMusic_inactive [] l (by intro x hx; cases hx), List.map_map]
    apply List.map_congr_left
    intro x hx
    have : x.music_id ≠ rid := hd x (by simpa using hx)
    simp [Function.comp, this]
  | cons a0 as ih =>
    intro l hal hd
    cases l with
    | nil => rfl
    | cons r0 rest =>
      simp only [List.map_cons, List.length_cons, List.take_succ_cons, List.cons.injEq] at hal
      obtain ⟨h0, hrest⟩ := hal
      have hid0 : a0.music_id = r0.music_id := mskel_id h0
      have hd' : ∀ x ∈ rest.drop as.length, x.music_id ≠ rid := by
        intro x hx
        exact hd x (by simpa [List.drop_succ_cons] using hx)
      simp only [List.map_cons, mergeMusic, List.map]
      rw [ih rest hrest hd']
      by_cases hid : a0.music_id = rid
      · simp [mergeMusicRow, hid, ← hid0]
      · simp [mergeMusicRow, hid, ← hid0]

/-- Chart analogue of `mergeMusic_upd`. -/
theorem mergeChart_upd (cid : Nat) (lvl : Int) :
    ∀ (a l : List PChartRow), a.map cskel = (l.map cskel).take a.length →
      (∀ x ∈ l.drop a.length, x.chart_id ≠ cid) →
      mergeChart
          (a.map fun c' =>
            if c'.chart_id = cid then { c' with level := lvl, is_active := true } else c') l
        = (mergeChart a l).map fun c' =>
            if c'.chart_id = cid then { c' with level := lvl, is_active := true } else c' := by
  intro a
  induction a with
  | nil =>
    intro l _ hd
    simp only [List.map_nil]
    rw [mergeChart_inactive [] l (by intro x hx; cases hx), List.map_map]
    apply List.map_congr_left
    intro x hx
    have : x.chart_id ≠ cid := hd x (by simpa using hx)
    simp [Function.comp, this]
  | cons a0 as ih =>
    intro l hal hd
    cases l with
    | nil => rfl
    | cons c0 rest =>
      simp only [List.map_cons, List.length_cons, List.take_succ_cons, List.cons.injEq] at hal
      obtain ⟨h0, hrest⟩ := hal
      have hid0 : a0.chart_id = c0.chart_id := cskel_cid h0
      have hd' : ∀ x ∈ rest.drop as.length, x.chart_id ≠ cid := by
        intro x hx
        exact hd x (by simpa [List.drop_succ_cons] using hx)
      simp only [List.map_cons, mergeChart, List.map]
      rw [ih rest hrest hd']
      by_cases hid : a0.chart_id = cid
      · simp [mergeChartRow, hid, ← hid0]
      · simp [mergeChartRow, hid, ← hid0]

/-- Appending a fresh music row commutes with merging: on the merged
state the same song updates the already-present final row in place. -/
theorem mergeMusic_ins (rid : Nat) (g : Option String) (newRow : PMusicRow)
    (hnid : newRow.music_id = rid) (hng : newRow.genre = g) (hna : newRow.is_active = true) :
    ∀ (a l : List PMusicRow)
      (tail : List (Nat × String × String × String × String × String)),
      l.map mskel = a.map mskel ++ mskel newRow :: tail →
      (∀ x ∈ a, x.music_id ≠ rid) →
      (∀ x ∈ l.drop (a.length + 1), x.music_id ≠ rid) →
      mergeMusic (a ++ [newRow]) l
        = (mergeMusic a l).map fun r' =>
            if r'.music_id = rid then { r' with genre := g, is_active := true } else r' := by
  intro a
  induction a with
  | nil =>
    intro l tail hal _ hd
    cases l with
    | nil => simp at hal
    | cons r0 rest =>
      simp only [List.map_cons, List.map_nil, List.nil_append, List.cons.injEq] at hal
      obtain ⟨h0, _⟩ := hal
      have hid0 : r0.music_id = rid := (mskel_id h0).trans hnid
      have hd2 : ∀ x ∈ rest, x.music_id ≠ rid := by
        intro x hx
        exact hd x (by simpa [List.drop_succ_cons] using hx)
      simp only [List.nil_append, mergeMusic, List.map_cons, List.cons.injEq]
      constructor
      · simp [mergeMusicRow, hna, hng, hid0]
      · rw [mergeMusic_inactive [] rest (by intro x hx; cases hx), List.map_map]
        symm
        apply List.map_congr_left
        intro x hx
        simp [Function.comp, hd2 x hx]
  | cons a0 as ih =>
    intro l tail hal ha hd
    cases l with
    | nil => simp at hal
    | cons r0 rest =>
      simp only [List.map_cons, List.cons_append, List.cons.injEq] at hal
      obtain ⟨h0, hrest⟩ := hal
      have hid0 : r0.music_id = a0.music_id := mskel_id h0
      have ha0 : a0.music_id ≠ rid := ha a0 (List.mem_cons_self a0 as)
      have hd' : ∀ x ∈ rest.drop (as.length + 1), x.music_id ≠ rid := by
        intro x hx
        exact hd x (by simpa [List.drop_succ_cons] using hx)
      simp only [List.cons_append, mergeMusic, List.map_cons, List.cons.injEq]
      constructor
      · simp [mergeMusicRow, hid0, ha0]
      · exact ih rest tail hrest (fun x hx => ha x (List.mem_cons_of_mem a0 hx)) hd'

/-- Chart analogue of `mergeMusic_ins`. -/
theorem mergeChart_ins (cid : Nat) (lvl : Int) (newC : PChartRow)
    (hnid : newC.chart_id = cid) (hng : newC.level = lvl) (hna : newC.is_active = true) :
    ∀ (a l : List PChartRow) (tail : List (Nat × Nat × String × String)),
      l.map cskel = a.map cskel ++ cskel newC :: tail →
      (∀ x ∈ a, x.chart_id ≠ cid) →
      (∀ x ∈ l.drop (a.length + 1), x.chart_id ≠ cid) →
      mergeChart (a ++ [newC]) l
        = (mergeChart a l).map fun c' =>
            if c'.chart_id = cid then { c' with level := lvl, is_active := true } else c' := by
  intro a
  induction a with
  | nil =>
    intro l tail hal _ hd
    cases l with
    | nil => simp at hal
    | cons c0 rest =>
      simp only [List.map_cons, List.map_nil, List.nil_append, List.cons.injEq] at hal
      obtain ⟨h0, _⟩ := hal
      have hid0 : c0.chart_id = cid := (cskel_cid h0).trans hnid
      have hd2 : ∀ x ∈ rest, x.chart_id ≠ cid := by
        intro x hx
        exact hd x (by simpa [List.drop_succ_cons] using hx)
      simp only [List.nil_append, mergeChart, List.map_cons, List.cons.injEq]
      constructor
      · simp [mergeChartRow, hna, hng, hid0]
      · rw [mergeChart_inactive [] rest (by intro x hx; cases hx), List.map_map]
        symm
        apply List.map_congr_left
        intro x hx
        simp [Function.comp, hd2 x hx]
  | cons a0 as ih =>
    intro l tail hal ha hd
    cases l with
    | nil => simp at hal
    | cons c0 rest =>
      simp only [List.map_cons, List.cons_append, List.cons.injEq] at hal
      obtain ⟨h0, hrest⟩ := hal
      have hid0 : c0.chart_id = a0.chart_id := cskel_cid h0
      have ha0 : a0.chart_id ≠ cid := ha a0 (List.mem_cons_self a0 as)
      have hd' : ∀ x ∈ rest.drop (as.length + 1), x.chart_id ≠ cid := by
        intro x hx
        exact hd x (by simpa [List.drop_succ_cons] using hx)
      simp only [List.cons_append, mergeChart, List.map_cons, List.cons.injEq]
      constructor
      · simp [mergeChartRow, hid0, ha0]
      · exact ih rest tail hrest (fun x hx => ha x (List.mem_cons_of_mem a0 hx)) hd'

/-- Rows of the final table beyond the aligned prefix have different
music ids from every row inside the prefix. -/
theorem aligned_drop_ne (s1m t1 : List PMusicRow) (r : PMusicRow)
    (hpw : s1m.Pairwise (fun u v => u.music_id ≠ v.music_id))
    (hal : musicAligned t1 s1m) (hmem : r ∈ t1) :
    ∀ x ∈ s1m.drop t1.length, x.music_id ≠ r.music_id := by
  obtain ⟨u, v, huv⟩ := List.append_of_mem hmem
  subst huv
  have hsplit : s1m.map mskel = (u ++ r :: v).map mskel
      ++ (s1m.map mskel).drop (u ++ r :: v).length := by
    conv_lhs => rw [← List.take_append_drop (u ++ r :: v).length (s1m.map mskel)]
    rw [← hal]
  rw [List.map_append, List.map_cons, List.append_assoc, List.cons_append] at hsplit
  obtain ⟨_, h2⟩ := ids_split_music s1m hpw _ _ _ hsplit
  intro x hx
  have hxm : mskel x ∈ (s1m.map mskel).drop (u ++ r :: v).length := by
    rw [← List.map_drop]
    exact List.mem_map_of_mem mskel hx
  exact Ne.symm (h2 (mskel x) (List.mem_append_right _ hxm))

/-- Chart analogue of `aligned_drop_ne`. -/
theorem aligned_drop_ne_chart (s1c t1 : List PChartRow) (c : PChartRow)
    (hpw : s1c.Pairwise (fun u v => u.chart_id ≠ v.chart_id))
    (hal : chartAligned t1 s1c) (hmem : c ∈ t1) :
    ∀ x ∈ s1c.drop t1.length, x.chart_id ≠ c.chart_id := by
  obtain ⟨u, v, huv⟩ := List.append_of_mem hmem
  subst huv
  have hsplit : s1c.map cskel = (u ++ c :: v).map cskel
      ++ (s1c.map cskel).drop (u ++ c :: v).length := by
    conv_lhs => rw [← List.take_append_drop (u ++ c :: v).length (s1c.map cskel)]
    rw [← hal]
  rw [List.map_append, List.map_cons, List.append_assoc, List.cons_append] at hsplit
  obtain ⟨_, h2⟩ := ids_split_chart s1c hpw _ _ _ hsplit
  intro x hx
  have hxm : cskel x ∈ (s1c.map cskel).drop (u ++ c :: v).length := by
    rw [← List.map_drop]
    exact List.mem_map_of_mem cskel hx
  exact Ne.symm (h2 (cskel x) (List.mem_append_right _ hxm))

/-- Alignment of a one-row extension decomposes the final skeleton
sequence around the new row's skeleton. -/
theorem aligned_snoc_decomp (t1 s1m : List PMusicRow) (w : PMusicRow)
    (hal : musicAligned (t1 ++ [w]) s1m) :
    s1m.map mskel = t1.map mskel ++ mskel w :: (s1m.map mskel).drop (t1.length + 1) := by
  have h1 : t1.map mskel ++ [mskel w] = (s1m.map mskel).take (t1.length + 1) := by
    have := hal
    unfold musicAligned at this
    simpa using this
  conv_lhs => rw [← List.take_append_drop (t1.length + 1) (s1m.map mskel)]
  rw [← h1]
  simp

/-- Chart analogue of `aligned_snoc_decomp`. -/
theorem aligned_snoc_decomp_chart (t1 s1c : List PChartRow) (w : PChartRow)
    (hal : chartAligned (t1 ++ [w]) s1c) :
    s1c.map cskel = t1.map cskel ++ cskel w :: (s1c.map cskel).drop (t1.length + 1) := by
  have h1 : t1.map cskel ++ [cskel w] = (s1c.map cskel).take (t1.length + 1) := by
    have := hal
    unfold chartAligned at this
    simpa using this
  conv_lhs => rw [← List.take_append_drop (t1.length + 1) (s1c.map cskel)]
  rw [← h1]
  simp

/-- On the merged store, upserting a song performs the in-place update
matching the merge of the intermediate upsert, and returns the same
music id. -/
theorem upsert_musicP_merge (nfkc lower sha1_hex : String → String) (song : SongRow)
    (s1 t : PStore)
    (hpw : s1.music.Pairwise (fun u v => u.music_id ≠ v.music_id))
    (hal : musicAligned t.music s1.music)
    (hal' : musicAligned (upsert_musicP nfkc lower sha1_hex t song).1.music s1.music) :
    (upsert_musicP nfkc lower sha1_hex (mergeStore s1 t) song).1
        = mergeStore s1 (upsert_musicP nfkc lower sha1_hex t song).1 ∧
      (upsert_musicP nfkc lower sha1_hex (mergeStore s1 t) song).2
        = (upsert_musicP nfkc lower sha1_hex t song).2 := by
  cases h : t.music.find? (fun r =>
      r.music_key == sha1_hex (normalize_text nfkc lower song.title ++ "|" ++
        normalize_text nfkc lower song.artist)) with
  | some r =>
    obtain ⟨m, hm1, hm2⟩ := mergeMusic_find?_some
      (sha1_hex (normalize_text nfkc lower song.title ++ "|" ++
        normalize_text nfkc lower song.artist)) t.music s1.music hal r h
    have hmid : m.music_id = r.music_id := mskel_id hm2
    have hdrop := aligned_drop_ne s1.music t.music r hpw hal (List.mem_of_find?_eq_some h)
    simp only [upsert_musicP, mergeStore]
    rw [h, hm1]
    refine ⟨?_, hmid⟩
    simp only [PStore.mk.injEq, and_true, true_and]
    rw [hmid]
    exact (mergeMusic_upd r.music_id song.genre t.music s1.music hal hdrop).symm
  | none =>
    simp only [upsert_musicP] at hal'
    rw [h] at hal'
    have hdec := aligned_snoc_decomp t.music s1.music _ hal'
    obtain ⟨m, hm1, hm2, hm3⟩ := mergeMusic_find?_after
      (sha1_hex (normalize_text nfkc lower song.title ++ "|" ++
        normalize_text nfkc lower song.artist)) t.music s1.music _ _ hdec h rfl
    have hmid : m.music_id = t.next_music_id := congrArg (fun s => s.1) hm2
    obtain ⟨hpre, hpost⟩ := ids_split_music s1.music hpw _ _ _ hdec
    simp only [upsert_musicP, mergeStore]
    rw [h, hm1]
    refine ⟨?_, hmid⟩
    simp only [PStore.mk.injEq, and_true, true_and]
    rw [hmid]
    symm
    apply mergeMusic_ins t.next_music_id song.genre _ rfl rfl rfl t.music s1.music _ hdec
    · intro x hx
      exact fun e => hpre (mskel x) (List.mem_map_of_mem mskel hx) e
    · intro x hx
      have hxm : mskel x ∈ (s1.music.map mskel).drop (t.music.length + 1) := by
        rw [← List.map_drop]
        exact List.mem_map_of_mem mskel hx
      exact Ne.symm (hpost (mskel x) hxm)

/-- On the merged store, upserting a chart performs the in-place update
matching the merge of the intermediate upsert. -/
theorem upsert_chartP_merge (mid : Nat) (ps df : String) (lvl : Int) (s1 t : PStore)
    (hpw : s1.chart.Pairwise (fun u v => u.chart_id ≠ v.chart_id))
    (hal : chartAligned t.chart s1.chart)
    (hal' : chartAligned (upsert_chartP t mid ps df lvl).chart s1.chart) :
    upsert_chartP (mergeStore s1 t) mid ps df lvl
      = mergeStore s1 (upsert_chartP t mid ps df lvl) := by
  cases h : t.chart.find?
      (fun c => c.music_id == mid && c.play_style == ps && c.difficulty == df) with
  | some c =>
    obtain ⟨m, hm1, hm2⟩ := mergeChart_find?_some mid ps df t.chart s1.chart hal c h
    have hcid : m.chart_id = c.chart_id := cskel_cid hm2
    have hdrop := aligned_drop_ne_chart s1.chart t.chart c hpw hal (List.mem_of_find?_eq_some h)
    simp only [upsert_chartP, mergeStore]
    rw [h, hm1]
    simp only [PStore.mk.injEq, and_true, true_and]
    rw [hcid]
    exact (mergeChart_upd c.chart_id lvl t.chart s1.chart hal hdrop).symm
  | none =>
    simp only [upsert_chartP] at hal'
    rw [h] at hal'
    have hdec := aligned_snoc_decomp_chart t.chart s1.chart _ hal'
    obtain ⟨m, hm1, hm2, hm3⟩ := mergeChart_find?_after mid ps df t.chart s1.chart _ _
      hdec h rfl rfl rfl
    have hcid : m.chart_id = t.next_chart_id := congrArg (fun s => s.1) hm2
    obtain ⟨hpre, hpost⟩ := ids_split_chart s1.chart hpw _ _ _ hdec
    simp only [upsert_chartP, mergeStore]
    rw [h, hm1]
    simp only [PStore.mk.injEq, and_true, true_and]
    rw [hcid]
    symm
    apply mergeChart_ins t.next_chart_id lvl _ rfl rfl rfl t.chart s1.chart _ hdec
    · intro x hx
      exact fun e => hpre (cskel x) (List.mem_map_of_mem cskel hx) e
    · intro x hx
      have hxm : cskel x ∈ (s1.chart.map cskel).drop (t.chart.length + 1) := by
        rw [← List.map_drop]
        exact List.mem_map_of_mem cskel hx
      exact Ne.symm (hpost (cskel x) hxm)

/-- Alignment transfers down a skeleton extension chain. -/
theorem musicAligned_of_chain (a b s1m : List PMusicRow)
    (ext : List (Nat × String × String × String × String × String))
    (hext : b.map mskel = a.map mskel ++ ext) (hb : musicAligned b s1m) :
    musicAligned a s1m := by
  apply musicAligned_of_ext a s1m (ext ++ (s1m.map mskel).drop b.length)
  conv_lhs => rw [← List.take_append_drop b.length (s1m.map mskel)]
  rw [← hb, hext, List.append_assoc]

/-- Chart analogue of `musicAligned_of_chain`. -/
theorem chartAligned_of_chain (a b s1c : List PChartRow)
    (ext : List (Nat × Nat × String × String))
    (hext : b.map cskel = a.map cskel ++ ext) (hb : chartAligned b s1c) :
    chartAligned a s1c := by
  apply chartAligned_of_ext a s1c (ext ++ (s1c.map cskel).drop b.length)
  conv_lhs => rw [← List.take_append_drop b.length (s1c.map cskel)]
  rw [← hb, hext, List.append_assoc]

/-- Every list is aligned with itself. -/
theorem musicAligned_refl (l : List PMusicRow) : musicAligned l l := by
  unfold musicAligned
  rw [← List.length_map l mskel, List.take_length]

/-- Chart analogue of `musicAligned_refl`. -/
theorem chartAligned_refl (l : List PChartRow) : chartAligned l l := by
  unfold chartAligned
  rw [← List.length_map l cskel, List.take_length]

/-- One chart slot on the merged store merges the intermediate slot. -/
theorem chartSlotP_merge (mid : Nat) (slot : String × String × Option Int) (s1 t : PStore)
    (hpw : s1.chart.Pairwise (fun u v => u.chart_id ≠ v.chart_id))
    (hal : chartAligned t.chart s1.chart)
    (hal' : chartAligned (chartSlotP mid t slot).chart s1.chart) :
    chartSlotP mid (mergeStore s1 t) slot = mergeStore s1 (chartSlotP mid t slot) := by
  unfold chartSlotP at hal' ⊢
  cases hs : slot.2.2 with
  | none => rfl
  | some lvl =>
    rw [hs] at hal'
    exact upsert_chartP_merge mid slot.1 slot.2.1 lvl s1 t hpw hal hal'

/-- The chart-slot fold on the merged store merges the intermediate
fold. -/
theorem chartFoldP_merge (mid : Nat) (s1 : PStore)
    (hpw : s1.chart.Pairwise (fun u v => u.chart_id ≠ v.chart_id)) :
    ∀ (l : List (String × String × Option Int)) (t : PStore),
      chartAligned (l.foldl (chartSlotP mid) t).chart s1.chart →
      chartAligned t.chart s1.chart →
      l.foldl (chartSlotP mid) (mergeStore s1 t) = mergeStore s1 (l.foldl (chartSlotP mid) t) := by
  intro l
  induction l with
  | nil => intro t _ _; rfl
  | cons x rest ih =>
    intro t hfin hal
    rw [List.foldl_cons] at hfin
    have hstep : chartAligned (chartSlotP mid t x).chart s1.chart := by
      obtain ⟨_, _, ext, hext⟩ := chartFoldP_skel mid rest (chartSlotP mid t x)
      exact chartAligned_of_chain _ _ _ ext hext hfin
    rw [List.foldl_cons, List.foldl_cons,
      chartSlotP_merge mid x s1 t hpw hal hstep]
    exact ih (chartSlotP mid t x) hfin hstep

/-- `apply_songP` on the merged store merges the intermediate
`apply_songP`. -/
theorem apply_songP_merge (nfkc lower sha1_hex : String → String) (song : SongRow)
    (s1 t : PStore)
    (hpwM : s1.music.Pairwise (fun u v => u.music_id ≠ v.music_id))
    (hpwC : s1.chart.Pairwise (fun u v => u.chart_id ≠ v.chart_id))
    (halM : musicAligned t.music s1.music)
    (halC : chartAligned t.chart s1.chart)
    (halM' : musicAligned (apply_songP nfkc lower sha1_hex t song).music s1.music)
    (halC' : chartAligned (apply_songP nfkc lower sha1_hex t song).chart s1.chart) :
    apply_songP nfkc lower sha1_hex (mergeStore s1 t) song
      = mergeStore s1 (apply_songP nfkc lower sha1_hex t song) := by
  simp only [apply_songP] at halM' halC' ⊢
  have hmu : musicAligned (upsert_musicP nfkc lower sha1_hex t song).1.music s1.music := by
    have hfold := (chartFoldP_skel (upsert_musicP nfkc lower sha1_hex t song).2
      (slotList song) (upsert_musicP nfkc lower sha1_hex t song).1).1
    rwa [hfold] at halM'
  have hcu : chartAligned (upsert_musicP nfkc lower sha1_hex t song).1.chart s1.chart := by
    rw [(upsert_musicP_skel nfkc lower sha1_hex t song).1]
    exact halC
  obtain ⟨hu1, hu2⟩ := upsert_musicP_merge nfkc lower sha1_hex song s1 t hpwM halM hmu
  rw [hu1, hu2]
  exact chartFoldP_merge (upsert_musicP nfkc lower sha1_hex t song).2 s1 hpwC
    (slotList song) (upsert_musicP nfkc lower sha1_hex t song).1 halC' hcu

/-- The batch fold on the merged store merges the intermediate batch
fold. -/
theorem batchFoldP_merge (nfkc lower sha1_hex : String → String) (s1 : PStore)
    (hpwM : s1.music.Pairwise (fun u v => u.music_id ≠ v.music_id))
    (hpwC : s1.chart.Pairwise (fun u v => u.chart_id ≠ v.chart_id)) :
    ∀ (batch : List SongRow) (t : PStore),
      musicAligned (batch.foldl (apply_songP nfkc lower sha1_hex) t).music s1.music →
      chartAligned (batch.foldl (apply_songP nfkc lower sha1_hex) t).chart s1.chart →
      musicAligned t.music s1.music →
      chartAligned t.chart s1.chart →
      batch.foldl (apply_songP nfkc lower sha1_hex) (mergeStore s1 t)
        = mergeStore s1 (batch.foldl (apply_songP nfkc lower sha1_hex) t) := by
  intro batch
  induction batch with
  | nil => intro t _ _ _ _; rfl
  | cons x rest ih =>
    intro t hfinM hfinC halM halC
    rw [List.foldl_cons] at hfinM hfinC
    have hstepM : musicAligned (apply_songP nfkc lower sha1_hex t x).music s1.music := by
      obtain ⟨⟨extM, hextM⟩, _⟩ :=
        batchFoldP_skel nfkc lower sha1_hex rest (apply_songP nfkc lower sha1_hex t x)
      exact musicAligned_of_chain _ _ _ extM hextM hfinM
    have hstepC : chartAligned (apply_songP nfkc lower sha1_hex t x).chart s1.chart := by
      obtain ⟨_, extC, hextC⟩ :=
        batchFoldP_skel nfkc lower sha1_hex rest (apply_songP nfkc lower sha1_hex t x)
      exact chartAligned_of_chain _ _ _ extC hextC hfinC
    rw [List.foldl_cons, List.foldl_cons,
      apply_songP_merge nfkc lower sha1_hex x s1 t hpwM hpwC halM halC hstepM hstepC]
    exact ih (apply_songP nfkc lower sha1_hex t x) hfinM hfinC hstepM hstepC

/-! ### Schema constraints are preserved by every operation -/

/-- Mapping an id-preserving function keeps ids pairwise distinct. -/
theorem pairwise_ids_map {α : Type} (f : α → α) (idOf : α → Nat) (l : List α)
    (hid : ∀ x, idOf (f x) = idOf x) (h : l.Pairwise (fun a b => idOf a ≠ idOf b)) :
    (l.map f).Pairwise (fun a b => idOf a ≠ idOf b) := by
  rw [List.pairwise_map]
  exact h.imp fun hab => by rw [hid, hid]; exact hab

/-- `deactivate_allP` preserves the schema constraints. -/
theorem WFP_deactivate (s : PStore) (h : WFStoreP s) : WFStoreP (deactivate_allP s) := by
  obtain ⟨h1, h2, h3, h4⟩ := h
  refine ⟨pairwise_ids_map _ _ _ (fun x => rfl) h1, pairwise_ids_map _ _ _ (fun x => rfl) h2,
    ?_, ?_⟩
  · intro r hr
    obtain ⟨a, ha, rfl⟩ := List.mem_map.mp hr
    exact h3 a ha
  · intro c hc
    obtain ⟨a, ha, rfl⟩ := List.mem_map.mp hc
    exact h4 a ha

/-- `upsert_musicP` preserves the schema constraints. -/
theorem WFP_upsert_music (nfkc lower sha1_hex : String → String) (s : PStore) (song : SongRow)
    (h : WFStoreP s) : WFStoreP (upsert_musicP nfkc lower sha1_hex s song).1 := by
  obtain ⟨h1, h2, h3, h4⟩ := h
  simp only [upsert_musicP]
  cases hf : s.music.find? (fun r =>
      r.music_key == sha1_hex (normalize_text nfkc lower song.title ++ "|" ++
        normalize_text nfkc lower song.artist)) with
  | none =>
    refine ⟨?_, h2, ?_, h4⟩
    · rw [List.pairwise_append]
      refine ⟨h1, List.pairwise_singleton _ _, ?_⟩
      intro a ha b hb
      have hb' : b.music_id = s.next_music_id := by
        rcases List.mem_singleton.mp hb with rfl
        rfl
      rw [hb']
      exact Nat.ne_of_lt (h3 a ha)
    · intro r hr
      rcases List.mem_append.mp hr with hr | hr
      · exact Nat.lt_succ_of_lt (h3 r hr)
      · rcases List.mem_singleton.mp hr with rfl
        exact Nat.lt_succ_self _
  | some r =>
    refine ⟨?_, h2, ?_, h4⟩
    · apply pairwise_ids_map _ PMusicRow.music_id _ _ h1
      intro x
      by_cases hx : x.music_id = r.music_id <;> simp [hx]
    · intro x hx
      obtain ⟨a, ha, rfl⟩ := List.mem_map.mp hx
      have : (if a.music_id = r.music_id then
          { a with genre := song.genre, is_active := true } else a).music_id = a.music_id := by
        by_cases hx : a.music_id = r.music_id <;> simp [hx]
      rw [this]
      exact h3 a ha

/-- `upsert_chartP` preserves the schema constraints. -/
theorem WFP_upsert_chart (s : PStore) (mid : Nat) (ps df : String) (lvl : Int)
    (h : WFStoreP s) : WFStoreP (upsert_chartP s mid ps df lvl) := by
  obtain ⟨h1, h2, h3, h4⟩ := h
  simp only [upsert_chartP]
  cases hf : s.chart.find?
      (fun c => c.music_id == mid && c.play_style == ps && c.difficulty == df) with
  | none =>
    refine ⟨h1, ?_, h3, ?_⟩
    · rw [List.pairwise_append]
      refine ⟨h2, List.pairwise_singleton _ _, ?_⟩
      intro a ha b hb
      have hb' : b.chart_id = s.next_chart_id := by
        rcases List.mem_singleton.mp hb with rfl
        rfl
      rw [hb']
      exact Nat.ne_of_lt (h4 a ha)
    · intro c hc
      rcases List.mem_append.mp hc with hc | hc
      · exact Nat.lt_succ_of_lt (h4 c hc)
      · rcases List.mem_singleton.mp hc with rfl
        exact Nat.lt_succ_self _
  | some c =>
    refine ⟨h1, ?_, h3, ?_⟩
    · apply pairwise_ids_map _ PChartRow.chart_id _ _ h2
      intro x
      by_cases hx : x.chart_id = c.chart_id <;> simp [hx]
    · intro x hx
      obtain ⟨a, ha, rfl⟩ := List.mem_map.mp hx
      have : (if a.chart_id = c.chart_id then
          { a with level := lvl, is_active := true } else a).chart_id = a.chart_id := by
        by_cases hx : a.chart_id = c.chart_id <;> simp [hx]
      rw [this]
      exact h4 a ha

/-- One chart slot preserves the schema constraints. -/
theorem WFP_chartSlot (mid : Nat) (st : PStore) (slot : String × String × Option Int)
    (h : WFStoreP st) : WFStoreP (chartSlotP mid st slot) := by
  unfold chartSlotP
  cases hs : slot.2.2 with
  | none => exact h
  | some lvl => exact WFP_upsert_chart st mid slot.1 slot.2.1 lvl h

/-- `apply_songP` preserves the schema constraints. -/
theorem WFP_apply_song (nfkc lower sha1_hex : String → String) (s : PStore) (song : SongRow)
    (h : WFStoreP s) : WFStoreP (apply_songP nfkc lower sha1_hex s song) := by
  simp only [apply_songP]
  have hu := WFP_upsert_music nfkc lower sha1_hex s song h
  generalize (upsert_musicP nfkc lower sha1_hex s song).1 = u at hu
  generalize (upsert_musicP nfkc lower sha1_hex s song).2 = mid
  induction slotList song generalizing u with
  | nil => exact hu
  | cons x rest ih => exact ih (chartSlotP mid u x) (WFP_chartSlot mid u x hu)

/-- The whole reconciliation run preserves the schema constraints. -/
theorem WFP_reconcile (nfkc lower sha1_hex : String → String) (q : PStore)
    (batch : List SongRow) (h : WFStoreP q) :
    WFStoreP (reconcileP nfkc lower sha1_hex q batch) := by
  unfold reconcileP
  have hd := WFP_deactivate q h
  generalize deactivate_allP q = t at hd
  induction batch generalizing t with
  | nil => exact hd
  | cons x rest ih =>
    exact ih (apply_songP nfkc lower sha1_hex t x) (WFP_apply_song nfkc lower sha1_hex t x hd)

/-- Deactivating the first run's final state is the merge of the first
run's deactivation start state. -/
theorem deactP_merge (q s1 : PStore) :
    deactivate_allP s1 = mergeStore s1 (deactivate_allP q) := by
  simp only [deactivate_allP, mergeStore, PStore.mk.injEq, and_true]
  constructor
  · symm
    apply mergeMusic_inactive
    intro x hx
    obtain ⟨a, _, rfl⟩ := List.mem_map.mp hx
    rfl
  · symm
    apply mergeChart_inactive
    intro x hx
    obtain ⟨a, _, rfl⟩ := List.mem_map.mp hx
    rfl

/-- Running the reconciliation a second time over the same batch leaves
the timestamp-erased store unchanged. -/
theorem reconcileP_idem (nfkc lower sha1_hex : String → String) (q : PStore)
    (batch : List SongRow) (hWF : WFStoreP q) :
    reconcileP nfkc lower sha1_hex (reconcileP nfkc lower sha1_hex q batch) batch
      = reconcileP nfkc lower sha1_hex q batch := by
  obtain ⟨hpwM, hpwC, -, -⟩ := WFP_reconcile nfkc lower sha1_hex q batch hWF
  obtain ⟨⟨extM, hextM⟩, extC, hextC⟩ :=
    batchFoldP_skel nfkc lower sha1_hex batch (deactivate_allP q)
  have hfinM : musicAligned
      (batch.foldl (apply_songP nfkc lower sha1_hex) (deactivate_allP q)).music
      (reconcileP nfkc lower sha1_hex q batch).music := musicAligned_refl _
  have hfinC : chartAligned
      (batch.foldl (apply_songP nfkc lower sha1_hex) (deactivate_allP q)).chart
      (reconcileP nfkc lower sha1_hex q batch).chart := chartAligned_refl _
  have ht0M : musicAligned (deactivate_allP q).music
      (reconcileP nfkc lower sha1_hex q batch).music :=
    musicAligned_of_ext _ _ extM hextM
  have ht0C : chartAligned (deactivate_allP q).chart
      (reconcileP nfkc lower sha1_hex q batch).chart :=
    chartAligned_of_ext _ _ extC hextC
  conv_lhs => rw [reconcileP, deactP_merge q (reconcileP nfkc lower sha1_hex q batch)]
  rw [batchFoldP_merge nfkc lower sha1_hex (reconcileP nfkc lower sha1_hex q batch)
    hpwM hpwC batch (deactivate_allP q) hfinM hfinC ht0M ht0C]
  exact mergeStore_self _

/-! ## Reconciliation: batch entities end active -/

/-- `find?` commutes with mapping a function that does not change the
predicate's verdict. -/
theorem find?_map_pred {α : Type} (f : α → α) (p : α → Bool) (hp : ∀ x, p (f x) = p x) :
    ∀ l : List α, (l.map f).find? p = (l.find? p).map f := by
  intro l
  induction l with
  | nil => rfl
  | cons a t ih =>
    cases h : p a with
    | true => simp [List.find?_cons, hp a, h]
    | false => simpa [List.find?_cons, hp a, h] using ih

/-- One chart slot leaves the music table unchanged. -/
theorem chartSlot_music (now mid : Nat) (st : Store) (slot : String × String × Option Int) :
    (chartSlot now mid st slot).music = st.music := by
  unfold chartSlot upsert_chart
  cases hs : slot.2.2 with
  | none => rfl
  | some lvl =>
    cases hf : st.chart.find?
      (fun c => c.music_id == mid && c.play_style == slot.1 && c.difficulty == slot.2.1) <;> rfl

/-- The chart-slot fold leaves the music table unchanged. -/
theorem chartFold_music (now mid : Nat) :
    ∀ (l : List (String × String × Option Int)) (st : Store),
      (l.foldl (chartSlot now mid) st).music = st.music := by
  intro l
  induction l with
  | nil => intro st; rfl
  | cons x rest ih =>
    intro st
    rw [List.foldl_cons, ih, chartSlot_music]

/-- `upsert_music` preserves an active music row under any key. -/
theorem upsert_music_pres (nfkc lower sha1_hex : String → String) (now : Nat)
    (t : Store) (song' : SongRow) (k : String) (mid : Nat)
    (h : MusicActive t.music k mid) :
    MusicActive (upsert_music nfkc lower sha1_hex now t song').1.music k mid := by
  obtain ⟨r, hf, hact, hid⟩ := h
  simp only [upsert_music]
  cases hf' : t.music.find? (fun x =>
      x.music_key == sha1_hex (normalize_text nfkc lower song'.title ++ "|" ++
        normalize_text nfkc lower song'.artist)) with
  | none =>
    refine ⟨r, ?_, hact, hid⟩
    rw [List.find?_append, hf]
    rfl
  | some r0 =>
    have hp : ∀ x : MusicRow,
        ((if x.music_id = r0.music_id then
            { x with genre := song'.genre, is_active := true,
                     last_seen_at := now, updated_at := now }
          else x).music_key == k) = (x.music_key == k) := by
      intro x
      by_cases hx : x.music_id = r0.music_id <;> simp [hx]
    refine ⟨if r.music_id = r0.music_id then
        { r with genre := song'.genre, is_active := true,
                 last_seen_at := now, updated_at := now }
      else r, ?_, ?_, ?_⟩
    · rw [find?_map_pred _ _ hp, hf]
      rfl
    · by_cases hx : r.music_id = r0.music_id
      · rw [if_pos hx]
      · rw [if_neg hx]
        exact hact
    · by_cases hx : r.music_id = r0.music_id
      · rw [if_pos hx]
        exact hid
      · rw [if_neg hx]
        exact hid

/-- `upsert_chart` preserves an active chart row under any triple. -/
theorem upsert_chart_pres (now : Nat) (st : Store) (mid' : Nat) (ps' df' : String) (lvl' : Int)
    (mid : Nat) (ps df : String) (h : ChartActive st.chart mid ps df) :
    ChartActive (upsert_chart now st mid' ps' df' lvl').chart mid ps df := by
  obtain ⟨c, hf, hact⟩ := h
  simp only [upsert_chart]
  cases hf' : st.chart.find?
      (fun x => x.music_id == mid' && x.play_style == ps' && x.difficulty == df') with
  | none =>
    refine ⟨c, ?_, hact⟩
    rw [List.find?_append, hf]
    rfl
  | some c0 =>
    have hp : ∀ x : ChartRow,
        ((if x.chart_id = c0.chart_id then
            { x with level := lvl', is_active := true,
                     last_seen_at := now, updated_at := now }
          else x).music_id == mid
          && (if x.chart_id = c0.chart_id then
            { x with level := lvl', is_active := true,
                     last_seen_at := now, updated_at := now }
          else x).play_style == ps
          && (if x.chart_id = c0.chart_id then
            { x with level := lvl', is_active := true,
                     last_seen_at := now, updated_at := now }
          else x).difficulty == df)
          = (x.music_id == mid && x.play_style == ps && x.difficulty == df) := by
      intro x
      by_cases hx : x.chart_id = c0.chart_id <;> simp [hx]
    refine ⟨if c.chart_id = c0.chart_id then
        { c with level := lvl', is_active := true,
                 last_seen_at := now, updated_at := now }
      else c, ?_, ?_⟩
    · rw [find?_map_pred _ _ hp, hf]
      rfl
    · by_cases hx : c.chart_id = c0.chart_id
      · rw [if_pos hx]
      · rw [if_neg hx]
        exact hact

/-- After `upsert_music`, an active row with the song's key and the
returned id is found. -/
theorem upsert_music_est (nfkc lower sha1_hex : String → String) (now : Nat)
    (t : Store) (song : SongRow) :
    MusicActive (upsert_music nfkc lower sha1_hex now t song).1.music
      (build_music_key nfkc lower sha1_hex song.title song.artist)
      (upsert_music nfkc lower sha1_hex now t song).2 := by
  simp only [upsert_music, build_music_key]
  cases hf : t.music.find? (fun x =>
      x.music_key == sha1_hex (normalize_text nfkc lower song.title ++ "|" ++
        normalize_text nfkc lower song.artist)) with
  | none =>
    dsimp only
    refine ⟨{ music_id := t.next_music_id,
              music_key := sha1_hex (normalize_text nfkc lower song.title ++ "|" ++
                normalize_text nfkc lower song.artist),
              title := song.title, normalized_title := normalize_text nfkc lower song.title,
              artist := song.artist, normalized_artist := normalize_text nfkc lower song.artist,
              genre := song.genre, is_active := true,
              last_seen_at := now, created_at := now, updated_at := now }, ?_, rfl, rfl⟩
    rw [List.find?_append, hf]
    simp [List.find?_cons]
  | some r =>
    have hp : ∀ x : MusicRow,
        ((if x.music_id = r.music_id then
            { x with genre := song.genre, is_active := true,
                     last_seen_at := now, updated_at := now }
          else x).music_key
            == sha1_hex (normalize_text nfkc lower song.title ++ "|" ++
              normalize_text nfkc lower song.artist))
          = (x.music_key == sha1_hex (normalize_text nfkc lower song.title ++ "|" ++
              normalize_text nfkc lower song.artist)) := by
      intro x
      by_cases hx : x.music_id = r.music_id <;> simp [hx]
    dsimp only
    refine ⟨{ r with genre := song.genre, is_active := true,
                     last_seen_at := now, updated_at := now }, ?_, rfl, rfl⟩
    rw [find?_map_pred _ _ hp, hf]
    simp

/-- After `upsert_chart`, an active row with the upserted triple is
found. -/
theorem upsert_chart_est (now : Nat) (st : Store) (mid : Nat) (ps df : String) (lvl : Int) :
    ChartActive (upsert_chart now st mid ps df lvl).chart mid ps df := by
  simp only [upsert_chart]
  cases hf : st.chart.find?
      (fun x => x.music_id == mid && x.play_style == ps && x.difficulty == df) with
  | none =>
    dsimp only
    refine ⟨{ chart_id := st.next_chart_id, music_id := mid,
              play_style := ps, difficulty := df, level := lvl, is_active := true,
              last_seen_at := now, created_at := now, updated_at := now }, ?_, rfl⟩
    rw [List.find?_append, hf]
    simp [List.find?_cons]
  | some c =>
    have hp : ∀ x : ChartRow,
        ((if x.chart_id = c.chart_id then
            { x with level := lvl, is_active := true,
                     last_seen_at := now, updated_at := now }
          else x).music_id == mid
          && (if x.chart_id = c.chart_id then
            { x with level := lvl, is_active := true,
                     last_seen_at := now, updated_at := now }
          else x).play_style == ps
          && (if x.chart_id = c.chart_id then
            { x with level := lvl, is_active := true,
                     last_seen_at := now, updated_at := now }
          else x).difficulty == df)
          = (x.music_id == mid && x.play_style == ps && x.difficulty == df) := by
      intro x
      by_cases hx : x.chart_id = c.chart_id <;> simp [hx]
    dsimp only
    refine ⟨{ c with level := lvl, is_active := true,
                     last_seen_at := now, updated_at := now }, ?_, rfl⟩
    rw [find?_map_pred _ _ hp, hf]
    simp

/-- One chart slot preserves an active chart row. -/
theorem chartSlot_pres (now mid' : Nat) (st : Store) (slot : String × String × Option Int)
    (mid : Nat) (ps df : String) (h : ChartActive st.chart mid ps df) :
    ChartActive (chartSlot now mid' st slot).chart mid ps df := by
  unfold chartSlot
  cases hs : slot.2.2 with
  | none => exact h
  | some lvl => exact upsert_chart_pres now st mid' slot.1 slot.2.1 lvl mid ps df h

/-- The chart-slot fold preserves an active chart row. -/
theorem chartFold_pres (now mid' : Nat) :
    ∀ (l : List (String × String × Option Int)) (st : Store) (mid : Nat) (ps df : String),
      ChartActive st.chart mid ps df →
      ChartActive ((l.foldl (chartSlot now mid') st)).chart mid ps df := by
  intro l
  induction l with
  | nil => intro st mid ps df h; exact h
  | cons x rest ih =>
    intro st mid ps df h
    rw [List.foldl_cons]
    exact ih (chartSlot now mid' st x) mid ps df (chartSlot_pres now mid' st x mid ps df h)

/-- After the chart-slot fold, every slot present in the folded list
has an active chart row. -/
theorem chartFold_est (now mid : Nat) :
    ∀ (l : List (String × String × Option Int)) (st : Store),
      ∀ slot ∈ l, slot.2.2.isSome = true →
        ChartActive ((l.foldl (chartSlot now mid) st)).chart mid slot.1 slot.2.1 := by
  intro l
  induction l with
  | nil => intro st slot hmem; cases hmem
  | cons x rest ih =>
    intro st slot hmem hsome
    rw [List.foldl_cons]
    rcases List.mem_cons.mp hmem with rfl | hmem
    · obtain ⟨lvl, hlvl⟩ := Option.isSome_iff_exists.mp hsome
      apply chartFold_pres
      have : chartSlot now mid st slot = upsert_chart now st mid slot.1 slot.2.1 lvl := by
        unfold chartSlot
        rw [hlvl]
      rw [this]
      exact upsert_chart_est now st mid slot.1 slot.2.1 lvl
    · exact ih (chartSlot now mid st x) slot hmem hsome

/-- `apply_song` makes its own song fully active. -/
theorem apply_song_est (nfkc lower sha1_hex : String → String) (now : Nat)
    (t : Store) (song : SongRow) :
    SongActive nfkc lower sha1_hex (apply_song nfkc lower sha1_hex now t song) song := by
  refine ⟨(upsert_music nfkc lower sha1_hex now t song).2, ?_, ?_⟩
  · simp only [apply_song]
    rw [chartFold_music]
    exact upsert_music_est nfkc lower sha1_hex now t song
  · intro slot hmem hsome
    exact chartFold_est now (upsert_music nfkc lower sha1_hex now t song).2 (slotList song)
      (upsert_music nfkc lower sha1_hex now t song).1 slot hmem hsome

/-- `apply_song` for any other song preserves full activity. -/
theorem apply_song_pres (nfkc lower sha1_hex : String → String) (now : Nat)
    (t : Store) (song' song : SongRow)
    (h : SongActive nfkc lower sha1_hex t song) :
    SongActive nfkc lower sha1_hex (apply_song nfkc lower sha1_hex now t song') song := by
  obtain ⟨mid, hm, hc⟩ := h
  refine ⟨mid, ?_, ?_⟩
  · simp only [apply_song]
    rw [chartFold_music]
    exact upsert_music_pres nfkc lower sha1_hex now t song' _ mid hm
  · intro slot hmem hsome
    simp only [apply_song]
    apply chartFold_pres
    have : (upsert_music nfkc lower sha1_hex now t song').1.chart = t.chart := by
      simp only [upsert_music]
      cases hf : t.music.find? (fun x =>
          x.music_key == sha1_hex (normalize_text nfkc lower song'.title ++ "|" ++
            normalize_text nfkc lower song'.artist)) <;> rfl
    rw [this]
    exact hc slot hmem hsome

/-- The batch fold preserves full activity of any song. -/
theorem fold_pres_song (nfkc lower sha1_hex : String → String) (now : Nat) :
    ∀ (batch : List SongRow) (t : Store) (song : SongRow),
      SongActive nfkc lower sha1_hex t song →
      SongActive nfkc lower sha1_hex (batch.foldl (apply_song nfkc lower sha1_hex now) t) song := by
  intro batch
  induction batch with
  | nil => intro t song h; exact h
  | cons x rest ih =>
    intro t song h
    rw [List.foldl_cons]
    exact ih _ song (apply_song_pres nfkc lower sha1_hex now t x song h)

/-- After the batch fold, every batch song is fully active. -/
theorem fold_est_song (nfkc lower sha1_hex : String → String) (now : Nat) :
    ∀ (batch : List SongRow) (t : Store) (song : SongRow), song ∈ batch →
      SongActive nfkc lower sha1_hex (batch.foldl (apply_song nfkc lower sha1_hex now) t) song := by
  intro batch
  induction batch with
  | nil => intro t song hmem; cases hmem
  | cons x rest ih =>
    intro t song hmem
    rw [List.foldl_cons]
    rcases List.mem_cons.mp hmem with rfl | hmem
    · exact fold_pres_song nfkc lower sha1_hex now rest _ song
        (apply_song_est nfkc lower sha1_hex now t song)
    · exact ih _ song hmem

/-- After reconciliation, every batch song is fully active. -/
theorem reconcile_active (nfkc lower sha1_hex : String → String) (now : Nat)
    (s : Store) (batch : List SongRow) :
    ∀ song ∈ batch,
      SongActive nfkc lower sha1_hex (reconcile nfkc lower sha1_hex now s batch) song := by
  intro song hmem
  exact fold_est_song nfkc lower sha1_hex now batch (deactivate_all s) song hmem

/-- Claim C1: reconciliation is idempotent.  For every schema-valid
store and every batch, running the sequence `deactivate_all` +
`apply_song`-per-record twice with the identical batch (at any two
timestamps) yields the same query-visible state as one run once
timestamp columns are erased — in particular every surrogate
`music_id` and `chart_id` is unchanged — and after a run every music
and chart entity derived from the batch is active. -/
theorem reconcile_idempotent (nfkc lower sha1_hex : String → String) (t1 t2 : Nat)
    (s : Store) (batch : List SongRow) (hWF : WFStore s) :
    stripStore (reconcile nfkc lower sha1_hex t2
        (reconcile nfkc lower sha1_hex t1 s batch) batch)
      = stripStore (reconcile nfkc lower sha1_hex t1 s batch) ∧
    (reconcile nfkc lower sha1_hex t2
        (reconcile nfkc lower sha1_hex t1 s batch) batch).music.map MusicRow.music_id
      = (reconcile nfkc lower sha1_hex t1 s batch).music.map MusicRow.music_id ∧
    (reconcile nfkc lower sha1_hex t2
        (reconcile nfkc lower sha1_hex t1 s batch) batch).chart.map ChartRow.chart_id
      = (reconcile nfkc lower sha1_hex t1 s batch).chart.map ChartRow.chart_id ∧
    ∀ song ∈ batch,
      SongActive nfkc lower sha1_hex (reconcile nfkc lower sha1_hex t1 s batch) song := by
  have hstrip : stripStore (reconcile nfkc lower sha1_hex t2
      (reconcile nfkc lower sha1_hex t1 s batch) batch)
      = stripStore (reconcile nfkc lower sha1_hex t1 s batch) := by
    rw [strip_reconcile, strip_reconcile]
    exact reconcileP_idem nfkc lower sha1_hex (stripStore s) batch (WFStoreP_strip s hWF)
  have hmusic : (stripStore (reconcile nfkc lower sha1_hex t2
      (reconcile nfkc lower sha1_hex t1 s batch) batch)).music
      = (stripStore (reconcile nfkc lower sha1_hex t1 s batch)).music :=
    congrArg PStore.music hstrip
  have hchart : (stripStore (reconcile nfkc lower sha1_hex t2
      (reconcile nfkc lower sha1_hex t1 s batch) batch)).chart
      = (stripStore (reconcile nfkc lower sha1_hex t1 s batch)).chart :=
    congrArg PStore.chart hstrip
  refine ⟨hstrip, ?_, ?_, reconcile_active nfkc lower sha1_hex t1 s batch⟩
  · have := congrArg (List.map PMusicRow.music_id) hmusic
    simpa [stripStore, List.map_map, Function.comp, stripMusic] using this
  · have := congrArg (List.map PChartRow.chart_id) hchart
    simpa [stripStore, List.map_map, Function.comp, stripChart] using this

/-- Concrete instance of `reconcile_idempotent`: the empty store (next
ids 1) is schema-valid, and a one-song batch reconciles idempotently
up to timestamps. -/
theorem reconcile_idempotent_witness :
    WFStore { music := [], chart := [], next_music_id := 1, next_chart_id := 1 } ∧
    stripStore (reconcile id id id 1
        (reconcile id id id 0
          { music := [], chart := [], next_music_id := 1, next_chart_id := 1 }
          [{ title := "T", artist := "A", genre := some "G", sp_beginner := none,
             sp_normal := some 5, sp_hyper := none, sp_another := none,
             sp_leggendaria := none, dp_normal := none, dp_hyper := none,
             dp_another := none, dp_leggendaria := none }])
        [{ title := "T", artist := "A", genre := some "G", sp_beginner := none,
           sp_normal := some 5, sp_hyper := none, sp_another := none,
           sp_leggendaria := none, dp_normal := none, dp_hyper := none,
           dp_another := none, dp_leggendaria := none }])
      = stripStore (reconcile id id id 0
        { music := [], chart := [], next_music_id := 1, next_chart_id := 1 }
        [{ title := "T", artist := "A", genre := some "G", sp_beginner := none,
           sp_normal := some 5, sp_hyper := none, sp_another := none,
           sp_leggendaria := none, dp_normal := none, dp_hyper := none,
           dp_another := none, dp_leggendaria := none }]) :=
  ⟨⟨List.Pairwise.nil, List.Pairwise.nil,
     fun r hr => absurd hr (List.not_mem_nil r), fun c hc => absurd hc (List.not_mem_nil c)⟩,
   (reconcile_idempotent id id id 0 1
     { music := [], chart := [], next_music_id := 1, next_chart_id := 1 }
     [{ title := "T", artist := "A", genre := some "G", sp_beginner := none,
        sp_normal := some 5, sp_hyper := none, sp_another := none,
        sp_leggendaria := none, dp_normal := none, dp_hyper := none,
        dp_another := none, dp_leggendaria := none }]
     ⟨List.Pairwise.nil, List.Pairwise.nil,
      fun r hr => absurd hr (List.not_mem_nil r),
      fun c hc => absurd hc (List.not_mem_nil c)⟩).1⟩

/-! ## Reconciliation: soft delete preserves history -/

/-- The schema constraints transport back from the timestamp-erased
store. -/
theorem WFStore_of_strip (t : Store) (h : WFStoreP (stripStore t)) : WFStore t := by
  obtain ⟨h1, h2, h3, h4⟩ := h
  refine ⟨?_, ?_, ?_, ?_⟩
  · rw [stripStore, List.pairwise_map] at h1
    exact h1.imp fun hab => hab
  · rw [stripStore, List.pairwise_map] at h2
    exact h2.imp fun hab => hab
  · intro r hr
    exact h3 (stripMusic r) (by rw [stripStore]; exact List.mem_map_of_mem stripMusic hr)
  · intro c hc
    exact h4 (stripChart c) (by rw [stripStore]; exact List.mem_map_of_mem stripChart hc)

/-- `deactivate_all` preserves the schema constraints. -/
theorem WF_deactivate (s : Store) (h : WFStore s) : WFStore (deactivate_all s) :=
  WFStore_of_strip _ (by
    rw [strip_deactivate]
    exact WFP_deactivate (stripStore s) (WFStoreP_strip s h))

/-- `apply_song` preserves the schema constraints. -/
theorem WF_apply_song (nfkc lower sha1_hex : String → String) (now : Nat)
    (t : Store) (song : SongRow) (h : WFStore t) :
    WFStore (apply_song nfkc lower sha1_hex now t song) :=
  WFStore_of_strip _ (by
    rw [strip_apply_song]
    exact WFP_apply_song nfkc lower sha1_hex (stripStore t) song (WFStoreP_strip t h))

/-- The music table never shrinks under `upsert_music`. -/
theorem music_len_upsert (nfkc lower sha1_hex : String → String) (now : Nat)
    (t : Store) (song : SongRow) :
    t.music.length ≤ (upsert_music nfkc lower sha1_hex now t song).1.music.length := by
  simp only [upsert_music]
  cases hf : t.music.find? (fun x =>
      x.music_key == sha1_hex (normalize_text nfkc lower song.title ++ "|" ++
        normalize_text nfkc lower song.artist)) with
  | none => simp
  | some r => simp

/-- The chart table never shrinks under `upsert_chart`. -/
theorem chart_len_upsert_chart (now : Nat) (st : Store) (mid : Nat) (ps df : String) (lvl : Int) :
    st.chart.length ≤ (upsert_chart now st mid ps df lvl).chart.length := by
  simp only [upsert_chart]
  cases hf : st.chart.find?
      (fun x => x.music_id == mid && x.play_style == ps && x.difficulty == df) with
  | none => simp
  | some c => simp

/-- The chart table never shrinks under one chart slot. -/
theorem chart_len_chartSlot (now mid : Nat) (st : Store) (slot : String × String × Option Int) :
    st.chart.length ≤ (chartSlot now mid st slot).chart.length := by
  unfold chartSlot
  cases hs : slot.2.2 with
  | none => exact Nat.le_refl _
  | some lvl => exact chart_len_upsert_chart now st mid slot.1 slot.2.1 lvl

/-- The chart table never shrinks under the chart-slot fold. -/
theorem chart_len_chartFold (now mid : Nat) :
    ∀ (l : List (String × String × Option Int)) (st : Store),
      st.chart.length ≤ ((l.foldl (chartSlot now mid) st)).chart.length := by
  intro l
  induction l with
  | nil => intro st; exact Nat.le_refl _
  | cons x rest ih =>
    intro st
    rw [List.foldl_cons]
    exact Nat.le_trans (chart_len_chartSlot now mid st x) (ih (chartSlot now mid st x))

/-- Neither table shrinks under `apply_song`. -/
theorem len_apply_song (nfkc lower sha1_hex : String → String) (now : Nat)
    (t : Store) (song : SongRow) :
    t.music.length ≤ (apply_song nfkc lower sha1_hex now t song).music.length ∧
    t.chart.length ≤ (apply_song nfkc lower sha1_hex now t song).chart.length := by
  constructor
  · simp only [apply_song]
    rw [chartFold_music]
    exact music_len_upsert nfkc lower sha1_hex now t song
  · simp only [apply_song]
    refine Nat.le_trans ?_ (chart_len_chartFold now _ (slotList song) _)
    have : (upsert_music nfkc lower sha1_hex now t song).1.chart = t.chart := by
      simp only [upsert_music]
      cases hf : t.music.find? (fun x =>
          x.music_key == sha1_hex (normalize_text nfkc lower song.title ++ "|" ++
            normalize_text nfkc lower song.artist)) <;> rfl
    rw [this]

/-- Two rows of an id-distinct table with the same id sit at the same
position and are equal. -/
theorem eq_of_id_mem_get (l : List MusicRow)
    (hpw : l.Pairwise (fun a b => a.music_id ≠ b.music_id))
    (j : Nat) (hj : j < l.length) (r0 : MusicRow) (hmem : r0 ∈ l)
    (hid : (l.get ⟨j, hj⟩).music_id = r0.music_id) : l.get ⟨j, hj⟩ = r0 := by
  rw [List.pairwise_iff_getElem] at hpw
  obtain ⟨n, rfl⟩ := List.mem_iff_get.mp hmem
  rcases Nat.lt_trichotomy j n.1 with hlt | heq | hgt
  · exact absurd hid (hpw j n.1 hj n.2 hlt)
  · simp only [List.get_eq_getElem]
    congr 1
  · exact absurd hid.symm (hpw n.1 j n.2 hj hgt)

/-- `apply_song` for a song with a different key leaves an untouched
music row exactly as it was, at the same position. -/
theorem apply_song_untouched (nfkc lower sha1_hex : String → String) (now : Nat)
    (t : Store) (song : SongRow) (j : Nat) (h : j < t.music.length)
    (hpw : t.music.Pairwise (fun a b => a.music_id ≠ b.music_id))
    (hkey : (t.music.get ⟨j, h⟩).music_key
      ≠ sha1_hex (normalize_text nfkc lower song.title ++ "|" ++
        normalize_text nfkc lower song.artist)) :
    ∃ h' : j < (apply_song nfkc lower sha1_hex now t song).music.length,
      (apply_song nfkc lower sha1_hex now t song).music.get ⟨j, h'⟩
        = t.music.get ⟨j, h⟩ := by
  cases hf : t.music.find? (fun x =>
      x.music_key == sha1_hex (normalize_text nfkc lower song.title ++ "|" ++
        normalize_text nfkc lower song.artist)) with
  | none =>
    have heq : (apply_song nfkc lower sha1_hex now t song).music
        = t.music ++ [{ music_id := t.next_music_id,
                        music_key := sha1_hex (normalize_text nfkc lower song.title ++ "|" ++
                          normalize_text nfkc lower song.artist),
                        title := song.title,
                        normalized_title := normalize_text nfkc lower song.title,
                        artist := song.artist,
                        normalized_artist := normalize_text nfkc lower song.artist,
                        genre := song.genre, is_active := true,
                        last_seen_at := now, created_at := now, updated_at := now }] := by
      simp only [apply_song]
      rw [chartFold_music]
      simp only [upsert_music]
      rw [hf]
    have h' : j < (apply_song nfkc lower sha1_hex now t song).music.length := by
      rw [heq, List.length_append]
      exact Nat.lt_of_lt_of_le h (Nat.le_add_right _ _)
    refine ⟨h', ?_⟩
    simp only [List.get_eq_getElem]
    conv_lhs => rw [List.getElem_of_eq heq]
    exact List.getElem_append_left _
  | some r0 =>
    have hr0key : r0.music_key = sha1_hex (normalize_text nfkc lower song.title ++ "|" ++
        normalize_text nfkc lower song.artist) := by
      have := List.find?_some hf
      exact eq_of_beq this
    have hr0mem : r0 ∈ t.music := List.mem_of_find?_eq_some hf
    have heq : (apply_song nfkc lower sha1_hex now t song).music
        = t.music.map fun r' =>
            if r'.music_id = r0.music_id then
              { r' with genre := song.genre, is_active := true,
                        last_seen_at := now, updated_at := now }
            else r' := by
      simp only [apply_song]
      rw [chartFold_music]
      simp only [upsert_music]
      rw [hf]
    have h' : j < (apply_song nfkc lower sha1_hex now t song).music.length := by
      rw [heq, List.length_map]
      exact h
    refine ⟨h', ?_⟩
    simp only [List.get_eq_getElem]
    conv_lhs => rw [List.getElem_of_eq heq]
    rw [List.getElem_map]
    have hne : t.music[j].music_id ≠ r0.music_id := by
      intro hid
      have : t.music.get ⟨j, h⟩ = r0 := eq_of_id_mem_get t.music hpw j h r0 hr0mem hid
      apply hkey
      rw [this]
      exact hr0key
    rw [if_neg hne]

/-- Through the whole batch fold, an untouched music row stays exactly
as it was, and neither table shrinks. -/
theorem fold_untouched (nfkc lower sha1_hex : String → String) (now : Nat) (k : String) :
    ∀ (batch : List SongRow) (t : Store),
      (∀ song ∈ batch,
        sha1_hex (normalize_text nfkc lower song.title ++ "|" ++
          normalize_text nfkc lower song.artist) ≠ k) →
      WFStore t →
      ∀ (j : Nat) (h : j < t.music.length),
        (t.music.get ⟨j, h⟩).music_key = k →
        ∃ h' : j < (batch.foldl (apply_song nfkc lower sha1_hex now) t).music.length,
          (batch.foldl (apply_song nfkc lower sha1_hex now) t).music.get ⟨j, h'⟩
              = t.music.get ⟨j, h⟩ ∧
            t.music.length
              ≤ (batch.foldl (apply_song nfkc lower sha1_hex now) t).music.length ∧
            t.chart.length
              ≤ (batch.foldl (apply_song nfkc lower sha1_hex now) t).chart.length := by
  intro batch
  induction batch with
  | nil =>
    intro t _ _ j h _
    exact ⟨h, rfl, Nat.le_refl _, Nat.le_refl _⟩
  | cons x rest ih =>
    intro t habs hWF j h hjkey
    have hx : sha1_hex (normalize_text nfkc lower x.title ++ "|" ++
        normalize_text nfkc lower x.artist) ≠ k := habs x (List.mem_cons_self x rest)
    obtain ⟨h1, hstep⟩ := apply_song_untouched nfkc lower sha1_hex now t x j h hWF.1
      (by rw [hjkey]; exact fun e => hx e.symm)
    have hWF1 := WF_apply_song nfkc lower sha1_hex now t x hWF
    have hkey1 : ((apply_song nfkc lower sha1_hex now t x).music.get ⟨j, h1⟩).music_key = k := by
      rw [hstep]
      exact hjkey
    obtain ⟨h2, hrow2, hlenM2, hlenC2⟩ := ih (apply_song nfkc lower sha1_hex now t x)
      (fun song hs => habs song (List.mem_cons_of_mem x hs)) hWF1 j h1 hkey1
    rw [List.foldl_cons]
    refine ⟨h2, ?_, ?_, ?_⟩
    · rw [hrow2, hstep]
    · exact Nat.le_trans (len_apply_song nfkc lower sha1_hex now t x).1 hlenM2
    · exact Nat.le_trans (len_apply_song nfkc lower sha1_hex now t x).2 hlenC2

/-- Claim C2: soft delete preserves history.  For every schema-valid
store, every position `j` of its music table, and every batch none of
whose songs has that row's `music_key`, reconciliation never shrinks
either table, and the row at `j` keeps its position, surrogate id and
every other column, with only `is_active` cleared. -/
theorem reconcile_soft_delete (nfkc lower sha1_hex : String → String) (now : Nat)
    (s : Store) (batch : List SongRow) (j : Nat) (hj : j < s.music.length)
    (hWF : WFStore s)
    (habsent : ∀ song ∈ batch,
      build_music_key nfkc lower sha1_hex song.title song.artist
        ≠ (s.music.get ⟨j, hj⟩).music_key) :
    s.music.length ≤ (reconcile nfkc lower sha1_hex now s batch).music.length ∧
    s.chart.length ≤ (reconcile nfkc lower sha1_hex now s batch).chart.length ∧
    ∃ hj' : j < (reconcile nfkc lower sha1_hex now s batch).music.length,
      (reconcile nfkc lower sha1_hex now s batch).music.get ⟨j, hj'⟩
        = { s.music.get ⟨j, hj⟩ with is_active := false } := by
  have hlen0 : (deactivate_all s).music.length = s.music.length := by
    simp [deactivate_all]
  have hlenC0 : (deactivate_all s).chart.length = s.chart.length := by
    simp [deactivate_all]
  have hj0 : j < (deactivate_all s).music.length := hlen0 ▸ hj
  have hrow0 : (deactivate_all s).music.get ⟨j, hj0⟩
      = { s.music.get ⟨j, hj⟩ with is_active := false } := by
    simp [deactivate_all, List.get_eq_getElem, List.getElem_map]
  have hkey0 : ((deactivate_all s).music.get ⟨j, hj0⟩).music_key
      = (s.music.get ⟨j, hj⟩).music_key := by
    rw [hrow0]
  obtain ⟨h', hrow, hlm, hlc⟩ := fold_untouched nfkc lower sha1_hex now
    ((s.music.get ⟨j, hj⟩).music_key) batch (deactivate_all s)
    (fun song hs => habsent song hs) (WF_deactivate s hWF) j hj0 hkey0
  unfold reconcile
  refine ⟨?_, ?_, h', ?_⟩
  · rw [← hlen0]
    exact hlm
  · rw [← hlenC0]
    exact hlc
  · rw [hrow, hrow0]


/-- Concrete instance of `reconcile_soft_delete`: a store holding one
music row whose key the one-song batch does not carry; after
reconciliation the row is still at position 0 with only `is_active`
cleared, and no row was deleted. -/
theorem reconcile_soft_delete_witness :
    (∀ song ∈ [({ title := "T", artist := "A", genre := some "G", sp_beginner := none, sp_normal := some 5, sp_hyper := none, sp_another := none, sp_leggendaria := none, dp_normal := none, dp_hyper := none, dp_another := none, dp_leggendaria := none } : SongRow)],
      build_music_key id id id song.title song.artist ≠ "old") ∧
    ∃ hj' : 0 < (reconcile id id id 7
        { music := [{ music_id := 0, music_key := "old", title := "Old", normalized_title := "old", artist := "X", normalized_artist := "x", genre := none, is_active := true, last_seen_at := 0, created_at := 0, updated_at := 0 }], chart := [], next_music_id := 1, next_chart_id := 1 }
        [{ title := "T", artist := "A", genre := some "G", sp_beginner := none, sp_normal := some 5, sp_hyper := none, sp_another := none, sp_leggendaria := none, dp_normal := none, dp_hyper := none, dp_another := none, dp_leggendaria := none }]).music.length,
      (reconcile id id id 7
        { music := [{ music_id := 0, music_key := "old", title := "Old", normalized_title := "old", artist := "X", normalized_artist := "x", genre := none, is_active := true, last_seen_at := 0, created_at := 0, updated_at := 0 }], chart := [], next_music_id := 1, next_chart_id := 1 }
        [{ title := "T", artist := "A", genre := some "G", sp_beginner := none, sp_normal := some 5, sp_hyper := none, sp_another := none, sp_leggendaria := none, dp_normal := none, dp_hyper := none, dp_another := none, dp_leggendaria := none }]).music.get ⟨0, hj'⟩
        = { music_id := 0, music_key := "old", title := "Old", normalized_title := "old", artist := "X", normalized_artist := "x", genre := none, is_active := false, last_seen_at := 0, created_at := 0, updated_at := 0 } := by
  have habs : ∀ song ∈ [({ title := "T", artist := "A", genre := some "G", sp_beginner := none, sp_normal := some 5, sp_hyper := none, sp_another := none, sp_leggendaria := none, dp_normal := none, dp_hyper := none, dp_another := none, dp_leggendaria := none } : SongRow)],
      build_music_key id id id song.title song.artist ≠ ("old" : String) := by
    decide
  refine ⟨habs, ?_⟩
  have hWF : WFStore { music := [{ music_id := 0, music_key := "old", title := "Old", normalized_title := "old", artist := "X", normalized_artist := "x", genre := none, is_active := true, last_seen_at := 0, created_at := 0, updated_at := 0 }], chart := [], next_music_id := 1, next_chart_id := 1 } := by
    unfold WFStore
    refine ⟨List.pairwise_singleton _ _, List.Pairwise.nil, ?_, ?_⟩
    · intro r hr
      rcases List.mem_singleton.mp hr with rfl
      decide
    · intro c hc
      cases hc
  exact (reconcile_soft_delete id id id 7
    { music := [{ music_id := 0, music_key := "old", title := "Old", normalized_title := "old", artist := "X", normalized_artist := "x", genre := none, is_active := true, last_seen_at := 0, created_at := 0, updated_at := 0 }], chart := [], next_music_id := 1, next_chart_id := 1 }
    [{ title := "T", artist := "A", genre := some "G", sp_beginner := none, sp_normal := some 5, sp_hyper := none, sp_another := none, sp_leggendaria := none, dp_normal := none, dp_hyper := none, dp_another := none, dp_leggendaria := none }]
    0 (by decide) hWF (fun song hs => habs song hs)).2.2

end IidxMaster
